import Mathlib

/-!
# ECGAnalyzer: beat detection and rhythm classification

Shallow embedding of `src/cse265_egcAnalysisProject.cpp` (class `ECGProcessor`).

Modelling conventions.

* A C++ `double` is modelled twice.
  Over exact arithmetic it is a rational (`ℚ`): every comparison, sum, difference and product
  is the exact one, the literals `0.3`, `0.1` and `0.7` are `3/10`, `1/10` and `7/10`, and the
  quotient `60.0 / rrInterval` is exact, with `+∞` for a zero divisor (`HeartRate.inf`).  The
  properties that do not depend on rounding are stated over these definitions: the order of
  the beats, the candidates behind the beats, the bookkeeping of `analyzeECGData`, the index
  bounds and the file names; so is the count of the iterations of the window loop over exact
  arithmetic.
  In double arithmetic (section *Double arithmetic*, names ending in `Fl`) a finite `double`
  is the rational it denotes, comparisons are exact, and the result of every arithmetic
  operation of the source is rounded by `fl`, which is `fl64` for IEEE-754 binary64.  The
  properties that depend on rounding are stated over these definitions: the classification
  near the bounds 60 and 100, the value of the threshold, the gate of the de-duplication, the
  windows of the loop, and whether the loop ends.  With `fl := id` the two agree
  (`findRPeaksFl_id`).
* A `std::vector` is a `List`; `push_back` appends at the end, `back()` is the last element.
* `v[i]` is `v.getD i 0`.  For a record with `time.size() == voltage.size()` every index the
  source uses is in range, so the default is never read.
* A `for` loop over an index range is a left fold over the list of the indices it visits, in
  increasing order.  The window loop of `findRPeaks`, whose counter is a `double`, is a
  recursive function: over exact arithmetic its termination is proved; in double arithmetic
  it need not end, and it takes a bound on the number of its iterations.
* `analyzeECGData` is the computation of the three interval lists; the files it then writes
  are not modelled, only their names are (`generateOutputFilename`, a `std::string` being a
  `String`).
* The functions that index a vector are embedded a second time with every read checked
  (`findThresholdChecked` and the following), `none` standing for a read outside the vector.
-/

namespace ECGProcessor

/-! ## Constants and data model (source lines 15-27) -/

/-- Source line 15: `const double MIN_RR_INTERVAL = 0.3;` -/
def MIN_RR_INTERVAL : ℚ := 3 / 10

/-- Source line 17: `const double INTERVAL_SIZE = 5.0;` -/
def INTERVAL_SIZE : ℚ := 5

/-- Source line 18: `const double STEP_SIZE = 5.0;` -/
def STEP_SIZE : ℚ := 5

/-- Source lines 20-23: `struct ECGRecord`, two parallel vectors. -/
structure ECGRecord where
  time : List ℚ
  voltage : List ℚ
  deriving DecidableEq, Repr

/-- Source lines 25-27: `struct Beat`. -/
structure Beat where
  rPeakTime : ℚ
  deriving DecidableEq, Repr

/-! ## classifyBeat (source lines 57-69) -/

/-- Value of the `double` expression `60.0 / rrInterval`: a finite number, or `+∞` when the
divisor is the zero `0.0`. -/
inductive HeartRate where
  | fin (bpm : ℚ)
  | inf
  deriving DecidableEq, Repr

/-- Source line 59 over exact arithmetic: `double heartRate = 60.0 / rrInterval;` -/
def heartRateOf (rrInterval : ℚ) : HeartRate :=
  if rrInterval = 0 then HeartRate.inf else HeartRate.fin (60 / rrInterval)

/-- The comparison `heartRate < bound` of two doubles; `+∞` is below no finite bound. -/
def HeartRate.ltBound : HeartRate → ℚ → Bool
  | HeartRate.fin bpm, bound => decide (bpm < bound)
  | HeartRate.inf, _ => false

/-- The comparison `heartRate > bound` of two doubles; `+∞` is above every finite bound. -/
def HeartRate.gtBound : HeartRate → ℚ → Bool
  | HeartRate.fin bpm, bound => decide (bpm > bound)
  | HeartRate.inf, _ => true

/-- Source lines 57-69 over exact arithmetic: `string classifyBeat(double rrInterval)
const`. -/
def classifyBeat (rrInterval : ℚ) : String :=
  let heartRate := heartRateOf rrInterval
  if heartRate.ltBound 60 then
    "Bradycardia"
  else if heartRate.gtBound 100 then
    "Tachycardia"
  else
    "Normal"

/-! ## findThreshold (source lines 71-85) -/

/-- Body of the loop at source lines 76-82, for the index `i` and the running `maxVoltage`. -/
def findThresholdStep (record : ECGRecord) (start_time end_time : ℚ)
    (maxVoltage : ℚ) (i : Nat) : ℚ :=
  if record.time.getD i 0 ≥ start_time ∧ record.time.getD i 0 ≤ end_time then
    if record.voltage.getD i 0 > maxVoltage then record.voltage.getD i 0 else maxVoltage
  else
    maxVoltage

/-- Source lines 71-85 over exact arithmetic: `double findThreshold(record, start_time,
end_time) const`.  The loop runs `i` over `0 .. voltage.size() - 1` from `maxVoltage = 0.0`;
the result is `maxVoltage * 0.7`. -/
def findThreshold (record : ECGRecord) (start_time end_time : ℚ) : ℚ :=
  let maxVoltage :=
    (List.range record.voltage.length).foldl (findThresholdStep record start_time end_time) 0
  maxVoltage * (7 / 10)

/-! ## findRPeaks (source lines 87-124) -/

/-- Body of the inner loop at source lines 104-120 for the index `i`, over exact arithmetic:
the window test, the peak test, the de-duplication gate against `beats.back()` (whose
`continue` leaves `beats` unchanged) and the `push_back`. -/
def scanStep (record : ECGRecord) (currentTime intervalEnd threshold : ℚ)
    (beats : List Beat) (i : Nat) : List Beat :=
  let tVal := record.time.getD i 0
  if tVal ≥ currentTime ∧ tVal ≤ intervalEnd then
    if record.voltage.getD i 0 > threshold ∧
        record.voltage.getD i 0 > record.voltage.getD (i - 1) 0 ∧
        record.voltage.getD i 0 > record.voltage.getD (i + 1) 0 then
      match beats.getLast? with
      | some lastBeat =>
        let timeSinceLastBeat := tVal - lastBeat.rPeakTime
        if timeSinceLastBeat < MIN_RR_INTERVAL * (1 / 10) then beats
        else beats ++ [Beat.mk tVal]
      | none => beats ++ [Beat.mk tVal]
    else beats
  else beats

/-- Indices visited by `for (size_t i = 1; i + 1 < record.time.size(); ++i)` (source line
103): `1, 2, .., size - 2`, none when `size < 3`. -/
def interiorIndices (record : ECGRecord) : List Nat :=
  List.range' 1 (record.time.length - 2)

/-- Source lines 103-121: the inner loop over the interior samples, for one window. -/
def scanWindow (record : ECGRecord) (currentTime intervalEnd threshold : ℚ)
    (beats : List Beat) : List Beat :=
  (interiorIndices record).foldl (scanStep record currentTime intervalEnd threshold) beats

/-- Source lines 99-121: one iteration of the window loop, started at `currentTime`. -/
def windowBody (record : ECGRecord) (endTime currentTime : ℚ) (beats : List Beat) :
    List Beat :=
  let intervalEnd := min (currentTime + INTERVAL_SIZE) endTime
  let threshold := findThreshold record currentTime intervalEnd
  scanWindow record currentTime intervalEnd threshold beats

/-- Number of iterations the window loop still has to run from `currentTime`; it decreases at
every iteration. -/
def windowsLeft (endTime currentTime : ℚ) : Nat :=
  ⌈(endTime - currentTime) / STEP_SIZE⌉.toNat

/-- Source lines 97-122 over exact arithmetic: `for (double currentTime = startTime;
currentTime < endTime; currentTime += STEP_SIZE)`, from the counter value `currentTime` and
the beats found so far. -/
def windowLoop (record : ECGRecord) (endTime currentTime : ℚ) (beats : List Beat) :
    List Beat :=
  if _h : currentTime < endTime then
    windowLoop record endTime (currentTime + STEP_SIZE)
      (windowBody record endTime currentTime beats)
  else
    beats
termination_by windowsLeft endTime currentTime
decreasing_by
  unfold windowsLeft STEP_SIZE
  have h1 : (endTime - (currentTime + 5)) / 5 = (endTime - currentTime) / 5 - 1 := by ring
  rw [h1, Int.ceil_sub_one]
  have h2 : 0 < ⌈(endTime - currentTime) / 5⌉ := by
    rw [Int.ceil_pos]
    apply div_pos <;> linarith
  omega

/-- Source lines 87-124 over exact arithmetic: `vector<Beat> findRPeaks(const ECGRecord&
record) const`.  `time.front()` and `time.back()` are read only on the non-empty branch. -/
def findRPeaks (record : ECGRecord) : List Beat :=
  if record.time.isEmpty then
    []
  else
    let startTime := record.time.headD 0
    let endTime := record.time.getLastD 0
    windowLoop record endTime startTime []

/-! ## analyzeECGData (source lines 126-153), the part before the files are written -/

/-- The three vectors of source lines 127-129. -/
structure Segments where
  tachycardiaIntervals : List (ℚ × ℚ)
  bradycardiaIntervals : List (ℚ × ℚ)
  normalIntervals : List (ℚ × ℚ)
  deriving DecidableEq, Repr

/-- The time of `beats[i]`. -/
def beatTime (beats : List Beat) (i : Nat) : ℚ :=
  (beats.getD i (Beat.mk 0)).rPeakTime

/-- Body of the loop at source lines 134-145 for the index `i`. -/
def analyzeStep (beats : List Beat) (seg : Segments) (i : Nat) : Segments :=
  let rrInterval := beatTime beats (i + 1) - beatTime beats i
  let classification := classifyBeat rrInterval
  if classification = "Tachycardia" then
    { seg with tachycardiaIntervals :=
        seg.tachycardiaIntervals ++ [(beatTime beats i, beatTime beats (i + 1))] }
  else if classification = "Bradycardia" then
    { seg with bradycardiaIntervals :=
        seg.bradycardiaIntervals ++ [(beatTime beats i, beatTime beats (i + 1))] }
  else if classification = "Normal" then
    { seg with normalIntervals :=
        seg.normalIntervals ++ [(beatTime beats i, beatTime beats (i + 1))] }
  else seg

/-- Source lines 133-146: `for (size_t i = 0; i + 1 < beats.size(); ++i)`, the indices
`0 .. size - 2`, from three empty vectors. -/
def analyzeBeats (beats : List Beat) : Segments :=
  (List.range (beats.length - 1)).foldl (analyzeStep beats) (Segments.mk [] [] [])

/-- Source lines 126-146: the interval lists `analyzeECGData` hands to `writeAnalysisResult`
for a record. -/
def analyzeECGData (record : ECGRecord) : Segments :=
  analyzeBeats (findRPeaks record)

/-! ## Definitions used to state the properties -/

/-- The pair `(beats[i].rPeakTime, beats[i + 1].rPeakTime)` the loop appends at index `i`. -/
def pairAt (beats : List Beat) (i : Nat) : ℚ × ℚ :=
  (beatTime beats i, beatTime beats (i + 1))

/-- The label of an interval: the classification of its duration. -/
def intervalLabel (p : ℚ × ℚ) : String :=
  classifyBeat (p.2 - p.1)

/-- Voltages of the samples whose time lies in the closed window `[start_time, end_time]`. -/
def windowVoltages (record : ECGRecord) (start_time end_time : ℚ) : List ℚ :=
  ((record.time.zip record.voltage).filter
    (fun s => start_time ≤ s.1 ∧ s.1 ≤ end_time)).map Prod.snd

/-- The number `m` is the maximum of the list `vs`. -/
def IsMaxOf (vs : List ℚ) (m : ℚ) : Prop :=
  m ∈ vs ∧ ∀ v ∈ vs, v ≤ m

instance instDecidableIsMaxOf (vs : List ℚ) (m : ℚ) : Decidable (IsMaxOf vs m) := by
  unfold IsMaxOf
  infer_instance

/-- Counter value `currentTime` of the window loop at its `k`-th iteration, counted from 0. -/
def windowStart (record : ECGRecord) (k : Nat) : ℚ :=
  record.time.headD 0 + k * STEP_SIZE

/-- Value of `intervalEnd` (source line 99) in the window that starts at `currentTime`. -/
def windowEnd (record : ECGRecord) (currentTime : ℚ) : ℚ :=
  min (currentTime + INTERVAL_SIZE) (record.time.getLastD 0)

/-- Sample `i` is a peak candidate in the `k`-th window: the loop runs that window, `i` is an
interior index whose time lies in the window, and its voltage is strictly above the window
threshold and strictly above both neighbours. -/
def IsCandidateIn (record : ECGRecord) (k i : Nat) : Prop :=
  windowStart record k < record.time.getLastD 0 ∧
  (1 ≤ i ∧ i + 1 < record.time.length) ∧
  (windowStart record k ≤ record.time.getD i 0 ∧
    record.time.getD i 0 ≤ windowEnd record (windowStart record k)) ∧
  (record.voltage.getD i 0 >
      findThreshold record (windowStart record k) (windowEnd record (windowStart record k)) ∧
    record.voltage.getD i 0 > record.voltage.getD (i - 1) 0 ∧
    record.voltage.getD i 0 > record.voltage.getD (i + 1) 0)

instance instDecidableIsCandidateIn (record : ECGRecord) (k i : Nat) :
    Decidable (IsCandidateIn record k i) := by
  unfold IsCandidateIn
  infer_instance

/-- The signal of the end-to-end scenario: samples every 0.5 s from 0 s to 5 s, voltage 1 at
the times 1, 2, 3, 4 and 0 elsewhere. -/
def scenarioSignal : ECGRecord :=
  { time := [0, 1 / 2, 1, 3 / 2, 2, 5 / 2, 3, 7 / 2, 4, 9 / 2, 5],
    voltage := [0, 0, 1, 0, 1, 0, 1, 0, 1, 0, 0] }

/-- A signal of two samples, both with a negative voltage. -/
def negativeSignal : ECGRecord :=
  { time := [0, 1], voltage := [-1, -2] }

/-- A signal with a negative voltage among the samples of the window `[0, 1]`. -/
def mixedSignal : ECGRecord :=
  { time := [0, 1, 2], voltage := [1, -2, 3] }

/-- A record with two times and three voltages. -/
def shortSignal : ECGRecord :=
  { time := [0, 7], voltage := [1, 2, 3] }

/-- The signal without samples. -/
def emptySignal : ECGRecord :=
  { time := [], voltage := [] }

/-- A signal with its interior sample at the time 5, the end of the first window and the
start of the second. -/
def boundarySignal : ECGRecord :=
  { time := [0, 5, 10], voltage := [0, 1, 0] }

/-- The windows `(currentTime, intervalEnd)` of the iterations the window loop (source lines
97-99) runs from the counter value `currentTime`, in the order of the iterations. -/
def windowTrace (endTime currentTime : ℚ) : List (ℚ × ℚ) :=
  if _h : currentTime < endTime then
    (currentTime, min (currentTime + INTERVAL_SIZE) endTime) ::
      windowTrace endTime (currentTime + STEP_SIZE)
  else
    []
termination_by windowsLeft endTime currentTime
decreasing_by
  unfold windowsLeft STEP_SIZE
  have h1 : (endTime - (currentTime + 5)) / 5 = (endTime - currentTime) / 5 - 1 := by ring
  rw [h1, Int.ceil_sub_one]
  have h2 : 0 < ⌈(endTime - currentTime) / 5⌉ := by
    rw [Int.ceil_pos]
    apply div_pos <;> linarith
  omega

/-- Source lines 101-121 for one window: the threshold of the window, then the scan. -/
def runWindow (record : ECGRecord) (beats : List Beat) (w : ℚ × ℚ) : List Beat :=
  scanWindow record w.1 w.2 (findThreshold record w.1 w.2) beats

/-! ## The same functions with checked index accesses

Every `v[i]` of the source is `v[i]?` here, every `front()` and `back()` is `head?` and
`getLast?`, and a function returns `none` as soon as it reads outside a vector.  The reads
happen in the order of the source; `&&` reads its right operand only when the left one
holds. -/

/-- Source lines 77-81 with checked reads of `time[i]` and `voltage[i]`. -/
def findThresholdStepChecked (record : ECGRecord) (start_time end_time : ℚ)
    (maxVoltage : ℚ) (i : Nat) : Option ℚ :=
  match record.time[i]? with
  | none => none
  | some t =>
    if t ≥ start_time ∧ t ≤ end_time then
      match record.voltage[i]? with
      | none => none
      | some v => some (if v > maxVoltage then v else maxVoltage)
    else
      some maxVoltage

/-- Source lines 71-85 with checked reads. -/
def findThresholdChecked (record : ECGRecord) (start_time end_time : ℚ) : Option ℚ :=
  ((List.range record.voltage.length).foldlM
    (findThresholdStepChecked record start_time end_time) 0).map
    (fun maxVoltage => maxVoltage * (7 / 10))

/-- Source lines 104-120 with checked reads of `time[i]`, `voltage[i]`, `voltage[i - 1]`,
`voltage[i + 1]` and `beats.back()`. -/
def scanStepChecked (record : ECGRecord) (currentTime intervalEnd threshold : ℚ)
    (beats : List Beat) (i : Nat) : Option (List Beat) :=
  match record.time[i]? with
  | none => none
  | some tVal =>
    if tVal ≥ currentTime ∧ tVal ≤ intervalEnd then
      match record.voltage[i]? with
      | none => none
      | some v =>
        if v > threshold then
          match record.voltage[i - 1]? with
          | none => none
          | some vPrev =>
            if v > vPrev then
              match record.voltage[i + 1]? with
              | none => none
              | some vNext =>
                if v > vNext then
                  if beats.isEmpty then
                    some (beats ++ [Beat.mk tVal])
                  else
                    match beats.getLast? with
                    | none => none
                    | some lastBeat =>
                      if tVal - lastBeat.rPeakTime < MIN_RR_INTERVAL * (1 / 10) then
                        some beats
                      else
                        some (beats ++ [Beat.mk tVal])
                else some beats
            else some beats
        else some beats
    else some beats

/-- Source lines 99-121 with checked reads. -/
def windowBodyChecked (record : ECGRecord) (endTime currentTime : ℚ) (beats : List Beat) :
    Option (List Beat) :=
  let intervalEnd := min (currentTime + INTERVAL_SIZE) endTime
  match findThresholdChecked record currentTime intervalEnd with
  | none => none
  | some threshold =>
    (interiorIndices record).foldlM
      (scanStepChecked record currentTime intervalEnd threshold) beats

/-- Source lines 97-122 with checked reads. -/
def windowLoopChecked (record : ECGRecord) (endTime currentTime : ℚ) (beats : List Beat) :
    Option (List Beat) :=
  if _h : currentTime < endTime then
    match windowBodyChecked record endTime currentTime beats with
    | none => none
    | some beats1 => windowLoopChecked record endTime (currentTime + STEP_SIZE) beats1
  else
    some beats
termination_by windowsLeft endTime currentTime
decreasing_by
  unfold windowsLeft STEP_SIZE
  have h1 : (endTime - (currentTime + 5)) / 5 = (endTime - currentTime) / 5 - 1 := by ring
  rw [h1, Int.ceil_sub_one]
  have h2 : 0 < ⌈(endTime - currentTime) / 5⌉ := by
    rw [Int.ceil_pos]
    apply div_pos <;> linarith
  omega

/-- Source lines 87-124 with checked reads; `front()` and `back()` are `head?` and
`getLast?`. -/
def findRPeaksChecked (record : ECGRecord) : Option (List Beat) :=
  if record.time.isEmpty then
    some []
  else
    match record.time.head?, record.time.getLast? with
    | some startTime, some endTime => windowLoopChecked record endTime startTime []
    | _, _ => none

/-- Source lines 134-145 with checked reads of `beats[i + 1]` and `beats[i]`. -/
def analyzeStepChecked (beats : List Beat) (seg : Segments) (i : Nat) : Option Segments :=
  match beats[i + 1]?, beats[i]? with
  | some nextBeat, some beat =>
    let rrInterval := nextBeat.rPeakTime - beat.rPeakTime
    let classification := classifyBeat rrInterval
    if classification = "Tachycardia" then
      some { seg with tachycardiaIntervals :=
        seg.tachycardiaIntervals ++ [(beat.rPeakTime, nextBeat.rPeakTime)] }
    else if classification = "Bradycardia" then
      some { seg with bradycardiaIntervals :=
        seg.bradycardiaIntervals ++ [(beat.rPeakTime, nextBeat.rPeakTime)] }
    else if classification = "Normal" then
      some { seg with normalIntervals :=
        seg.normalIntervals ++ [(beat.rPeakTime, nextBeat.rPeakTime)] }
    else some seg
  | _, _ => none

/-- Source lines 133-146 with checked reads. -/
def analyzeBeatsChecked (beats : List Beat) : Option Segments :=
  (List.range (beats.length - 1)).foldlM (analyzeStepChecked beats) (Segments.mk [] [] [])

/-- Source lines 126-146 with checked reads. -/
def analyzeECGDataChecked (record : ECGRecord) : Option Segments :=
  match findRPeaksChecked record with
  | none => none
  | some beats => analyzeBeatsChecked beats

/-! ## Result-file names (source lines 148-152, 178-181, 237-243) -/

/-- The call `s.find_last_of(c)` for a one-character set: the index of the last occurrence of
`c` in `s`, `none` for `string::npos`. -/
def findLastOf (c : Char) : List Char → Option Nat
  | [] => none
  | x :: xs =>
    match findLastOf c xs with
    | some pos => some (pos + 1)
    | none => if x = c then some 0 else none

/-- The call `s.substr(0, pos)`: the first `pos` characters of `s`, the whole of `s` when
`pos` is `string::npos`. -/
def substrTo (s : String) (pos : Option Nat) : String :=
  match pos with
  | some n => String.mk (s.data.take n)
  | none => s

/-- Source lines 178-181: `string generateOutputFilename(fileName, conditionType) const`. -/
def generateOutputFilename (fileName conditionType : String) : String :=
  let stem := substrTo fileName (findLastOf '.' fileName.data)
  stem ++ "-" ++ conditionType ++ ".txt"

/-- Source lines 148-152: the name `analyzeECGData` passes to `writeAnalysisResult` for the
input file `filename` and a condition; `outputStem` is the variable `outputPrefix`. -/
def writtenFilename (filename conditionType : String) : String :=
  let outputStem := substrTo filename (findLastOf '.' filename.data)
  generateOutputFilename outputStem conditionType

/-- Source line 240: the name `main` collects for `combineResults` for the input file `file`
and a condition. -/
def combinedFilename (file condition : String) : String :=
  generateOutputFilename file condition

/-! ## readECGFile (source lines 29-55), the loop over the lines -/

/-- Source lines 37-51: the loop of `readECGFile` over the lines of the file.  A line is given
by the outcome of `ss >> timeVal >> voltageVal`: `some` of the two values, or `none` for an
empty or malformed line, which the loop skips. -/
def readLines (lines : List (Option (ℚ × ℚ))) : ECGRecord :=
  lines.foldl
    (fun record line =>
      match line with
      | some (timeVal, voltageVal) =>
        { time := record.time ++ [timeVal], voltage := record.voltage ++ [voltageVal] }
      | none => record)
    (ECGRecord.mk [] [])

/-! ## Double arithmetic

The definitions above compute with exact rationals.  The definitions of this section round.
A finite `double` is the rational number it denotes and a comparison of two doubles is exact;
every sum, difference, product and quotient of the source is the exact result passed through
`fl`, the rounding of the arithmetic, which the definitions take as a parameter.  The literals
`0.3`, `0.1` and `0.7` are `fl (3 / 10)`, `fl (1 / 10)` and `fl (7 / 10)`; `0.0`, `5.0`,
`60.0` and `100.0` are exact.  With `fl := id` these are the definitions above; `fl64` is the
rounding of IEEE-754 binary64.

The sign of a zero, which the source can only observe in `60.0 / rrInterval`, is an argument
of `classifyBeatFl`.  Outside this model: NaN and infinite sample values; and the replacement
of a result beyond the largest double by an infinity, which `fl64` keeps as a finite number
of the same sign (the source only compares such a result or divides `60.0` by it).

The window loop of the source need not end in double arithmetic, so here it takes a bound on
the number of its iterations and returns `none` when the bound does not suffice. -/

/-- Round to the nearest integer, ties to the even one. -/
def roundHalfEven (q : ℚ) : ℤ :=
  if q - ⌊q⌋ < 1 / 2 then ⌊q⌋
  else if 1 / 2 < q - ⌊q⌋ then ⌊q⌋ + 1
  else if ⌊q⌋ % 2 = 0 then ⌊q⌋ else ⌊q⌋ + 1

/-- The number `⌊log₂ n⌋` for `1 ≤ n ≤ fuel`. -/
def log2Fuel : Nat → Nat → Nat
  | 0, _ => 0
  | fuel + 1, n => if n < 2 then 0 else log2Fuel fuel (n / 2) + 1

/-- The binary exponent of `x ≠ 0`: the integer `e` with `2 ^ e ≤ |x| < 2 ^ (e + 1)`. -/
def binade (x : ℚ) : ℤ :=
  if (2 : ℚ) ^ ((log2Fuel x.num.natAbs x.num.natAbs : ℤ) - (log2Fuel x.den x.den : ℤ)) ≤ |x| then
    (log2Fuel x.num.natAbs x.num.natAbs : ℤ) - (log2Fuel x.den x.den : ℤ)
  else
    (log2Fuel x.num.natAbs x.num.natAbs : ℤ) - (log2Fuel x.den x.den : ℤ) - 1

/-- The exponent of the spacing of the binary64 numbers around `x`: significands of 53 bits,
and the spacing `2 ^ (-1074)` below the smallest normal number `2 ^ (-1022)`. -/
def ulpExponent (x : ℚ) : ℤ :=
  max (binade x) (-1022) - 52

/-- The binary64 number nearest to `x ≥ 0`, ties to the even significand. -/
def flMagnitude (x : ℚ) : ℚ :=
  roundHalfEven (x / 2 ^ ulpExponent x) * 2 ^ ulpExponent x

/-- The rounding of IEEE-754 binary64 arithmetic: to nearest, ties to even. -/
def fl64 (x : ℚ) : ℚ :=
  if x < 0 then - flMagnitude (-x) else flMagnitude x

/-- The properties of a rounding the proofs use: it keeps the order and it keeps zero. -/
structure IsRounding (fl : ℚ → ℚ) : Prop where
  mono : Monotone fl
  zero : fl 0 = 0

/-- Value of the `double` expression `60.0 / rrInterval` in double arithmetic: a finite
number, `+∞` for the divisor `0.0`, or `-∞` for the divisor `-0.0`. -/
inductive HeartRateFl where
  | fin (bpm : ℚ)
  | posInf
  | negInf
  deriving DecidableEq, Repr

/-- The comparison `heartRate < bound` of two doubles. -/
def HeartRateFl.ltBound : HeartRateFl → ℚ → Bool
  | HeartRateFl.fin bpm, bound => decide (bpm < bound)
  | HeartRateFl.posInf, _ => false
  | HeartRateFl.negInf, _ => true

/-- The comparison `heartRate > bound` of two doubles. -/
def HeartRateFl.gtBound : HeartRateFl → ℚ → Bool
  | HeartRateFl.fin bpm, bound => decide (bpm > bound)
  | HeartRateFl.posInf, _ => true
  | HeartRateFl.negInf, _ => false

/-- Source line 59 in double arithmetic: `60.0 / rrInterval`.  The flag `negativeZero` tells
which of the two zeros a zero `rrInterval` is; it is not read for another argument. -/
def heartRateOfFl (fl : ℚ → ℚ) (negativeZero : Bool) (rrInterval : ℚ) : HeartRateFl :=
  if rrInterval = 0 then
    if negativeZero then HeartRateFl.negInf else HeartRateFl.posInf
  else HeartRateFl.fin (fl (60 / rrInterval))

/-- Source lines 57-69 in double arithmetic, for the argument `rrInterval`, which is `-0.0`
when it is zero and `negativeZero` is set. -/
def classifyBeatFl (fl : ℚ → ℚ) (negativeZero : Bool) (rrInterval : ℚ) : String :=
  let heartRate := heartRateOfFl fl negativeZero rrInterval
  if heartRate.ltBound 60 then
    "Bradycardia"
  else if heartRate.gtBound 100 then
    "Tachycardia"
  else
    "Normal"

/-- The value of `maxVoltage` when the loop of source lines 76-82 ends; it only compares. -/
def windowMaxVoltage (record : ECGRecord) (start_time end_time : ℚ) : ℚ :=
  (List.range record.voltage.length).foldl (findThresholdStep record start_time end_time) 0

/-- Source lines 71-85 in double arithmetic: `maxVoltage * 0.7`. -/
def findThresholdFl (fl : ℚ → ℚ) (record : ECGRecord) (start_time end_time : ℚ) : ℚ :=
  let maxVoltage := windowMaxVoltage record start_time end_time
  fl (maxVoltage * fl (7 / 10))

/-- The value of `MIN_RR_INTERVAL*0.1` (source line 113) in double arithmetic. -/
def gateFl (fl : ℚ → ℚ) : ℚ :=
  fl (fl MIN_RR_INTERVAL * fl (1 / 10))

/-- Source lines 104-120 in double arithmetic: `tVal - beats.back().rPeakTime` is rounded
and compared with the rounded `MIN_RR_INTERVAL*0.1`. -/
def scanStepFl (fl : ℚ → ℚ) (record : ECGRecord) (currentTime intervalEnd threshold : ℚ)
    (beats : List Beat) (i : Nat) : List Beat :=
  let tVal := record.time.getD i 0
  if tVal ≥ currentTime ∧ tVal ≤ intervalEnd then
    if record.voltage.getD i 0 > threshold ∧
        record.voltage.getD i 0 > record.voltage.getD (i - 1) 0 ∧
        record.voltage.getD i 0 > record.voltage.getD (i + 1) 0 then
      match beats.getLast? with
      | some lastBeat =>
        let timeSinceLastBeat := fl (tVal - lastBeat.rPeakTime)
        if timeSinceLastBeat < gateFl fl then beats
        else beats ++ [Beat.mk tVal]
      | none => beats ++ [Beat.mk tVal]
    else beats
  else beats

/-- Source lines 101-121 in double arithmetic for the window `w = (currentTime,
intervalEnd)`: the threshold of the window, then the scan of the interior samples. -/
def runWindowFl (fl : ℚ → ℚ) (record : ECGRecord) (beats : List Beat) (w : ℚ × ℚ) :
    List Beat :=
  (interiorIndices record).foldl
    (scanStepFl fl record w.1 w.2 (findThresholdFl fl record w.1 w.2)) beats

/-- Source lines 99-121 in double arithmetic: one iteration of the window loop. -/
def windowBodyFl (fl : ℚ → ℚ) (record : ECGRecord) (endTime currentTime : ℚ)
    (beats : List Beat) : List Beat :=
  let intervalEnd := min (fl (currentTime + INTERVAL_SIZE)) endTime
  runWindowFl fl record beats (currentTime, intervalEnd)

/-- Source lines 97-122 in double arithmetic, for at most `fuel` iterations: `some` of the
beats when the loop ends within them, `none` when it is still running after them. -/
def windowLoopFl (fl : ℚ → ℚ) (record : ECGRecord) (endTime : ℚ) :
    Nat → ℚ → List Beat → Option (List Beat)
  | 0, currentTime, beats => if currentTime < endTime then none else some beats
  | fuel + 1, currentTime, beats =>
    if currentTime < endTime then
      windowLoopFl fl record endTime fuel (fl (currentTime + STEP_SIZE))
        (windowBodyFl fl record endTime currentTime beats)
    else
      some beats

/-- Source lines 87-124 in double arithmetic, for at most `fuel` iterations of the window
loop. -/
def findRPeaksFl (fl : ℚ → ℚ) (fuel : Nat) (record : ECGRecord) : Option (List Beat) :=
  if record.time.isEmpty then
    some []
  else
    windowLoopFl fl record (record.time.getLastD 0) fuel (record.time.headD 0) []

/-- The windows `(currentTime, intervalEnd)` of the iterations of the window loop in double
arithmetic, in order, when the loop ends within `fuel` iterations. -/
def windowTraceFl (fl : ℚ → ℚ) (endTime : ℚ) : Nat → ℚ → Option (List (ℚ × ℚ))
  | 0, currentTime => if currentTime < endTime then none else some []
  | fuel + 1, currentTime =>
    if currentTime < endTime then
      (windowTraceFl fl endTime fuel (fl (currentTime + STEP_SIZE))).map
        (fun rest => (currentTime, min (fl (currentTime + INTERVAL_SIZE)) endTime) :: rest)
    else
      some []

/-- Consecutive beats are not closer than the gate of the de-duplication in double
arithmetic: the rounded difference is not below the rounded `MIN_RR_INTERVAL*0.1`. -/
def GapChainFl (fl : ℚ → ℚ) (beats : List Beat) : Prop :=
  List.Chain' (fun a b : Beat => ¬ fl (b.rPeakTime - a.rPeakTime) < gateFl fl) beats

/-- Sample `i` is a peak candidate in the window `w = (currentTime, intervalEnd)` in double
arithmetic: an interior index whose time passes the window test and whose voltage is
strictly above the threshold of the window and strictly above both neighbours. -/
def IsCandidateFl (fl : ℚ → ℚ) (record : ECGRecord) (w : ℚ × ℚ) (i : Nat) : Prop :=
  (1 ≤ i ∧ i + 1 < record.time.length) ∧
  (w.1 ≤ record.time.getD i 0 ∧ record.time.getD i 0 ≤ w.2) ∧
  (record.voltage.getD i 0 > findThresholdFl fl record w.1 w.2 ∧
    record.voltage.getD i 0 > record.voltage.getD (i - 1) 0 ∧
    record.voltage.getD i 0 > record.voltage.getD (i + 1) 0)

/-- The counter of the window loop advances by at least one second from every value between
`currentTime` and `endTime`: the sum `currentTime + STEP_SIZE` is not rounded back to the
counter.  In binary64 this holds for times between `-2 ^ 52` and `2 ^ 52` seconds
(`fl64_advances`); it fails at a counter such as `1e17`, which adding `5.0` leaves
unchanged. -/
def Advances (fl : ℚ → ℚ) (currentTime endTime : ℚ) : Prop :=
  ∀ x, currentTime ≤ x → x < endTime → x + 1 ≤ fl (x + STEP_SIZE)

/-- The windows `(currentTime, intervalEnd)` of the iterations `findRPeaks` runs on a record
in double arithmetic, in order; none when the loop does not end within `fuel` iterations. -/
def loopWindows (fl : ℚ → ℚ) (fuel : Nat) (record : ECGRecord) : List (ℚ × ℚ) :=
  (windowTraceFl fl (record.time.getLastD 0) fuel (record.time.headD 0)).getD []

instance instDecidableIsCandidateFl (fl : ℚ → ℚ) (record : ECGRecord) (w : ℚ × ℚ) (i : Nat) :
    Decidable (IsCandidateFl fl record w i) := by
  unfold IsCandidateFl
  infer_instance

/-- Sample `i` is a peak candidate in double arithmetic: a candidate in a window the loop
runs. -/
def IsPeakCandidateFl (fl : ℚ → ℚ) (fuel : Nat) (record : ECGRecord) (i : Nat) : Prop :=
  ∃ w ∈ loopWindows fl fuel record, IsCandidateFl fl record w i

instance instDecidableIsPeakCandidateFl (fl : ℚ → ℚ) (fuel : Nat) (record : ECGRecord)
    (i : Nat) : Decidable (IsPeakCandidateFl fl fuel record i) := by
  unfold IsPeakCandidateFl
  infer_instance

/-- The windows of the loop whose window test `tVal >= currentTime && tVal <= intervalEnd`
(source line 105) the time of sample `i` passes. -/
def windowsTesting (fl : ℚ → ℚ) (fuel : Nat) (record : ECGRecord) (i : Nat) : List (ℚ × ℚ) :=
  (loopWindows fl fuel record).filter
    (fun w => decide (w.1 ≤ record.time.getD i 0 ∧ record.time.getD i 0 ≤ w.2))

/-- A signal with spikes at the time 0 and at the double nearest to 0.03. -/
def gapSignal : ECGRecord :=
  { time := [-1, 0, fl64 (1 / 100), fl64 (3 / 100), 1],
    voltage := [0, 1, 0, 1, 0] }

/-- A signal of two samples at the doubles `1e17` and `1e17 + 16`, which are adjacent. -/
def stallSignal : ECGRecord :=
  { time := [100000000000000000, 100000000000000016], voltage := [0, 0] }

/-- A signal of two samples. -/
def twoSampleSignal : ECGRecord :=
  { time := [0, 7], voltage := [1, 2] }

/-- A signal with a sample of voltage 90. -/
def ninetySignal : ECGRecord :=
  { time := [0, 1], voltage := [90, 0] }

/-- A signal with spikes of voltage 187 and of the double nearest to 130.9. -/
def dominantSignal : ECGRecord :=
  { time := [0, 1, 2, 3, 4],
    voltage := [0, 187, 0, fl64 (1309 / 10), 0] }

/-- A signal with three spikes 0.02 s apart, at the doubles nearest to 1.00, 1.02 and
1.04. -/
def dedupDoubles : ECGRecord :=
  { time := [0, 1, fl64 (101 / 100), fl64 (51 / 50), fl64 (103 / 100), fl64 (26 / 25), 2],
    voltage := [0, 1, 0, 1, 0, 1, 0] }

/-- A signal that starts at the double nearest to 0.7 and has its interior sample at the
double nearest to 5.7. -/
def offsetSignal : ECGRecord :=
  { time := [fl64 (7 / 10), fl64 (57 / 10), 10], voltage := [0, 1, 0] }

/-- A signal of three samples without a positive voltage. -/
def flatSignal : ECGRecord :=
  { time := [0, 1, 2], voltage := [0, -1, 0] }

/-- Source lines 104-120 in double arithmetic with a ghost record of the window tests: the
beats are computed as in `scanStepFl`, and the entry `((currentTime, intervalEnd), i)` is
appended to the record when the time of sample `i` passes the test
`tVal >= currentTime && tVal <= intervalEnd` of source line 105. -/
def scanStepLog (fl : ℚ → ℚ) (record : ECGRecord) (currentTime intervalEnd threshold : ℚ)
    (state : List Beat × List ((ℚ × ℚ) × Nat)) (i : Nat) :
    List Beat × List ((ℚ × ℚ) × Nat) :=
  let tVal := record.time.getD i 0
  if tVal ≥ currentTime ∧ tVal ≤ intervalEnd then
    let tested := state.2 ++ [((currentTime, intervalEnd), i)]
    if record.voltage.getD i 0 > threshold ∧
        record.voltage.getD i 0 > record.voltage.getD (i - 1) 0 ∧
        record.voltage.getD i 0 > record.voltage.getD (i + 1) 0 then
      match state.1.getLast? with
      | some lastBeat =>
        let timeSinceLastBeat := fl (tVal - lastBeat.rPeakTime)
        if timeSinceLastBeat < gateFl fl then (state.1, tested)
        else (state.1 ++ [Beat.mk tVal], tested)
      | none => (state.1 ++ [Beat.mk tVal], tested)
    else (state.1, tested)
  else state

/-- Source lines 101-121 with the record of the window tests, for the window `w`. -/
def runWindowLog (fl : ℚ → ℚ) (record : ECGRecord)
    (state : List Beat × List ((ℚ × ℚ) × Nat)) (w : ℚ × ℚ) :
    List Beat × List ((ℚ × ℚ) × Nat) :=
  (interiorIndices record).foldl
    (scanStepLog fl record w.1 w.2 (findThresholdFl fl record w.1 w.2)) state

/-- Source lines 97-122 with the record of the window tests, for at most `fuel`
iterations. -/
def windowLoopLog (fl : ℚ → ℚ) (record : ECGRecord) (endTime : ℚ) :
    Nat → ℚ → List Beat × List ((ℚ × ℚ) × Nat) → Option (List Beat × List ((ℚ × ℚ) × Nat))
  | 0, currentTime, state => if currentTime < endTime then none else some state
  | fuel + 1, currentTime, state =>
    if currentTime < endTime then
      windowLoopLog fl record endTime fuel (fl (currentTime + STEP_SIZE))
        (runWindowLog fl record state
          (currentTime, min (fl (currentTime + INTERVAL_SIZE)) endTime))
    else
      some state

/-- Source lines 87-124 with the record of the window tests: the beats `findRPeaks` returns
and, in order, the pairs of a window and a sample whose time passed the window test. -/
def findRPeaksLog (fl : ℚ → ℚ) (fuel : Nat) (record : ECGRecord) :
    Option (List Beat × List ((ℚ × ℚ) × Nat)) :=
  if record.time.isEmpty then
    some ([], [])
  else
    windowLoopLog fl record (record.time.getLastD 0) fuel (record.time.headD 0) ([], [])

/-- The windows in which sample `i` was tested, from the record of the window tests. -/
def testsOf (tested : List ((ℚ × ℚ) × Nat)) (i : Nat) : List (ℚ × ℚ) :=
  (tested.filter (fun entry => decide (entry.2 = i))).map Prod.fst

/-! ## Loop rules -/

theorem windowLoop_of_lt (record : ECGRecord) (endTime currentTime : ℚ) (beats : List Beat)
    (h : currentTime < endTime) :
    windowLoop record endTime currentTime beats =
      windowLoop record endTime (currentTime + STEP_SIZE)
        (windowBody record endTime currentTime beats) := by
  rw [windowLoop, dif_pos h]

theorem windowLoop_of_not_lt (record : ECGRecord) (endTime currentTime : ℚ) (beats : List Beat)
    (h : ¬ currentTime < endTime) :
    windowLoop record endTime currentTime beats = beats := by
  rw [windowLoop, dif_neg h]

theorem interiorIndices_split (record : ECGRecord) (i : Nat) (h1 : 1 ≤ i)
    (h2 : i + 1 < record.time.length) :
    interiorIndices record =
      List.range' 1 (i - 1) ++ i :: List.range' (i + 1) (record.time.length - 2 - i) := by
  unfold interiorIndices
  have hi : 1 + (i - 1) = i := by omega
  have key := List.range'_append_1 1 (i - 1) (record.time.length - 2 - i + 1)
  rw [hi, List.range'_succ] at key
  rw [key]
  congr 1
  omega

theorem sorted_getD_le (times : List ℚ) (hsorted : times.Sorted (· ≤ ·)) (j i : Nat)
    (hji : j < i) (hi : i < times.length) : times.getD j 0 ≤ times.getD i 0 := by
  have hj : j < times.length := by omega
  rw [List.getD_eq_getElem _ _ hj, List.getD_eq_getElem _ _ hi]
  exact (List.pairwise_iff_getElem.mp hsorted) j i hj hi hji

/-! ## The de-duplication gap -/

theorem findRPeaks_scenario : findRPeaks scenarioSignal = [Beat.mk 1, Beat.mk 2, Beat.mk 3, Beat.mk 4] := by
  have h0 : findRPeaks scenarioSignal = windowLoop scenarioSignal 5 0 [] := by
    unfold findRPeaks; rfl
  rw [h0, windowLoop_of_lt _ _ _ _ (by decide!), windowLoop_of_not_lt _ _ _ _ (by decide!)]
  decide!

/-! ## C1: the beat sequence is strictly increasing -/

/-- The function returns one of the three labels, whatever the duration. -/
theorem classifyBeat_label (d : ℚ) :
    classifyBeat d = "Bradycardia" ∨ classifyBeat d = "Tachycardia" ∨ classifyBeat d = "Normal" := by
  unfold classifyBeat
  simp only []
  split_ifs
  · exact Or.inl rfl
  · exact Or.inr (Or.inl rfl)
  · exact Or.inr (Or.inr rfl)

/-! ## The running maximum of findThreshold -/

theorem exists_isMaxOf (vs : List ℚ) (h : vs ≠ []) : ∃ m, IsMaxOf vs m := by
  induction vs with
  | nil => exact absurd rfl h
  | cons v vs ih =>
    by_cases hvs : vs = []
    · subst hvs
      exact ⟨v, by simp [IsMaxOf]⟩
    · obtain ⟨m, hm1, hm2⟩ := ih hvs
      by_cases hvm : v ≤ m
      · refine ⟨m, List.mem_cons_of_mem _ hm1, ?_⟩
        intro w hw
        rcases List.mem_cons.mp hw with rfl | hw
        · exact hvm
        · exact hm2 w hw
      · refine ⟨v, List.mem_cons_self _ _, ?_⟩
        intro w hw
        rcases List.mem_cons.mp hw with rfl | hw
        · exact le_refl _
        · exact le_trans (hm2 w hw) (le_of_lt (not_le.mp hvm))

theorem mem_windowVoltages (record : ECGRecord) (start_time end_time v : ℚ)
    (hlen : record.time.length = record.voltage.length) :
    v ∈ windowVoltages record start_time end_time ↔
      ∃ i, i < record.voltage.length ∧
        (record.time.getD i 0 ≥ start_time ∧ record.time.getD i 0 ≤ end_time) ∧
        record.voltage.getD i 0 = v := by
  unfold windowVoltages
  simp only [List.mem_map, List.mem_filter, decide_eq_true_eq, Prod.exists,
    exists_and_right, exists_eq_right]
  constructor
  · rintro ⟨t, hmem, hwin⟩
    obtain ⟨i, hi, heq⟩ := List.mem_iff_getElem.mp hmem
    rw [List.getElem_zip] at heq
    simp only [List.length_zip] at hi
    have hi1 : i < record.time.length := by omega
    have hi2 : i < record.voltage.length := by omega
    refine ⟨i, hi2, ?_, ?_⟩
    · rw [List.getD_eq_getElem _ _ hi1]
      have : record.time[i] = t := congrArg Prod.fst heq
      rw [this]
      exact hwin
    · rw [List.getD_eq_getElem _ _ hi2]
      exact congrArg Prod.snd heq
  · rintro ⟨i, hi, hwin, hv⟩
    have hi1 : i < record.time.length := by omega
    rw [List.getD_eq_getElem _ _ hi1] at hwin
    rw [List.getD_eq_getElem _ _ hi] at hv
    refine ⟨record.time[i], ?_, hwin⟩
    apply List.mem_iff_getElem.mpr
    refine ⟨i, by simp only [List.length_zip]; omega, ?_⟩
    rw [List.getElem_zip, hv]

theorem findThreshold_fold (record : ECGRecord) (start_time end_time : ℚ) (l : List Nat)
    (init : ℚ) :
    init ≤ l.foldl (findThresholdStep record start_time end_time) init ∧
    (∀ i ∈ l, (record.time.getD i 0 ≥ start_time ∧ record.time.getD i 0 ≤ end_time) →
      record.voltage.getD i 0 ≤ l.foldl (findThresholdStep record start_time end_time) init) ∧
    (l.foldl (findThresholdStep record start_time end_time) init = init ∨
      ∃ i ∈ l, (record.time.getD i 0 ≥ start_time ∧ record.time.getD i 0 ≤ end_time) ∧
        l.foldl (findThresholdStep record start_time end_time) init = record.voltage.getD i 0) := by
  induction l generalizing init with
  | nil => simp
  | cons j l ih =>
    rw [List.foldl_cons]
    obtain ⟨h1, h2, h3⟩ := ih (findThresholdStep record start_time end_time init j)
    have hstep : init ≤ findThresholdStep record start_time end_time init j ∧
        ((record.time.getD j 0 ≥ start_time ∧ record.time.getD j 0 ≤ end_time) →
          record.voltage.getD j 0 ≤ findThresholdStep record start_time end_time init j) ∧
        (findThresholdStep record start_time end_time init j = init ∨
          ((record.time.getD j 0 ≥ start_time ∧ record.time.getD j 0 ≤ end_time) ∧
            findThresholdStep record start_time end_time init j = record.voltage.getD j 0)) := by
      unfold findThresholdStep
      split_ifs with hw hv
      · exact ⟨le_of_lt hv, fun _ => le_refl _, Or.inr ⟨hw, rfl⟩⟩
      · exact ⟨le_refl _, fun _ => not_lt.mp hv, Or.inl rfl⟩
      · exact ⟨le_refl _, fun h => absurd h hw, Or.inl rfl⟩
    obtain ⟨s1, s2, s3⟩ := hstep
    refine ⟨le_trans s1 h1, ?_, ?_⟩
    · intro i hi hw
      rcases List.mem_cons.mp hi with rfl | hi
      · exact le_trans (s2 hw) h1
      · exact h2 i hi hw
    · rcases h3 with h3 | ⟨i, hi, hw, h3⟩
      · rcases s3 with s3 | ⟨hw, s3⟩
        · left; rw [h3, s3]
        · right; exact ⟨j, List.mem_cons_self _ _, hw, by rw [h3, s3]⟩
      · right; exact ⟨i, List.mem_cons_of_mem _ hi, hw, h3⟩

/-! ## C7: the interval lists are the filtered consecutive pairs -/

theorem analyzeStep_eq (beats : List Beat) (seg : Segments) (i : Nat) :
    analyzeStep beats seg i =
      Segments.mk
        (seg.tachycardiaIntervals ++
          [pairAt beats i].filter (fun p => intervalLabel p = "Tachycardia"))
        (seg.bradycardiaIntervals ++
          [pairAt beats i].filter (fun p => intervalLabel p = "Bradycardia"))
        (seg.normalIntervals ++
          [pairAt beats i].filter (fun p => intervalLabel p = "Normal")) := by
  have hBT : "Bradycardia" ≠ "Tachycardia" := by decide
  have hBN : "Bradycardia" ≠ "Normal" := by decide
  have hTN : "Tachycardia" ≠ "Normal" := by decide
  unfold analyzeStep
  simp only [intervalLabel, pairAt]
  rcases classifyBeat_label (beatTime beats (i + 1) - beatTime beats i) with h | h | h
  · simp [h, hBT, hBN]
  · simp [h, hBT.symm, hTN]
  · simp [h, hBN.symm, hTN.symm]

theorem analyzeBeats_fold (beats : List Beat) (l : List Nat) (seg : Segments) :
    l.foldl (analyzeStep beats) seg =
      Segments.mk
        (seg.tachycardiaIntervals ++
          (l.map (pairAt beats)).filter (fun p => intervalLabel p = "Tachycardia"))
        (seg.bradycardiaIntervals ++
          (l.map (pairAt beats)).filter (fun p => intervalLabel p = "Bradycardia"))
        (seg.normalIntervals ++
          (l.map (pairAt beats)).filter (fun p => intervalLabel p = "Normal")) := by
  induction l generalizing seg with
  | nil => simp
  | cons i l ih =>
    rw [List.foldl_cons, ih, analyzeStep_eq]
    simp only [List.map_cons, List.append_assoc]
    congr 1 <;> rw [← List.filter_append] <;> rfl

/-- C8. The scenario signal has its samples at 0, 0.5, .., 5.0 with voltage 1 at the times
1, 2, 3, 4 and 0 elsewhere; `findRPeaks` returns exactly the beats 1, 2, 3, 4 and the
aggregation yields the Normal list `[(1, 2), (2, 3), (3, 4)]` and empty Tachycardia and
Bradycardia lists. -/
theorem end_to_end_scenario :
    scenarioSignal.time = (List.range 11).map (fun k : Nat => (k : ℚ) * (1 / 2)) ∧
    scenarioSignal.voltage =
      scenarioSignal.time.map (fun t => if t ∈ [(1 : ℚ), 2, 3, 4] then 1 else 0) ∧
    findRPeaks scenarioSignal = [Beat.mk 1, Beat.mk 2, Beat.mk 3, Beat.mk 4] ∧
    analyzeECGData scenarioSignal = Segments.mk [] [] [(1, 2), (2, 3), (3, 4)] := by
  refine ⟨by decide!, by decide!, findRPeaks_scenario, ?_⟩
  unfold analyzeECGData
  rw [findRPeaks_scenario]
  decide!

/-! ## C9: every interval of the pipeline has a positive duration -/

/-- C11. For a beat sequence with zero or one beat the aggregation yields three empty lists,
and the pipeline run on the signal without samples yields the empty beat sequence and three
empty lists. -/
theorem analyzeBeats_short (beats : List Beat) (h : beats.length ≤ 1) :
    analyzeBeats beats = Segments.mk [] [] [] ∧
    findRPeaks emptySignal = [] ∧
    analyzeECGData emptySignal = Segments.mk [] [] [] := by
  have hrange : List.range (beats.length - 1) = [] := by
    have : beats.length - 1 = 0 := by omega
    rw [this]
    rfl
  refine ⟨?_, rfl, rfl⟩
  unfold analyzeBeats
  rw [hrange]
  rfl

/-- C11 at a sequence of one beat. -/
theorem analyzeBeats_short_witness :
    [Beat.mk 2].length ≤ 1 ∧
    (analyzeBeats [Beat.mk 2] = Segments.mk [] [] [] ∧
    findRPeaks emptySignal = [] ∧
    analyzeECGData emptySignal = Segments.mk [] [] []) :=
  ⟨by decide, analyzeBeats_short [Beat.mk 2] (by decide)⟩

/-! ## C12: a window without samples -/

/-- C12. For a record with as many times as voltages and a window `[start_time, end_time]`
that contains no sample time, `findThreshold` returns 0. -/
theorem findThreshold_empty_window (record : ECGRecord) (start_time end_time : ℚ)
    (hlen : record.time.length = record.voltage.length)
    (hnone : ∀ t ∈ record.time, ¬ (start_time ≤ t ∧ t ≤ end_time)) :
    findThreshold record start_time end_time = 0 := by
  obtain ⟨_, _, f3⟩ :=
    findThreshold_fold record start_time end_time (List.range record.voltage.length) 0
  unfold findThreshold
  simp only []
  rcases f3 with f3 | ⟨i, hi, hw, _⟩
  · rw [f3]; norm_num
  · exfalso
    have hi1 : i < record.time.length := by
      have := List.mem_range.mp hi
      omega
    rw [List.getD_eq_getElem _ _ hi1] at hw
    exact hnone _ (List.getElem_mem hi1) ⟨hw.1, hw.2⟩

/-- C12 at the window `[6, 8]` of the scenario signal, whose times end at 5. -/
theorem findThreshold_empty_window_witness :
    scenarioSignal.time.length = scenarioSignal.voltage.length ∧
    (∀ t ∈ scenarioSignal.time, ¬ ((6 : ℚ) ≤ t ∧ t ≤ 8)) ∧
    findThreshold scenarioSignal 6 8 = 0 :=
  ⟨by decide, by decide!,
    findThreshold_empty_window scenarioSignal 6 8 (by decide) (by decide!)⟩

/-! ## C19: no interval is lost or duplicated -/

theorem filter_label_lengths (l : List (ℚ × ℚ)) :
    (l.filter (fun p => intervalLabel p = "Tachycardia")).length +
      (l.filter (fun p => intervalLabel p = "Bradycardia")).length +
      (l.filter (fun p => intervalLabel p = "Normal")).length = l.length := by
  have hBT : "Bradycardia" ≠ "Tachycardia" := by decide
  have hBN : "Bradycardia" ≠ "Normal" := by decide
  have hTN : "Tachycardia" ≠ "Normal" := by decide
  induction l with
  | nil => rfl
  | cons p l ih =>
    rcases classifyBeat_label (p.2 - p.1) with h | h | h
    · have h' : intervalLabel p = "Bradycardia" := h
      simp only [List.filter_cons, h', hBT, hBN, decide_True, decide_False, if_true,
        Bool.false_eq_true, if_false, List.length_cons]
      omega
    · have h' : intervalLabel p = "Tachycardia" := h
      simp only [List.filter_cons, h', hBT.symm, hTN, decide_True, decide_False, if_true,
        Bool.false_eq_true, if_false, List.length_cons]
      omega
    · have h' : intervalLabel p = "Normal" := h
      simp only [List.filter_cons, h', hBN.symm, hTN.symm, decide_True, decide_False, if_true,
        Bool.false_eq_true, if_false, List.length_cons]
      omega

/-- C19. For a beat sequence with at least one beat, the lengths of the Tachycardia,
Bradycardia and Normal lists the aggregation builds sum to `beats.size() - 1`. -/
theorem analyzeBeats_lengths (beats : List Beat) (h : 1 ≤ beats.length) :
    (analyzeBeats beats).tachycardiaIntervals.length +
      (analyzeBeats beats).bradycardiaIntervals.length +
      (analyzeBeats beats).normalIntervals.length + 1 = beats.length := by
  unfold analyzeBeats
  rw [analyzeBeats_fold]
  simp only [List.nil_append]
  rw [filter_label_lengths, List.length_map, List.length_range]
  omega

/-- C19 at the four beats of the scenario. -/
theorem analyzeBeats_lengths_witness :
    1 ≤ [Beat.mk 1, Beat.mk 2, Beat.mk 3, Beat.mk 4].length ∧
    (analyzeBeats [Beat.mk 1, Beat.mk 2, Beat.mk 3, Beat.mk 4]).tachycardiaIntervals.length +
      (analyzeBeats [Beat.mk 1, Beat.mk 2, Beat.mk 3, Beat.mk 4]).bradycardiaIntervals.length +
      (analyzeBeats [Beat.mk 1, Beat.mk 2, Beat.mk 3, Beat.mk 4]).normalIntervals.length + 1 =
        [Beat.mk 1, Beat.mk 2, Beat.mk 3, Beat.mk 4].length :=
  ⟨by decide, analyzeBeats_lengths [Beat.mk 1, Beat.mk 2, Beat.mk 3, Beat.mk 4] (by decide)⟩

/-! ## C13: every beat is a peak candidate -/

theorem headD_eq_getD_zero (times : List ℚ) : times.headD 0 = times.getD 0 0 := by
  cases times <;> rfl

theorem getLastD_eq_getD (times : List ℚ) : times.getLastD 0 = times.getD (times.length - 1) 0 := by
  rw [List.getLastD_eq_getLast?, List.getLast?_eq_getElem?, List.getD_eq_getElem?_getD]

/-- In a record with non-decreasing times the time of an interior sample lies between the
first and the last time. -/
theorem interior_between (record : ECGRecord) (hsorted : record.time.Sorted (· ≤ ·))
    (i : Nat) (hint : 1 ≤ i ∧ i + 1 < record.time.length) :
    record.time.headD 0 ≤ record.time.getD i 0 ∧
    record.time.getD i 0 ≤ record.time.getLastD 0 := by
  rw [headD_eq_getD_zero, getLastD_eq_getD]
  exact ⟨sorted_getD_le record.time hsorted 0 i (by omega) (by omega),
    sorted_getD_le record.time hsorted i (record.time.length - 1) (by omega) (by omega)⟩

/-! ## C15: the iterations of the window loop -/

theorem windowTrace_of_lt (endTime currentTime : ℚ) (h : currentTime < endTime) :
    windowTrace endTime currentTime =
      (currentTime, min (currentTime + INTERVAL_SIZE) endTime) ::
        windowTrace endTime (currentTime + STEP_SIZE) := by
  rw [windowTrace, dif_pos h]

theorem windowTrace_of_not_lt (endTime currentTime : ℚ) (h : ¬ currentTime < endTime) :
    windowTrace endTime currentTime = [] := by
  rw [windowTrace, dif_neg h]

/-- The window loop runs the windows of `windowTrace`, one iteration for each, in order. -/
theorem windowLoop_eq_foldl (record : ECGRecord) (endTime currentTime : ℚ)
    (beats : List Beat) :
    windowLoop record endTime currentTime beats =
      (windowTrace endTime currentTime).foldl (runWindow record) beats := by
  induction currentTime, beats using windowLoop.induct record endTime with
  | case1 c b h ih =>
    rw [windowLoop_of_lt _ _ _ _ h, windowTrace_of_lt _ _ h, List.foldl_cons, ih]
    rfl
  | case2 c b h =>
    rw [windowLoop_of_not_lt _ _ _ _ h, windowTrace_of_not_lt _ _ h]
    rfl

theorem windowsLeft_of_lt (endTime currentTime : ℚ) (h : currentTime < endTime) :
    windowsLeft endTime currentTime = windowsLeft endTime (currentTime + STEP_SIZE) + 1 := by
  unfold windowsLeft STEP_SIZE
  have h1 : (endTime - (currentTime + 5)) / 5 = (endTime - currentTime) / 5 - 1 := by ring
  rw [h1, Int.ceil_sub_one]
  have h2 : 0 < ⌈(endTime - currentTime) / 5⌉ := by
    rw [Int.ceil_pos]
    apply div_pos <;> linarith
  omega

theorem windowsLeft_of_not_lt (endTime currentTime : ℚ) (h : ¬ currentTime < endTime) :
    windowsLeft endTime currentTime = 0 := by
  unfold windowsLeft STEP_SIZE
  have h2 : ⌈(endTime - currentTime) / 5⌉ ≤ 0 := by
    rw [Int.ceil_le]
    have : endTime - currentTime ≤ 0 := by linarith [not_lt.mp h]
    simpa using div_nonpos_of_nonpos_of_nonneg this (by norm_num : (0 : ℚ) ≤ 5)
  omega

/-- The loop runs `⌈(endTime - currentTime) / STEP_SIZE⌉` iterations, none when that number
is not positive. -/
theorem windowTrace_length (endTime currentTime : ℚ) :
    (windowTrace endTime currentTime).length = windowsLeft endTime currentTime := by
  induction currentTime using windowTrace.induct endTime with
  | case1 c h ih =>
    rw [windowTrace_of_lt _ _ h, windowsLeft_of_lt _ _ h, List.length_cons, ih]
  | case2 c h =>
    rw [windowTrace_of_not_lt _ _ h, windowsLeft_of_not_lt _ _ h]
    rfl

/-- The `k`-th iteration runs the window `[c + 5 k, min (c + 5 k + 5) endTime]`, where `c` is
the counter value the loop starts from. -/
theorem windowTrace_nth (endTime : ℚ) (k : Nat) :
    ∀ currentTime : ℚ, k < windowsLeft endTime currentTime →
      (windowTrace endTime currentTime)[k]? =
        some (currentTime + 5 * k, min (currentTime + 5 * k + 5) endTime) := by
  induction k with
  | zero =>
    intro c hk
    have hlt : c < endTime := by
      by_contra h
      rw [windowsLeft_of_not_lt _ _ h] at hk
      exact absurd hk (lt_irrefl 0)
    rw [windowTrace_of_lt _ _ hlt]
    simp [INTERVAL_SIZE]
  | succ k ih =>
    intro c hk
    have hlt : c < endTime := by
      by_contra h
      rw [windowsLeft_of_not_lt _ _ h] at hk
      exact absurd hk (Nat.not_lt_zero _)
    rw [windowsLeft_of_lt _ _ hlt] at hk
    rw [windowTrace_of_lt _ _ hlt, List.getElem?_cons_succ, ih _ (by omega)]
    unfold STEP_SIZE
    push_cast
    congr 2 <;> ring_nf

/-- The windows of a signal that spans the times 0 to 12: two full windows and a last one
clipped to the last time. -/
theorem windowTrace_span_twelve :
    windowTrace 12 0 = [(0, 5), (5, 10), (10, 12)] := by
  rw [windowTrace_of_lt _ _ (by decide!), windowTrace_of_lt _ _ (by decide!),
    windowTrace_of_lt _ _ (by decide!), windowTrace_of_not_lt _ _ (by decide!)]
  decide!

/-- C15. For every record the window loop of `findRPeaks` ends: it runs the windows of
`windowTrace`, which are `⌈(lastTime - firstTime) / 5⌉` many when the first time is below the
last and none otherwise (then there is no beat); the `k`-th window is
`[firstTime + 5 k, min (firstTime + 5 k + 5) lastTime]`, and every window end is at most
`lastTime`. -/
theorem window_loop_iterations (record : ECGRecord) :
    findRPeaks record =
      (windowTrace (record.time.getLastD 0) (record.time.headD 0)).foldl
        (runWindow record) [] ∧
    (record.time.headD 0 < record.time.getLastD 0 →
      ((windowTrace (record.time.getLastD 0) (record.time.headD 0)).length : ℤ) =
        ⌈(record.time.getLastD 0 - record.time.headD 0) / 5⌉) ∧
    (¬ record.time.headD 0 < record.time.getLastD 0 →
      (windowTrace (record.time.getLastD 0) (record.time.headD 0)).length = 0 ∧
      findRPeaks record = []) ∧
    (∀ k, k < (windowTrace (record.time.getLastD 0) (record.time.headD 0)).length →
      (windowTrace (record.time.getLastD 0) (record.time.headD 0))[k]? =
        some (record.time.headD 0 + 5 * k,
          min (record.time.headD 0 + 5 * k + 5) (record.time.getLastD 0))) ∧
    (∀ w ∈ windowTrace (record.time.getLastD 0) (record.time.headD 0),
      w.2 ≤ record.time.getLastD 0) := by
  have hfold : findRPeaks record =
      (windowTrace (record.time.getLastD 0) (record.time.headD 0)).foldl
        (runWindow record) [] := by
    unfold findRPeaks
    split_ifs with hempty
    · have hnil : record.time = [] := List.isEmpty_iff.mp hempty
      rw [hnil, windowTrace_of_not_lt _ _ (by simp)]
      rfl
    · exact windowLoop_eq_foldl record _ _ []
  have hget : ∀ k, k < (windowTrace (record.time.getLastD 0) (record.time.headD 0)).length →
      (windowTrace (record.time.getLastD 0) (record.time.headD 0))[k]? =
        some (record.time.headD 0 + 5 * k,
          min (record.time.headD 0 + 5 * k + 5) (record.time.getLastD 0)) := by
    intro k hk
    rw [windowTrace_length] at hk
    exact windowTrace_nth _ k _ hk
  refine ⟨hfold, ?_, ?_, hget, ?_⟩
  · intro hlt
    rw [windowTrace_length]
    unfold windowsLeft STEP_SIZE
    have hpos : 0 < ⌈(record.time.getLastD 0 - record.time.headD 0) / 5⌉ := by
      rw [Int.ceil_pos]
      apply div_pos <;> linarith
    exact Int.toNat_of_nonneg (le_of_lt hpos)
  · intro hnot
    have hnil := windowTrace_of_not_lt _ _ hnot
    refine ⟨by rw [hnil]; rfl, ?_⟩
    rw [hfold, hnil]
    rfl
  · intro w hw
    obtain ⟨k, hk, hwk⟩ := List.mem_iff_getElem.mp hw
    have h1 := hget k hk
    rw [List.getElem?_eq_getElem hk, hwk] at h1
    have h2 : w = (record.time.headD 0 + 5 * k,
        min (record.time.headD 0 + 5 * k + 5) (record.time.getLastD 0)) :=
      Option.some.inj h1
    rw [h2]
    exact min_le_right _ _

/-! ## C16: every index access is in bounds -/

/-- A checked loop whose every step succeeds with the value of the unchecked step succeeds
with the value of the unchecked loop. -/
theorem foldlM_eq_some_foldl {α β : Type} (f : β → α → β) (g : β → α → Option β)
    (l : List α) (h : ∀ b, ∀ a ∈ l, g b a = some (f b a)) :
    ∀ init, l.foldlM g init = some (l.foldl f init) := by
  induction l with
  | nil => intro init; rfl
  | cons a l ih =>
    intro init
    rw [List.foldlM_cons, h init a (List.mem_cons_self _ _)]
    exact ih (fun b x hx => h b x (List.mem_cons_of_mem _ hx)) _

theorem findThresholdStepChecked_eq (record : ECGRecord) (start_time end_time maxVoltage : ℚ)
    (i : Nat) (hlen : record.time.length = record.voltage.length)
    (hi : i < record.voltage.length) :
    findThresholdStepChecked record start_time end_time maxVoltage i =
      some (findThresholdStep record start_time end_time maxVoltage i) := by
  have hit : i < record.time.length := by omega
  unfold findThresholdStepChecked findThresholdStep
  rw [List.getElem?_eq_getElem hit, List.getElem?_eq_getElem hi,
    List.getD_eq_getElem _ _ hit, List.getD_eq_getElem _ _ hi]
  simp only []
  split_ifs <;> rfl

theorem findThresholdChecked_eq (record : ECGRecord) (start_time end_time : ℚ)
    (hlen : record.time.length = record.voltage.length) :
    findThresholdChecked record start_time end_time =
      some (findThreshold record start_time end_time) := by
  unfold findThresholdChecked findThreshold
  rw [foldlM_eq_some_foldl (findThresholdStep record start_time end_time)]
  · rfl
  · intro b i hi
    exact findThresholdStepChecked_eq record _ _ b i hlen (List.mem_range.mp hi)

theorem scanStepChecked_eq (record : ECGRecord) (currentTime intervalEnd threshold : ℚ)
    (beats : List Beat) (i : Nat) (hlen : record.time.length = record.voltage.length)
    (hi : 1 ≤ i ∧ i + 1 < record.time.length) :
    scanStepChecked record currentTime intervalEnd threshold beats i =
      some (scanStep record currentTime intervalEnd threshold beats i) := by
  have hit : i < record.time.length := by omega
  have hiv : i < record.voltage.length := by omega
  have hip : i - 1 < record.voltage.length := by omega
  have hin : i + 1 < record.voltage.length := by omega
  unfold scanStepChecked scanStep
  rw [List.getElem?_eq_getElem hit, List.getElem?_eq_getElem hiv,
    List.getElem?_eq_getElem hip, List.getElem?_eq_getElem hin,
    List.getD_eq_getElem _ _ hit, List.getD_eq_getElem _ _ hiv,
    List.getD_eq_getElem _ _ hip, List.getD_eq_getElem _ _ hin]
  simp only []
  by_cases hw : record.time[i] ≥ currentTime ∧ record.time[i] ≤ intervalEnd
  · rw [if_pos hw, if_pos hw]
    by_cases h1 : record.voltage[i] > threshold
    · rw [if_pos h1]
      by_cases h2 : record.voltage[i] > record.voltage[i - 1]
      · rw [if_pos h2]
        by_cases h3 : record.voltage[i] > record.voltage[i + 1]
        · have hall : record.voltage[i] > threshold ∧
              record.voltage[i] > record.voltage[i - 1] ∧
              record.voltage[i] > record.voltage[i + 1] := ⟨h1, h2, h3⟩
          rw [if_pos h3, if_pos hall]
          cases hlast : beats.getLast? with
          | none =>
            have hnil : beats = [] := List.getLast?_eq_none_iff.mp hlast
            subst hnil
            rfl
          | some lastBeat =>
            have hne : beats.isEmpty = false := by
              cases beats with
              | nil => simp at hlast
              | cons a l => rfl
            rw [hne]
            simp only [Bool.false_eq_true, if_false]
            split_ifs <;> rfl
        · have hnall : ¬ (record.voltage[i] > threshold ∧
              record.voltage[i] > record.voltage[i - 1] ∧
              record.voltage[i] > record.voltage[i + 1]) := fun h => h3 h.2.2
          rw [if_neg h3, if_neg hnall]
      · have hnall : ¬ (record.voltage[i] > threshold ∧
            record.voltage[i] > record.voltage[i - 1] ∧
            record.voltage[i] > record.voltage[i + 1]) := fun h => h2 h.2.1
        rw [if_neg h2, if_neg hnall]
    · have hnall : ¬ (record.voltage[i] > threshold ∧
          record.voltage[i] > record.voltage[i - 1] ∧
          record.voltage[i] > record.voltage[i + 1]) := fun h => h1 h.1
      rw [if_neg h1, if_neg hnall]
  · rw [if_neg hw, if_neg hw]

theorem windowBodyChecked_eq (record : ECGRecord) (endTime currentTime : ℚ)
    (beats : List Beat) (hlen : record.time.length = record.voltage.length) :
    windowBodyChecked record endTime currentTime beats =
      some (windowBody record endTime currentTime beats) := by
  unfold windowBodyChecked windowBody scanWindow
  simp only []
  rw [findThresholdChecked_eq record _ _ hlen]
  simp only []
  apply foldlM_eq_some_foldl
  intro b i hi
  have hi2 := List.mem_range'_1.mp hi
  exact scanStepChecked_eq record _ _ _ b i hlen ⟨hi2.1, by omega⟩

theorem windowLoopChecked_eq (record : ECGRecord) (endTime currentTime : ℚ)
    (beats : List Beat) (hlen : record.time.length = record.voltage.length) :
    windowLoopChecked record endTime currentTime beats =
      some (windowLoop record endTime currentTime beats) := by
  induction currentTime, beats using windowLoop.induct record endTime with
  | case1 c b h ih =>
    rw [windowLoopChecked, dif_pos h, windowBodyChecked_eq record _ _ _ hlen,
      windowLoop_of_lt _ _ _ _ h]
    exact ih
  | case2 c b h =>
    rw [windowLoopChecked, dif_neg h, windowLoop_of_not_lt _ _ _ _ h]

theorem findRPeaksChecked_eq (record : ECGRecord)
    (hlen : record.time.length = record.voltage.length) :
    findRPeaksChecked record = some (findRPeaks record) := by
  unfold findRPeaksChecked findRPeaks
  cases htime : record.time with
  | nil => rfl
  | cons t ts =>
    have hne : (t :: ts).isEmpty = false := rfl
    rw [hne]
    simp only [Bool.false_eq_true, if_false, List.head?_cons, List.headD_cons]
    have hlast : (t :: ts).getLast? = some ((t :: ts).getLastD 0) := by
      rw [List.getLastD_eq_getLast?]
      cases h : (t :: ts).getLast? with
      | none => simp at h
      | some x => rfl
    rw [hlast]
    simp only []
    rw [← htime]
    exact windowLoopChecked_eq record _ _ _ hlen

theorem analyzeStepChecked_eq (beats : List Beat) (seg : Segments) (i : Nat)
    (hi : i + 1 < beats.length) :
    analyzeStepChecked beats seg i = some (analyzeStep beats seg i) := by
  have hi0 : i < beats.length := by omega
  unfold analyzeStepChecked analyzeStep beatTime
  rw [List.getElem?_eq_getElem hi, List.getElem?_eq_getElem hi0,
    List.getD_eq_getElem _ _ hi, List.getD_eq_getElem _ _ hi0]
  simp only []
  split_ifs <;> rfl

theorem analyzeBeatsChecked_eq (beats : List Beat) :
    analyzeBeatsChecked beats = some (analyzeBeats beats) := by
  unfold analyzeBeatsChecked analyzeBeats
  apply foldlM_eq_some_foldl
  intro seg i hi
  have := List.mem_range.mp hi
  exact analyzeStepChecked_eq beats seg i (by omega)

/-- The record `readECGFile` builds has as many times as voltages: both values of a line are
pushed together. -/
theorem readLines_lengths (lines : List (Option (ℚ × ℚ))) :
    (readLines lines).time.length = (readLines lines).voltage.length := by
  unfold readLines
  have key : ∀ (l : List (Option (ℚ × ℚ))) (record : ECGRecord),
      record.time.length = record.voltage.length →
      (l.foldl
        (fun record line =>
          match line with
          | some (timeVal, voltageVal) =>
            { time := record.time ++ [timeVal], voltage := record.voltage ++ [voltageVal] }
          | none => record) record).time.length =
      (l.foldl
        (fun record line =>
          match line with
          | some (timeVal, voltageVal) =>
            { time := record.time ++ [timeVal], voltage := record.voltage ++ [voltageVal] }
          | none => record) record).voltage.length := by
    intro l
    induction l with
    | nil => intro record h; exact h
    | cons line l ih =>
      intro record h
      rw [List.foldl_cons]
      apply ih
      cases line with
      | none => exact h
      | some p =>
        obtain ⟨timeVal, voltageVal⟩ := p
        simp only [List.length_append, List.length_singleton, h]
  exact key lines _ rfl

/-- C16. The record `readECGFile` builds has as many times as voltages, and for a record with
as many times as voltages every read of `findThreshold`, of `findRPeaks` and of the pairwise
walk of `analyzeECGData` is in bounds: the functions with checked reads of `time[i]`,
`voltage[i - 1]`, `voltage[i]`, `voltage[i + 1]`, `time.front()`, `time.back()`,
`beats.back()`, `beats[i]` and `beats[i + 1]` never read outside a vector and return the
values of the unchecked functions. -/
theorem reads_in_bounds (record : ECGRecord)
    (hlen : record.time.length = record.voltage.length) :
    (∀ lines, (readLines lines).time.length = (readLines lines).voltage.length) ∧
    (∀ start_time end_time : ℚ,
      findThresholdChecked record start_time end_time =
        some (findThreshold record start_time end_time)) ∧
    findRPeaksChecked record = some (findRPeaks record) ∧
    (∀ beats : List Beat, analyzeBeatsChecked beats = some (analyzeBeats beats)) ∧
    analyzeECGDataChecked record = some (analyzeECGData record) := by
  refine ⟨readLines_lengths, fun s e => findThresholdChecked_eq record s e hlen,
    findRPeaksChecked_eq record hlen, analyzeBeatsChecked_eq, ?_⟩
  unfold analyzeECGDataChecked analyzeECGData
  rw [findRPeaksChecked_eq record hlen]
  exact analyzeBeatsChecked_eq _

/-- C16 at the scenario signal. -/
theorem reads_in_bounds_witness :
    scenarioSignal.time.length = scenarioSignal.voltage.length ∧
    ((∀ lines, (readLines lines).time.length = (readLines lines).voltage.length) ∧
    (∀ start_time end_time : ℚ,
      findThresholdChecked scenarioSignal start_time end_time =
        some (findThreshold scenarioSignal start_time end_time)) ∧
    findRPeaksChecked scenarioSignal = some (findRPeaks scenarioSignal) ∧
    (∀ beats : List Beat, analyzeBeatsChecked beats = some (analyzeBeats beats)) ∧
    analyzeECGDataChecked scenarioSignal = some (analyzeECGData scenarioSignal)) :=
  ⟨by decide, reads_in_bounds scenarioSignal (by decide)⟩

/-- The checked functions do fail on a record that breaks the invariant: with two times and
three voltages `findThresholdChecked` reads `time[2]` outside the vector. -/
theorem findThresholdChecked_unequal : findThresholdChecked shortSignal 0 10 = none := by
  decide!

/-! ## C20: the names of the result files -/

theorem findLastOf_eq_none (c : Char) (s : List Char) (h : ∀ x ∈ s, x ≠ c) :
    findLastOf c s = none := by
  induction s with
  | nil => rfl
  | cons x xs ih =>
    unfold findLastOf
    rw [ih (fun y hy => h y (List.mem_cons_of_mem _ hy))]
    simp only []
    rw [if_neg (h x (List.mem_cons_self _ _))]

/-- The two names agree for an input file name whose part before the last `'.'` has no
`'.'`, such as the names `Person1.txt` and `Person3.txt` of `main`. -/
theorem filenames_agree_of_single_dot (file condition : String)
    (h : ∀ x ∈ (substrTo file (findLastOf '.' file.data)).data, x ≠ '.') :
    writtenFilename file condition = combinedFilename file condition := by
  unfold writtenFilename combinedFilename generateOutputFilename
  simp only []
  rw [findLastOf_eq_none '.' _ h]
  rfl

theorem filenames_agree_of_single_dot_witness :
    (∀ x ∈ (substrTo "Person1.txt" (findLastOf '.' "Person1.txt".data)).data, x ≠ '.') ∧
    writtenFilename "Person1.txt" "Normal" = combinedFilename "Person1.txt" "Normal" :=
  ⟨by decide, filenames_agree_of_single_dot "Person1.txt" "Normal" (by decide)⟩

/-- C20, the code at a file name with two dots. For the input `Person1.v2.txt` and the
condition `Normal`, `analyzeECGData` writes `Person1-Normal.txt`, while `main` hands
`Person1.v2-Normal.txt` to `combineResults`; for `./Person1.txt` the names are `-Normal.txt`
and `./Person1-Normal.txt`. -/
theorem filenames_differ_two_dots :
    writtenFilename "Person1.v2.txt" "Normal" = "Person1-Normal.txt" ∧
    combinedFilename "Person1.v2.txt" "Normal" = "Person1.v2-Normal.txt" ∧
    writtenFilename "Person1.v2.txt" "Normal" ≠ combinedFilename "Person1.v2.txt" "Normal" ∧
    writtenFilename "./Person1.txt" "Normal" = "-Normal.txt" ∧
    combinedFilename "./Person1.txt" "Normal" = "./Person1-Normal.txt" := by
  decide

/-! ## The rounding of binary64 keeps the order -/

theorem log2Fuel_spec (fuel : Nat) : ∀ n, 1 ≤ n → n ≤ fuel →
    2 ^ log2Fuel fuel n ≤ n ∧ n < 2 ^ (log2Fuel fuel n + 1) := by
  induction fuel with
  | zero => intro n h1 h2; omega
  | succ fuel ih =>
    intro n h1 h2
    unfold log2Fuel
    split_ifs with h
    · have : n = 1 := by omega
      subst this
      simp
    · have hn : 1 ≤ n / 2 := by omega
      have hf : n / 2 ≤ fuel := by omega
      obtain ⟨i1, i2⟩ := ih (n / 2) hn hf
      constructor
      · rw [pow_succ]; omega
      · rw [pow_succ]; omega

theorem roundHalfEven_floor_le (q : ℚ) : ⌊q⌋ ≤ roundHalfEven q := by
  unfold roundHalfEven
  split_ifs <;> omega

theorem roundHalfEven_le_floor_add_one (q : ℚ) : roundHalfEven q ≤ ⌊q⌋ + 1 := by
  unfold roundHalfEven
  split_ifs <;> omega

theorem roundHalfEven_intCast (n : ℤ) : roundHalfEven (n : ℚ) = n := by
  unfold roundHalfEven
  simp

theorem roundHalfEven_mono {p q : ℚ} (h : p ≤ q) : roundHalfEven p ≤ roundHalfEven q := by
  have hfl : ⌊p⌋ ≤ ⌊q⌋ := Int.floor_mono h
  rcases lt_or_eq_of_le hfl with hlt | heq
  · have := roundHalfEven_le_floor_add_one p
    have := roundHalfEven_floor_le q
    omega
  · unfold roundHalfEven
    rw [heq]
    have hpq : p - (⌊q⌋ : ℚ) ≤ q - (⌊q⌋ : ℚ) := by linarith
    split_ifs <;> first | omega | (exfalso; linarith)

theorem binade_spec (x : ℚ) (hx : 0 < x) :
    (2 : ℚ) ^ binade x ≤ x ∧ x < (2 : ℚ) ^ (binade x + 1) := by
  have hnum : 0 < x.num := Rat.num_pos.mpr hx
  have hn1 : 1 ≤ x.num.natAbs := by omega
  have hd1 : 1 ≤ x.den := x.den_pos
  obtain ⟨a1, a2⟩ := log2Fuel_spec x.num.natAbs x.num.natAbs hn1 (le_refl _)
  obtain ⟨b1, b2⟩ := log2Fuel_spec x.den x.den hd1 (le_refl _)
  have hxeq : x = (x.num.natAbs : ℚ) / (x.den : ℚ) := by
    have h1 : ((x.num.natAbs : ℤ) : ℚ) = (x.num : ℚ) := by
      rw [Int.natAbs_of_nonneg (le_of_lt hnum)]
    have h2 : ((x.num.natAbs : ℕ) : ℚ) = ((x.num.natAbs : ℤ) : ℚ) := (Int.cast_natCast _).symm
    rw [h2, h1]
    exact (Rat.num_div_den x).symm
  have hdpos : (0 : ℚ) < (x.den : ℚ) := by exact_mod_cast hd1
  set a := log2Fuel x.num.natAbs x.num.natAbs with ha
  set b := log2Fuel x.den x.den with hb
  have A1 : ((2 : ℚ) ^ a) ≤ (x.num.natAbs : ℚ) := by exact_mod_cast a1
  have A2 : (x.num.natAbs : ℚ) < (2 : ℚ) ^ (a + 1) := by exact_mod_cast a2
  have B1 : ((2 : ℚ) ^ b) ≤ (x.den : ℚ) := by exact_mod_cast b1
  have B2 : (x.den : ℚ) < (2 : ℚ) ^ (b + 1) := by exact_mod_cast b2
  have h2a : (0 : ℚ) < 2 ^ a := by positivity
  have h2b : (0 : ℚ) < 2 ^ b := by positivity
  -- x < 2 ^ (a - b + 1) and 2 ^ (a - b - 1) < x
  have hup : x < (2 : ℚ) ^ ((a : ℤ) - (b : ℤ) + 1) := by
    have : (2 : ℚ) ^ ((a : ℤ) - (b : ℤ) + 1) = 2 ^ (a + 1) / 2 ^ b := by
      rw [show (a : ℤ) - (b : ℤ) + 1 = ((a + 1 : ℕ) : ℤ) - (b : ℤ) by push_cast; ring,
        zpow_sub₀ (by norm_num), zpow_natCast, zpow_natCast]
    rw [this, hxeq, div_lt_div_iff₀ hdpos h2b]
    calc (x.num.natAbs : ℚ) * 2 ^ b < 2 ^ (a + 1) * 2 ^ b := by
          exact mul_lt_mul_of_pos_right A2 h2b
      _ ≤ 2 ^ (a + 1) * (x.den : ℚ) := by
          exact mul_le_mul_of_nonneg_left B1 (by positivity)
  have hlow : (2 : ℚ) ^ ((a : ℤ) - (b : ℤ) - 1) < x := by
    have : (2 : ℚ) ^ ((a : ℤ) - (b : ℤ) - 1) = 2 ^ a / 2 ^ (b + 1) := by
      rw [show (a : ℤ) - (b : ℤ) - 1 = (a : ℤ) - ((b + 1 : ℕ) : ℤ) by push_cast; ring,
        zpow_sub₀ (by norm_num), zpow_natCast, zpow_natCast]
    rw [this]
    conv_rhs => rw [hxeq]
    rw [div_lt_div_iff₀ (by positivity) hdpos]
    calc (2 : ℚ) ^ a * (x.den : ℚ) < 2 ^ a * 2 ^ (b + 1) := by
          exact mul_lt_mul_of_pos_left B2 h2a
      _ ≤ (x.num.natAbs : ℚ) * 2 ^ (b + 1) := by
          exact mul_le_mul_of_nonneg_right A1 (by positivity)
  unfold binade
  rw [abs_of_pos hx]
  simp only [← ha, ← hb]
  split_ifs with h
  · exact ⟨h, hup⟩
  · refine ⟨le_of_lt hlow, ?_⟩
    rw [show (a : ℤ) - (b : ℤ) - 1 + 1 = (a : ℤ) - (b : ℤ) by ring]
    exact not_le.mp h

theorem binade_mono {x y : ℚ} (hx : 0 < x) (hxy : x ≤ y) : binade x ≤ binade y := by
  obtain ⟨x1, _⟩ := binade_spec x hx
  obtain ⟨_, y2⟩ := binade_spec y (lt_of_lt_of_le hx hxy)
  have : (2 : ℚ) ^ binade x < (2 : ℚ) ^ (binade y + 1) := by linarith
  have := (zpow_lt_zpow_iff_right₀ (by norm_num : (1 : ℚ) < 2)).mp this
  omega

theorem flMagnitude_zero : flMagnitude 0 = 0 := by
  unfold flMagnitude
  rw [zero_div]
  have : roundHalfEven 0 = 0 := by
    have := roundHalfEven_intCast 0
    simpa using this
  rw [this]
  simp

theorem flMagnitude_nonneg (x : ℚ) (hx : 0 ≤ x) : 0 ≤ flMagnitude x := by
  unfold flMagnitude
  have hu : (0 : ℚ) < 2 ^ ulpExponent x := by positivity
  have h1 : 0 ≤ x / 2 ^ ulpExponent x := div_nonneg hx (le_of_lt hu)
  have h2 : 0 ≤ ⌊x / 2 ^ ulpExponent x⌋ := Int.floor_nonneg.mpr h1
  have h3 := roundHalfEven_floor_le (x / 2 ^ ulpExponent x)
  have h4 : (0 : ℚ) ≤ (roundHalfEven (x / 2 ^ ulpExponent x) : ℚ) := by
    exact_mod_cast le_trans h2 h3
  exact mul_nonneg h4 (le_of_lt hu)

theorem roundHalfEven_le_of_le_int {q : ℚ} {n : ℤ} (h : q ≤ n) : roundHalfEven q ≤ n := by
  have := roundHalfEven_mono h
  rwa [roundHalfEven_intCast] at this

theorem roundHalfEven_ge_of_int_le {q : ℚ} {n : ℤ} (h : (n : ℚ) ≤ q) : n ≤ roundHalfEven q := by
  have := roundHalfEven_mono h
  rwa [roundHalfEven_intCast] at this

theorem flMagnitude_mono {x y : ℚ} (hx : 0 ≤ x) (hxy : x ≤ y) :
    flMagnitude x ≤ flMagnitude y := by
  rcases eq_or_lt_of_le hx with h0 | hpos
  · rw [← h0, flMagnitude_zero]
    exact flMagnitude_nonneg y (le_trans hx hxy)
  have hypos : 0 < y := lt_of_lt_of_le hpos hxy
  have hb : binade x ≤ binade y := binade_mono hpos hxy
  have he : ulpExponent x ≤ ulpExponent y := by
    unfold ulpExponent
    have := max_le_max hb (le_refl (-1022 : ℤ))
    omega
  have hux : (0 : ℚ) < 2 ^ ulpExponent x := by positivity
  have huy : (0 : ℚ) < 2 ^ ulpExponent y := by positivity
  rcases eq_or_lt_of_le he with heq | hlt
  · unfold flMagnitude
    rw [heq]
    have h1 : x / 2 ^ ulpExponent y ≤ y / 2 ^ ulpExponent y :=
      div_le_div_of_nonneg_right hxy (le_of_lt huy)
    have h2 : (roundHalfEven (x / 2 ^ ulpExponent y) : ℚ) ≤
        (roundHalfEven (y / 2 ^ ulpExponent y) : ℚ) := by
      exact_mod_cast roundHalfEven_mono h1
    exact mul_le_mul_of_nonneg_right h2 (le_of_lt huy)
  · obtain ⟨_, xs2⟩ := binade_spec x hpos
    obtain ⟨ys1, _⟩ := binade_spec y hypos
    -- upper bound for x
    have hbx : binade x + 1 ≤ ulpExponent x + 53 := by
      unfold ulpExponent
      have := le_max_left (binade x) (-1022 : ℤ)
      omega
    have hx53 : x < (2 : ℚ) ^ (ulpExponent x + 53) :=
      lt_of_lt_of_le xs2 (zpow_le_zpow_right₀ (by norm_num) hbx)
    have hxq : x / 2 ^ ulpExponent x ≤ ((2 ^ 53 : ℤ) : ℚ) := by
      rw [div_le_iff₀ hux]
      have : ((2 ^ 53 : ℤ) : ℚ) * 2 ^ ulpExponent x = (2 : ℚ) ^ (ulpExponent x + 53) := by
        rw [zpow_add₀ (by norm_num : (2 : ℚ) ≠ 0)]
        push_cast
        rw [mul_comm]
        norm_num
      rw [this]
      exact le_of_lt hx53
    have hrx : (roundHalfEven (x / 2 ^ ulpExponent x) : ℚ) ≤ ((2 ^ 53 : ℤ) : ℚ) := by
      exact_mod_cast roundHalfEven_le_of_le_int hxq
    have hflx : flMagnitude x ≤ (2 : ℚ) ^ (ulpExponent x + 53) := by
      unfold flMagnitude
      calc (roundHalfEven (x / 2 ^ ulpExponent x) : ℚ) * 2 ^ ulpExponent x
          ≤ ((2 ^ 53 : ℤ) : ℚ) * 2 ^ ulpExponent x :=
            mul_le_mul_of_nonneg_right hrx (le_of_lt hux)
        _ = (2 : ℚ) ^ (ulpExponent x + 53) := by
            rw [zpow_add₀ (by norm_num : (2 : ℚ) ≠ 0)]
            push_cast
            rw [mul_comm]
            norm_num
    -- lower bound for y
    have hby : binade y = ulpExponent y + 52 := by
      unfold ulpExponent at hlt ⊢
      have h1 := le_max_right (binade x) (-1022 : ℤ)
      rcases max_choice (binade y) (-1022 : ℤ) with h | h
      · rw [h]; ring
      · rw [h] at hlt; omega
    have hy52 : (2 : ℚ) ^ (ulpExponent y + 52) ≤ y := by rw [← hby]; exact ys1
    have hyq : ((2 ^ 52 : ℤ) : ℚ) ≤ y / 2 ^ ulpExponent y := by
      rw [le_div_iff₀ huy]
      have : ((2 ^ 52 : ℤ) : ℚ) * 2 ^ ulpExponent y = (2 : ℚ) ^ (ulpExponent y + 52) := by
        rw [zpow_add₀ (by norm_num : (2 : ℚ) ≠ 0)]
        push_cast
        rw [mul_comm]
        norm_num
      rw [this]
      exact hy52
    have hry : ((2 ^ 52 : ℤ) : ℚ) ≤ (roundHalfEven (y / 2 ^ ulpExponent y) : ℚ) := by
      exact_mod_cast roundHalfEven_ge_of_int_le hyq
    have hfly : (2 : ℚ) ^ (ulpExponent y + 52) ≤ flMagnitude y := by
      unfold flMagnitude
      calc (2 : ℚ) ^ (ulpExponent y + 52) = ((2 ^ 52 : ℤ) : ℚ) * 2 ^ ulpExponent y := by
            rw [zpow_add₀ (by norm_num : (2 : ℚ) ≠ 0)]
            push_cast
            rw [mul_comm]
            norm_num
        _ ≤ (roundHalfEven (y / 2 ^ ulpExponent y) : ℚ) * 2 ^ ulpExponent y :=
            mul_le_mul_of_nonneg_right hry (le_of_lt huy)
    have hmid : (2 : ℚ) ^ (ulpExponent x + 53) ≤ (2 : ℚ) ^ (ulpExponent y + 52) :=
      zpow_le_zpow_right₀ (by norm_num) (by omega)
    linarith

theorem fl64_zero : fl64 0 = 0 := by
  unfold fl64
  rw [if_neg (lt_irrefl 0)]
  exact flMagnitude_zero

theorem fl64_mono : Monotone fl64 := by
  intro x y hxy
  unfold fl64
  by_cases hx : x < 0
  · by_cases hy : y < 0
    · rw [if_pos hx, if_pos hy]
      have := flMagnitude_mono (le_of_lt (neg_pos.mpr hy)) (neg_le_neg hxy)
      linarith
    · rw [if_pos hx, if_neg hy]
      have h1 := flMagnitude_nonneg (-x) (le_of_lt (neg_pos.mpr hx))
      have h2 := flMagnitude_nonneg y (not_lt.mp hy)
      linarith
  · have hy : ¬ y < 0 := fun h => hx (lt_of_le_of_lt hxy h)
    rw [if_neg hx, if_neg hy]
    exact flMagnitude_mono (not_lt.mp hx) hxy

theorem isRounding_fl64 : IsRounding fl64 :=
  ⟨fl64_mono, fl64_zero⟩

theorem isRounding_id : IsRounding id :=
  ⟨monotone_id, rfl⟩

/-! ## Loop rules in double arithmetic -/

theorem scanStepFl_cases (fl : ℚ → ℚ) (record : ECGRecord)
    (currentTime intervalEnd threshold : ℚ) (beats : List Beat) (i : Nat) :
    scanStepFl fl record currentTime intervalEnd threshold beats i = beats ∨
    (scanStepFl fl record currentTime intervalEnd threshold beats i
        = beats ++ [Beat.mk (record.time.getD i 0)] ∧
      (currentTime ≤ record.time.getD i 0 ∧ record.time.getD i 0 ≤ intervalEnd) ∧
      (record.voltage.getD i 0 > threshold ∧
        record.voltage.getD i 0 > record.voltage.getD (i - 1) 0 ∧
        record.voltage.getD i 0 > record.voltage.getD (i + 1) 0) ∧
      ∀ lastBeat, beats.getLast? = some lastBeat →
        ¬ fl (record.time.getD i 0 - lastBeat.rPeakTime) < gateFl fl) := by
  unfold scanStepFl
  simp only []
  split_ifs with h1 h2
  · cases hlast : beats.getLast? with
    | none =>
      right
      exact ⟨rfl, h1, h2, fun lb h => by cases h⟩
    | some lastBeat =>
      simp only []
      split_ifs with h3
      · left; rfl
      · right
        refine ⟨rfl, h1, h2, ?_⟩
        intro lb hlb
        cases hlb
        exact h3
  · left; rfl
  · left; rfl

theorem scanStepFl_candidate (fl : ℚ → ℚ) (record : ECGRecord)
    (currentTime intervalEnd threshold : ℚ) (beats : List Beat) (i : Nat)
    (hw : currentTime ≤ record.time.getD i 0 ∧ record.time.getD i 0 ≤ intervalEnd)
    (hp : record.voltage.getD i 0 > threshold ∧
      record.voltage.getD i 0 > record.voltage.getD (i - 1) 0 ∧
      record.voltage.getD i 0 > record.voltage.getD (i + 1) 0) :
    scanStepFl fl record currentTime intervalEnd threshold beats i
        = beats ++ [Beat.mk (record.time.getD i 0)] ∨
    ∃ lastBeat, beats.getLast? = some lastBeat ∧
      fl (record.time.getD i 0 - lastBeat.rPeakTime) < gateFl fl ∧
      scanStepFl fl record currentTime intervalEnd threshold beats i = beats := by
  unfold scanStepFl
  simp only []
  rw [if_pos (show record.time.getD i 0 ≥ currentTime ∧ record.time.getD i 0 ≤ intervalEnd
    from hw), if_pos hp]
  cases hlast : beats.getLast? with
  | none => exact Or.inl rfl
  | some lastBeat =>
    simp only []
    split_ifs with h3
    · exact Or.inr ⟨lastBeat, rfl, h3, rfl⟩
    · exact Or.inl rfl

theorem scanFoldFl_grows (fl : ℚ → ℚ) (record : ECGRecord)
    (currentTime intervalEnd threshold : ℚ) (l : List Nat) (beats : List Beat) :
    beats <+: l.foldl (scanStepFl fl record currentTime intervalEnd threshold) beats := by
  induction l generalizing beats with
  | nil => exact List.prefix_refl _
  | cons i l ih =>
    rw [List.foldl_cons]
    refine List.IsPrefix.trans ?_ (ih _)
    rcases scanStepFl_cases fl record currentTime intervalEnd threshold beats i with h | ⟨h, _⟩
    · rw [h]
    · rw [h]; exact List.prefix_append _ _

theorem scanFoldFl_mem (fl : ℚ → ℚ) (record : ECGRecord)
    (currentTime intervalEnd threshold : ℚ) (l : List Nat) (beats : List Beat) (b : Beat)
    (hb : b ∈ l.foldl (scanStepFl fl record currentTime intervalEnd threshold) beats) :
    b ∈ beats ∨ ∃ j ∈ l, b = Beat.mk (record.time.getD j 0) ∧
      (currentTime ≤ record.time.getD j 0 ∧ record.time.getD j 0 ≤ intervalEnd) ∧
      (record.voltage.getD j 0 > threshold ∧
        record.voltage.getD j 0 > record.voltage.getD (j - 1) 0 ∧
        record.voltage.getD j 0 > record.voltage.getD (j + 1) 0) := by
  induction l generalizing beats with
  | nil => exact Or.inl hb
  | cons i l ih =>
    rw [List.foldl_cons] at hb
    rcases ih _ hb with h | ⟨j, hj, h⟩
    · rcases scanStepFl_cases fl record currentTime intervalEnd threshold beats i with
        h0 | ⟨h0, hw, hp, _⟩
      · rw [h0] at h; exact Or.inl h
      · rw [h0] at h
        rcases List.mem_append.mp h with h | h
        · exact Or.inl h
        · right
          exact ⟨i, List.mem_cons_self _ _, List.mem_singleton.mp h, hw, hp⟩
    · exact Or.inr ⟨j, List.mem_cons_of_mem _ hj, h⟩

theorem scanFoldFl_gapChain (fl : ℚ → ℚ) (record : ECGRecord)
    (currentTime intervalEnd threshold : ℚ) (l : List Nat) (beats : List Beat)
    (h : GapChainFl fl beats) :
    GapChainFl fl (l.foldl (scanStepFl fl record currentTime intervalEnd threshold) beats) := by
  induction l generalizing beats with
  | nil => exact h
  | cons i l ih =>
    rw [List.foldl_cons]
    apply ih
    rcases scanStepFl_cases fl record currentTime intervalEnd threshold beats i with
      h0 | ⟨h1, _, _, h4⟩
    · rw [h0]; exact h
    · rw [h1]
      unfold GapChainFl
      rw [List.chain'_append]
      refine ⟨h, List.chain'_singleton _, ?_⟩
      intro x hx y hy
      simp only [List.head?_cons, Option.mem_def, Option.some.injEq] at hx hy
      subst hy
      exact h4 x hx

/-- The window loop in double arithmetic runs the windows of `windowTraceFl`, one iteration
for each, in order; it ends within `fuel` iterations exactly when the trace does. -/
theorem windowLoopFl_eq_trace (fl : ℚ → ℚ) (record : ECGRecord) (endTime : ℚ) (fuel : Nat) :
    ∀ (currentTime : ℚ) (beats : List Beat),
      windowLoopFl fl record endTime fuel currentTime beats =
        (windowTraceFl fl endTime fuel currentTime).map
          (fun trace => trace.foldl (runWindowFl fl record) beats) := by
  induction fuel with
  | zero =>
    intro c b
    unfold windowLoopFl windowTraceFl
    split_ifs <;> rfl
  | succ fuel ih =>
    intro c b
    unfold windowLoopFl windowTraceFl
    split_ifs with h
    · rw [ih]
      cases windowTraceFl fl endTime fuel (fl (c + STEP_SIZE)) with
      | none => rfl
      | some rest => rfl
    · rfl

/-- What `findRPeaks` returns in double arithmetic: nothing for the record without samples,
and else the fold of the windows of the loop. -/
theorem findRPeaksFl_some (fl : ℚ → ℚ) (fuel : Nat) (record : ECGRecord) (beats : List Beat)
    (h : findRPeaksFl fl fuel record = some beats) :
    (record.time = [] ∧ beats = []) ∨
    ∃ trace, windowTraceFl fl (record.time.getLastD 0) fuel (record.time.headD 0) = some trace ∧
      beats = trace.foldl (runWindowFl fl record) [] := by
  unfold findRPeaksFl at h
  split_ifs at h with hempty
  · left
    exact ⟨List.isEmpty_iff.mp hempty, (Option.some.inj h).symm⟩
  · right
    rw [windowLoopFl_eq_trace] at h
    cases htr : windowTraceFl fl (record.time.getLastD 0) fuel (record.time.headD 0) with
    | none => rw [htr] at h; cases h
    | some trace =>
      rw [htr] at h
      exact ⟨trace, rfl, (Option.some.inj h).symm⟩

theorem foldWindowsFl_grows (fl : ℚ → ℚ) (record : ECGRecord) (trace : List (ℚ × ℚ))
    (beats : List Beat) : beats <+: trace.foldl (runWindowFl fl record) beats := by
  induction trace generalizing beats with
  | nil => exact List.prefix_refl _
  | cons w rest ih =>
    rw [List.foldl_cons]
    exact (scanFoldFl_grows fl record _ _ _ _ beats).trans (ih _)

theorem foldWindowsFl_mem (fl : ℚ → ℚ) (record : ECGRecord) (trace : List (ℚ × ℚ))
    (beats : List Beat) (b : Beat) (hb : b ∈ trace.foldl (runWindowFl fl record) beats) :
    b ∈ beats ∨ ∃ w ∈ trace, ∃ i, IsCandidateFl fl record w i ∧
      b = Beat.mk (record.time.getD i 0) := by
  induction trace generalizing beats with
  | nil => exact Or.inl hb
  | cons w rest ih =>
    rw [List.foldl_cons] at hb
    rcases ih _ hb with h | ⟨w', hw', i, hc, hbi⟩
    · unfold runWindowFl at h
      rcases scanFoldFl_mem fl record _ _ _ _ _ b h with h0 | ⟨j, hj, hbj, hwin, hp⟩
      · exact Or.inl h0
      · have hj2 := List.mem_range'_1.mp hj
        exact Or.inr ⟨w, List.mem_cons_self _ _, j, ⟨⟨hj2.1, by omega⟩, hwin, hp⟩, hbj⟩
    · exact Or.inr ⟨w', List.mem_cons_of_mem _ hw', i, hc, hbi⟩

theorem foldWindowsFl_gapChain (fl : ℚ → ℚ) (record : ECGRecord) (trace : List (ℚ × ℚ))
    (beats : List Beat) (h : GapChainFl fl beats) :
    GapChainFl fl (trace.foldl (runWindowFl fl record) beats) := by
  induction trace generalizing beats with
  | nil => exact h
  | cons w rest ih =>
    rw [List.foldl_cons]
    exact ih _ (scanFoldFl_gapChain fl record _ _ _ _ beats h)

/-- Consecutive beats of what `findRPeaks` returns in double arithmetic passed the gate. -/
theorem findRPeaksFl_gapChain (fl : ℚ → ℚ) (fuel : Nat) (record : ECGRecord)
    (beats : List Beat) (h : findRPeaksFl fl fuel record = some beats) :
    GapChainFl fl beats := by
  rcases findRPeaksFl_some fl fuel record beats h with ⟨_, hb⟩ | ⟨trace, _, hb⟩
  · rw [hb]; exact List.chain'_nil
  · rw [hb]; exact foldWindowsFl_gapChain fl record trace [] List.chain'_nil

/-! ## The windows of the loop in double arithmetic -/

/-- Every window of the loop starts below `endTime` and ends at
`min (currentTime + INTERVAL_SIZE) endTime`. -/
theorem windowTraceFl_mem (fl : ℚ → ℚ) (endTime : ℚ) (fuel : Nat) :
    ∀ (currentTime : ℚ) (trace : List (ℚ × ℚ)),
      windowTraceFl fl endTime fuel currentTime = some trace →
      ∀ w ∈ trace, w.1 < endTime ∧ w.2 = min (fl (w.1 + INTERVAL_SIZE)) endTime := by
  induction fuel with
  | zero =>
    intro c trace h w hw
    unfold windowTraceFl at h
    split_ifs at h
    cases h
    cases hw
  | succ fuel ih =>
    intro c trace h w hw
    unfold windowTraceFl at h
    split_ifs at h with hc
    · cases hrest : windowTraceFl fl endTime fuel (fl (c + STEP_SIZE)) with
      | none => rw [hrest] at h; cases h
      | some rest =>
        rw [hrest] at h
        simp only [Option.map_some', Option.some.injEq] at h
        subst h
        rcases List.mem_cons.mp hw with rfl | hw
        · exact ⟨hc, rfl⟩
        · exact ih _ rest hrest w hw
    · cases h
      cases hw

/-- A loop whose counter does not advance does not end. -/
theorem windowTraceFl_stall (fl : ℚ → ℚ) (endTime currentTime : ℚ)
    (hstall : fl (currentTime + STEP_SIZE) = currentTime) (hlt : currentTime < endTime)
    (fuel : Nat) : windowTraceFl fl endTime fuel currentTime = none := by
  induction fuel with
  | zero =>
    unfold windowTraceFl
    rw [if_pos hlt]
  | succ fuel ih =>
    unfold windowTraceFl
    rw [if_pos hlt, hstall, ih]
    rfl

/-- Every time between the counter and `endTime` passes the window test of a window of the
loop. -/
theorem windowTraceFl_cover (fl : ℚ → ℚ) (endTime : ℚ) (fuel : Nat) :
    ∀ (currentTime : ℚ) (trace : List (ℚ × ℚ)) (t : ℚ),
      windowTraceFl fl endTime fuel currentTime = some trace →
      currentTime < endTime → currentTime ≤ t → t ≤ endTime →
      ∃ w ∈ trace, w.1 ≤ t ∧ t ≤ w.2 := by
  induction fuel with
  | zero =>
    intro c trace t h hc _ _
    unfold windowTraceFl at h
    rw [if_pos hc] at h
    cases h
  | succ fuel ih =>
    intro c trace t h hc h1 h2
    unfold windowTraceFl at h
    rw [if_pos hc] at h
    cases hrest : windowTraceFl fl endTime fuel (fl (c + STEP_SIZE)) with
    | none => rw [hrest] at h; cases h
    | some rest =>
      rw [hrest] at h
      simp only [Option.map_some', Option.some.injEq] at h
      subst h
      by_cases ht : t ≤ min (fl (c + INTERVAL_SIZE)) endTime
      · exact ⟨_, List.mem_cons_self _ _, h1, ht⟩
      · have hgt : fl (c + STEP_SIZE) < t := by
          have h3 : min (fl (c + INTERVAL_SIZE)) endTime < t := not_le.mp ht
          have h4 : fl (c + STEP_SIZE) = fl (c + INTERVAL_SIZE) := rfl
          rw [h4]
          rcases min_choice (fl (c + INTERVAL_SIZE)) endTime with hm | hm
          · rw [hm] at h3; exact h3
          · rw [hm] at h3; exact absurd h2 (not_le.mpr h3)
        obtain ⟨w, hw, hw1, hw2⟩ :=
          ih _ rest t hrest (lt_of_lt_of_le hgt h2) (le_of_lt hgt) h2
        exact ⟨w, List.mem_cons_of_mem _ hw, hw1, hw2⟩

/-! ## Candidates in double arithmetic -/

theorem runWindowFl_le (fl : ℚ → ℚ) (record : ECGRecord) (beats : List Beat) (w : ℚ × ℚ)
    (U : ℚ) (hb : ∀ b ∈ beats, b.rPeakTime ≤ U) (hw : w.2 ≤ U) :
    ∀ b ∈ runWindowFl fl record beats w, b.rPeakTime ≤ U := by
  intro b hmem
  unfold runWindowFl at hmem
  rcases scanFoldFl_mem fl record _ _ _ _ _ b hmem with h0 | ⟨j, _, hbj, hwin, _⟩
  · exact hb b h0
  · rw [hbj]
    exact le_trans hwin.2 hw

/-- In the scan of a window, a candidate of the window is appended unless the last beat is
closer than the gate; the beats found before the window are not after the window start. -/
theorem runWindowFl_candidate (fl : ℚ → ℚ) (record : ECGRecord)
    (hsorted : record.time.Sorted (· ≤ ·)) (beats : List Beat) (w : ℚ × ℚ) (i : Nat)
    (hc : IsCandidateFl fl record w i) (hb : ∀ b ∈ beats, b.rPeakTime ≤ w.1) :
    Beat.mk (record.time.getD i 0) ∈ runWindowFl fl record beats w ∨
    ∃ b ∈ runWindowFl fl record beats w,
      fl (record.time.getD i 0 - b.rPeakTime) < gateFl fl ∧
      b.rPeakTime ≤ record.time.getD i 0 := by
  obtain ⟨⟨hi1, hi2⟩, hw, hp⟩ := hc
  have hbody : runWindowFl fl record beats w =
      (List.range' (i + 1) (record.time.length - 2 - i)).foldl
        (scanStepFl fl record w.1 w.2 (findThresholdFl fl record w.1 w.2))
        (scanStepFl fl record w.1 w.2 (findThresholdFl fl record w.1 w.2)
          ((List.range' 1 (i - 1)).foldl
            (scanStepFl fl record w.1 w.2 (findThresholdFl fl record w.1 w.2)) beats) i) := by
    unfold runWindowFl
    rw [interiorIndices_split record i hi1 hi2, List.foldl_append, List.foldl_cons]
  generalize hb2 : (List.range' 1 (i - 1)).foldl
    (scanStepFl fl record w.1 w.2 (findThresholdFl fl record w.1 w.2)) beats = b2 at hbody
  have hb2le : ∀ b ∈ b2, b.rPeakTime ≤ record.time.getD i 0 := by
    intro b hmem
    rw [← hb2] at hmem
    rcases scanFoldFl_mem fl record _ _ _ _ _ b hmem with h0 | ⟨j, hj, hbj, _, _⟩
    · exact le_trans (hb b h0) hw.1
    · rw [hbj]
      have hj2 := List.mem_range'_1.mp hj
      exact sorted_getD_le record.time hsorted j i (by omega) (by omega)
  have hfinal : ∀ b, b ∈ scanStepFl fl record w.1 w.2 (findThresholdFl fl record w.1 w.2) b2 i →
      b ∈ runWindowFl fl record beats w := by
    intro b hmem
    rw [hbody]
    exact (scanFoldFl_grows fl record _ _ _ _ _).mem hmem
  rcases scanStepFl_candidate fl record w.1 w.2 (findThresholdFl fl record w.1 w.2) b2 i hw hp
    with hpush | ⟨lb, hlast, hgap, hskip⟩
  · left
    apply hfinal
    rw [hpush]
    exact List.mem_append_right _ (List.mem_singleton.mpr rfl)
  · right
    have hmem : lb ∈ b2 := List.mem_of_getLast?_eq_some hlast
    refine ⟨lb, ?_, hgap, hb2le lb hmem⟩
    apply hfinal
    rw [hskip]
    exact hmem

theorem foldWindowsFl_candidate (fl : ℚ → ℚ) (record : ECGRecord)
    (hsorted : record.time.Sorted (· ≤ ·)) (i : Nat) (w : ℚ × ℚ)
    (hc : IsCandidateFl fl record w i) :
    ∀ (trace : List (ℚ × ℚ)) (beats : List Beat),
      List.Chain' (fun w w' : ℚ × ℚ => w.1 < w'.1 ∧ w.2 ≤ w'.1) trace →
      (∀ w0, trace.head? = some w0 → ∀ b ∈ beats, b.rPeakTime ≤ w0.1) →
      w ∈ trace →
      Beat.mk (record.time.getD i 0) ∈ trace.foldl (runWindowFl fl record) beats ∨
      ∃ b ∈ trace.foldl (runWindowFl fl record) beats,
        fl (record.time.getD i 0 - b.rPeakTime) < gateFl fl ∧
        b.rPeakTime ≤ record.time.getD i 0 := by
  intro trace
  induction trace with
  | nil => intro beats _ _ hw; cases hw
  | cons w0 rest ih =>
    intro beats hch hb hw
    rw [List.foldl_cons]
    rcases List.mem_cons.mp hw with rfl | hw
    · have hgrow := foldWindowsFl_grows fl record rest (runWindowFl fl record beats w)
      rcases runWindowFl_candidate fl record hsorted beats w i hc (hb w rfl) with
        h | ⟨b, hbm, h1, h2⟩
      · exact Or.inl (hgrow.mem h)
      · exact Or.inr ⟨b, hgrow.mem hbm, h1, h2⟩
    · rw [List.chain'_cons'] at hch
      refine ih _ hch.2 ?_ hw
      intro w1 hw1 b hbm
      obtain ⟨h1, h2⟩ := hch.1 w1 hw1
      exact runWindowFl_le fl record beats w0 w1.1
        (fun b hb0 => le_trans (hb w0 rfl b hb0) (le_of_lt h1)) h2 b hbm

/-! ## Integers in binary64 and the advance of the loop counter -/

theorem flMagnitude_natCast (m : Nat) (hm : (m : ℚ) < 2 ^ 53) : flMagnitude (m : ℚ) = m := by
  rcases Nat.eq_zero_or_pos m with h0 | hpos
  · subst h0
    simpa using flMagnitude_zero
  have hx : (0 : ℚ) < (m : ℚ) := by exact_mod_cast hpos
  obtain ⟨b1, _⟩ := binade_spec (m : ℚ) hx
  have hb : binade (m : ℚ) < 53 := by
    have h2 : (2 : ℚ) ^ binade (m : ℚ) < (2 : ℚ) ^ (53 : ℤ) := by
      have : ((2 : ℚ) ^ (53 : ℤ)) = 2 ^ 53 := by norm_num
      rw [this]
      exact lt_of_le_of_lt b1 hm
    exact (zpow_lt_zpow_iff_right₀ (by norm_num : (1 : ℚ) < 2)).mp h2
  have he : ulpExponent (m : ℚ) ≤ 0 := by
    unfold ulpExponent
    have : max (binade (m : ℚ)) (-1022) ≤ 52 := max_le (by omega) (by norm_num)
    omega
  unfold flMagnitude
  generalize ulpExponent (m : ℚ) = e at he
  obtain ⟨k, rfl⟩ : ∃ k : Nat, e = -(k : ℤ) := ⟨(-e).toNat, by omega⟩
  have h2k : ((2 : ℚ) ^ (-(k : ℤ))) = ((2 : ℚ) ^ k)⁻¹ := by
    rw [zpow_neg, zpow_natCast]
  rw [h2k]
  have hpos2 : (0 : ℚ) < 2 ^ k := by positivity
  have hint : (m : ℚ) / ((2 : ℚ) ^ k)⁻¹ = (((m * 2 ^ k : Nat) : ℤ) : ℚ) := by
    rw [div_inv_eq_mul]
    push_cast
    ring
  rw [hint, roundHalfEven_intCast]
  push_cast
  field_simp

theorem fl64_intCast (n : ℤ) (hn : |(n : ℚ)| < 2 ^ 53) : fl64 (n : ℚ) = n := by
  unfold fl64
  split_ifs with hneg
  · have hneg2 : n < 0 := by exact_mod_cast hneg
    have habs : |(n : ℚ)| = -(n : ℚ) := abs_of_neg hneg
    have hcast : -(n : ℚ) = ((n.natAbs : Nat) : ℚ) := by
      have : ((n.natAbs : Nat) : ℤ) = -n := by omega
      have h2 : (((n.natAbs : Nat) : ℤ) : ℚ) = ((-n : ℤ) : ℚ) := by rw [this]
      rw [Int.cast_natCast] at h2
      rw [h2]
      push_cast
      ring
    rw [hcast, flMagnitude_natCast _ (by rw [← hcast, ← habs]; exact hn), ← hcast]
    ring
  · have hnn : 0 ≤ n := by
      have : (0 : ℚ) ≤ (n : ℚ) := not_lt.mp hneg
      exact_mod_cast this
    have habs : |(n : ℚ)| = (n : ℚ) := abs_of_nonneg (not_lt.mp hneg)
    have hcast : (n : ℚ) = ((n.natAbs : Nat) : ℚ) := by
      have : ((n.natAbs : Nat) : ℤ) = n := by omega
      have h2 : (((n.natAbs : Nat) : ℤ) : ℚ) = (n : ℚ) := by rw [this]
      rw [Int.cast_natCast] at h2
      exact h2.symm
    rw [hcast, flMagnitude_natCast _ (by rw [← hcast, ← habs]; exact hn)]

/-- In binary64 the counter of the window loop advances, by more than one second at every
iteration, when the times of the signal are between `-2 ^ 52` and `2 ^ 52` seconds. -/
theorem fl64_advances (currentTime endTime : ℚ) (hlow : -(2 ^ 52) ≤ currentTime)
    (hhigh : endTime ≤ 2 ^ 52) : Advances fl64 currentTime endTime := by
  intro x hx1 hx2
  have h1 : x < ((⌊x⌋ + 2 : ℤ) : ℚ) - 1 := by
    push_cast
    have := Int.lt_floor_add_one x
    linarith
  have h2 : ((⌊x⌋ + 2 : ℤ) : ℚ) ≤ x + STEP_SIZE := by
    push_cast
    have := Int.floor_le x
    unfold STEP_SIZE
    linarith
  have habs : |((⌊x⌋ + 2 : ℤ) : ℚ)| < 2 ^ 53 := by
    rw [abs_lt]
    have := Int.floor_le x
    have := Int.lt_floor_add_one x
    push_cast
    constructor <;> norm_num at * <;> linarith
  have h3 := fl64_mono h2
  rw [fl64_intCast _ habs] at h3
  linarith

/-! ## The windows of a loop whose counter advances -/

theorem advances_of_le (fl : ℚ → ℚ) (c c' e : ℚ) (h : Advances fl c e) (hc : c ≤ c') :
    Advances fl c' e :=
  fun x hx1 hx2 => h x (le_trans hc hx1) hx2

theorem windowTraceFl_of_not_lt (fl : ℚ → ℚ) (endTime currentTime : ℚ) (fuel : Nat)
    (h : ¬ currentTime < endTime) : windowTraceFl fl endTime fuel currentTime = some [] := by
  cases fuel with
  | zero => unfold windowTraceFl; rw [if_neg h]
  | succ fuel => unfold windowTraceFl; rw [if_neg h]

theorem windowTraceFl_of_lt (fl : ℚ → ℚ) (endTime currentTime : ℚ) (fuel : Nat)
    (trace : List (ℚ × ℚ)) (hlt : currentTime < endTime)
    (h : windowTraceFl fl endTime fuel currentTime = some trace) :
    ∃ fuel0 rest, fuel = fuel0 + 1 ∧
      windowTraceFl fl endTime fuel0 (fl (currentTime + STEP_SIZE)) = some rest ∧
      trace = (currentTime, min (fl (currentTime + INTERVAL_SIZE)) endTime) :: rest := by
  cases fuel with
  | zero =>
    unfold windowTraceFl at h
    rw [if_pos hlt] at h
    cases h
  | succ fuel =>
    unfold windowTraceFl at h
    rw [if_pos hlt] at h
    cases hrest : windowTraceFl fl endTime fuel (fl (currentTime + STEP_SIZE)) with
    | none => rw [hrest] at h; cases h
    | some rest =>
      rw [hrest] at h
      simp only [Option.map_some', Option.some.injEq] at h
      exact ⟨fuel, rest, rfl, hrest, h.symm⟩

/-- A loop whose counter advances ends within `endTime - currentTime` iterations. -/
theorem windowTraceFl_ends (fl : ℚ → ℚ) (endTime : ℚ) (fuel : Nat) :
    ∀ (currentTime : ℚ), Advances fl currentTime endTime →
      endTime - currentTime ≤ fuel →
      ∃ trace, windowTraceFl fl endTime fuel currentTime = some trace := by
  induction fuel with
  | zero =>
    intro c _ hf
    refine ⟨[], windowTraceFl_of_not_lt fl endTime c 0 ?_⟩
    push_cast at hf
    linarith
  | succ fuel ih =>
    intro c hadv hf
    by_cases hc : c < endTime
    · have hstep := hadv c (le_refl _) hc
      obtain ⟨rest, hrest⟩ := ih (fl (c + STEP_SIZE))
        (advances_of_le fl c _ endTime hadv (by linarith)) (by push_cast at hf; linarith)
      refine ⟨(c, min (fl (c + INTERVAL_SIZE)) endTime) :: rest, ?_⟩
      unfold windowTraceFl
      rw [if_pos hc, hrest]
      rfl
    · exact ⟨[], windowTraceFl_of_not_lt fl endTime c _ hc⟩

/-- The result of the loop does not depend on the bound, once the bound suffices. -/
theorem windowTraceFl_fuel (fl : ℚ → ℚ) (endTime : ℚ) (fuel : Nat) :
    ∀ (currentTime : ℚ) (trace : List (ℚ × ℚ)) (more : Nat),
      windowTraceFl fl endTime fuel currentTime = some trace →
      windowTraceFl fl endTime (fuel + more) currentTime = some trace := by
  induction fuel with
  | zero =>
    intro c trace more h
    unfold windowTraceFl at h
    split_ifs at h with hc
    rw [windowTraceFl_of_not_lt fl endTime c _ hc]
    exact h
  | succ fuel ih =>
    intro c trace more h
    by_cases hc : c < endTime
    · obtain ⟨fuel0, rest, hf, hrest, htr⟩ := windowTraceFl_of_lt fl endTime c _ trace hc h
      have hf0 : fuel0 = fuel := by omega
      subst hf0
      have := ih _ rest more hrest
      have hsum : fuel0 + 1 + more = (fuel0 + more) + 1 := by omega
      rw [hsum]
      unfold windowTraceFl
      rw [if_pos hc, this, htr]
      rfl
    · rw [windowTraceFl_of_not_lt fl endTime c _ hc] at h
      rw [windowTraceFl_of_not_lt fl endTime c _ hc]
      exact h

/-- The windows of a loop whose counter advances are contiguous: each one starts where the
one before ends, later than the one before starts; every window is inside
`[currentTime, endTime]` and is not empty. -/
theorem windowTraceFl_contiguous (fl : ℚ → ℚ) (endTime : ℚ) (fuel : Nat) :
    ∀ (currentTime : ℚ) (trace : List (ℚ × ℚ)),
      Advances fl currentTime endTime →
      windowTraceFl fl endTime fuel currentTime = some trace →
      List.Chain' (fun w w' : ℚ × ℚ => w.1 < w'.1 ∧ w.2 = w'.1) trace ∧
      (∀ w ∈ trace, currentTime ≤ w.1 ∧ w.1 < w.2 ∧ w.2 ≤ endTime) ∧
      (∀ w, trace.head? = some w → w.1 = currentTime) ∧
      (∀ w ∈ trace.tail, currentTime < w.1) := by
  induction fuel with
  | zero =>
    intro c trace _ h
    unfold windowTraceFl at h
    split_ifs at h
    cases h
    exact ⟨List.chain'_nil, by simp, by simp, by simp⟩
  | succ fuel ih =>
    intro c trace hadv h
    by_cases hc : c < endTime
    · obtain ⟨fuel0, rest, hf, hrest, htr⟩ := windowTraceFl_of_lt fl endTime c _ trace hc h
      have hf0 : fuel0 = fuel := by omega
      subst hf0
      subst htr
      have hstep := hadv c (le_refl _) hc
      have hlt : c < fl (c + STEP_SIZE) := by linarith
      obtain ⟨hch, hin, hhead, _⟩ := ih _ rest
        (advances_of_le fl c _ endTime hadv (le_of_lt hlt)) hrest
      refine ⟨?_, ?_, ?_, ?_⟩
      · rw [List.chain'_cons']
        refine ⟨?_, hch⟩
        intro w' hw'
        have hw1 : w'.1 = fl (c + STEP_SIZE) := hhead w' hw'
        have hmem : w' ∈ rest := List.mem_of_mem_head? hw'
        have hw2 := (hin w' hmem).2
        have hlt2 : fl (c + STEP_SIZE) < endTime := by
          rw [← hw1]
          exact lt_of_lt_of_le hw2.1 hw2.2
        refine ⟨by rw [hw1]; exact hlt, ?_⟩
        rw [hw1]
        exact min_eq_left (le_of_lt hlt2)
      · intro w hw
        rcases List.mem_cons.mp hw with rfl | hw
        · refine ⟨le_refl _, ?_, min_le_right _ _⟩
          exact lt_min hlt hc
        · obtain ⟨h1, h2, h3⟩ := hin w hw
          exact ⟨le_trans (le_of_lt hlt) h1, h2, h3⟩
      · intro w hw
        simp only [List.head?_cons, Option.some.injEq] at hw
        rw [← hw]
      · intro w hw
        simp only [List.tail_cons] at hw
        exact lt_of_lt_of_le hlt (hin w hw).1
    · rw [windowTraceFl_of_not_lt fl endTime c _ hc] at h
      cases h
      exact ⟨List.chain'_nil, by simp, by simp, by simp⟩

theorem filter_window_cons (t : ℚ) (w : ℚ × ℚ) (rest : List (ℚ × ℚ)) :
    ((w :: rest).filter (fun w => decide (w.1 ≤ t ∧ t ≤ w.2))).length =
      (if w.1 ≤ t ∧ t ≤ w.2 then 1 else 0) +
        (rest.filter (fun w => decide (w.1 ≤ t ∧ t ≤ w.2))).length := by
  by_cases h : w.1 ≤ t ∧ t ≤ w.2
  · rw [if_pos h, List.filter_cons_of_pos (by simpa using h), List.length_cons]
    omega
  · rw [if_neg h, List.filter_cons_of_neg (by simpa using h)]
    omega

/-- The number of windows of the loop whose window test a time `t` between the counter and
`endTime` passes: two when `t` is the start of a window after the first, and one otherwise. -/
theorem windowTraceFl_count (fl : ℚ → ℚ) (endTime : ℚ) (fuel : Nat) :
    ∀ (currentTime : ℚ) (trace : List (ℚ × ℚ)) (t : ℚ),
      Advances fl currentTime endTime →
      windowTraceFl fl endTime fuel currentTime = some trace →
      currentTime < endTime → currentTime ≤ t → t ≤ endTime →
      (trace.filter (fun w => decide (w.1 ≤ t ∧ t ≤ w.2))).length =
        if ∃ w ∈ trace.tail, w.1 = t then 2 else 1 := by
  induction fuel with
  | zero =>
    intro c trace t _ h hc _ _
    unfold windowTraceFl at h
    rw [if_pos hc] at h
    cases h
  | succ fuel ih =>
    intro c trace t hadv h hc ht1 ht2
    obtain ⟨fuel0, rest, hf, hrest, htr⟩ := windowTraceFl_of_lt fl endTime c _ trace hc h
    have hf0 : fuel0 = fuel := by omega
    subst hf0
    subst htr
    have hstep := hadv c (le_refl _) hc
    have hlt : c < fl (c + STEP_SIZE) := by linarith
    have hadv' := advances_of_le fl c _ endTime hadv (le_of_lt hlt)
    obtain ⟨_, hin, hhead, htail⟩ := windowTraceFl_contiguous fl endTime fuel0 _ rest hadv' hrest
    have hInt : fl (c + INTERVAL_SIZE) = fl (c + STEP_SIZE) := rfl
    simp only [List.tail_cons]
    by_cases hnext : fl (c + STEP_SIZE) < endTime
    · -- the loop runs a further window, which starts at `fl (c + STEP_SIZE)`
      have hmin : min (fl (c + INTERVAL_SIZE)) endTime = fl (c + STEP_SIZE) := by
        rw [hInt]; exact min_eq_left (le_of_lt hnext)
      rw [hmin]
      obtain ⟨fuel1, rest1, hf1, hrest1, htr1⟩ :=
        windowTraceFl_of_lt fl endTime _ _ rest hnext hrest
      rcases lt_trichotomy t (fl (c + STEP_SIZE)) with hlt1 | heq | hgt
      · have hnone : rest.filter (fun w => decide (w.1 ≤ t ∧ t ≤ w.2)) = [] := by
          rw [List.filter_eq_nil_iff]
          intro w hw
          have := (hin w hw).1
          simp only [decide_eq_true_eq, not_and]
          intro h1
          linarith
        have hP : (c, fl (c + STEP_SIZE)).1 ≤ t ∧ t ≤ (c, fl (c + STEP_SIZE)).2 :=
          ⟨ht1, le_of_lt hlt1⟩
        rw [filter_window_cons, if_pos hP, hnone]
        have hno : ¬ ∃ w ∈ rest, w.1 = t := by
          rintro ⟨w, hw, hwt⟩
          have := (hin w hw).1
          linarith
        rw [if_neg hno]
        rfl
      · have hP : (c, fl (c + STEP_SIZE)).1 ≤ t ∧ t ≤ (c, fl (c + STEP_SIZE)).2 :=
          ⟨ht1, le_of_eq heq⟩
        rw [filter_window_cons, if_pos hP,
          ih _ rest t hadv' hrest hnext (le_of_eq heq.symm) ht2]
        have hno : ¬ ∃ w ∈ rest.tail, w.1 = t := by
          rintro ⟨w, hw, hwt⟩
          have := htail w hw
          linarith
        have hyes : ∃ w ∈ rest, w.1 = t := by
          rw [htr1]
          exact ⟨_, List.mem_cons_self _ _, heq.symm⟩
        rw [if_neg hno, if_pos hyes]
      · have hP : ¬ ((c, fl (c + STEP_SIZE)).1 ≤ t ∧ t ≤ (c, fl (c + STEP_SIZE)).2) := by
          rintro ⟨_, h2⟩
          exact absurd h2 (not_le.mpr hgt)
        rw [filter_window_cons, if_neg hP, zero_add,
          ih _ rest t hadv' hrest hnext (le_of_lt hgt) ht2]
        have hiff : (∃ w ∈ rest.tail, w.1 = t) ↔ ∃ w ∈ rest, w.1 = t := by
          constructor
          · rintro ⟨w, hw, hwt⟩
            exact ⟨w, List.mem_of_mem_tail hw, hwt⟩
          · rintro ⟨w, hw, hwt⟩
            rw [htr1] at hw ⊢
            rcases List.mem_cons.mp hw with rfl | hw
            · exfalso
              simp only at hwt
              linarith
            · exact ⟨w, hw, hwt⟩
        by_cases hex : ∃ w ∈ rest, w.1 = t
        · rw [if_pos hex, if_pos (hiff.mpr hex)]
        · rw [if_neg hex, if_neg (fun h => hex (hiff.mp h))]
    · -- the window that starts at `c` is the last one
      have hrest0 : rest = [] := by
        rw [windowTraceFl_of_not_lt fl endTime _ _ hnext] at hrest
        exact (Option.some.inj hrest).symm
      subst hrest0
      have hmin : min (fl (c + INTERVAL_SIZE)) endTime = endTime := by
        rw [hInt]; exact min_eq_right (not_lt.mp hnext)
      rw [hmin]
      have hP : (c, endTime).1 ≤ t ∧ t ≤ (c, endTime).2 := ⟨ht1, ht2⟩
      rw [filter_window_cons, if_pos hP]
      simp

/-! ## What findRPeaks returns in double arithmetic -/

/-- In double arithmetic `findRPeaks` runs the windows of the loop, in order, from no beat;
it returns when the loop ends. -/
theorem findRPeaksFl_eq_trace (fl : ℚ → ℚ) (fuel : Nat) (record : ECGRecord) :
    findRPeaksFl fl fuel record =
      (windowTraceFl fl (record.time.getLastD 0) fuel (record.time.headD 0)).map
        (fun trace => trace.foldl (runWindowFl fl record) []) := by
  unfold findRPeaksFl
  split_ifs with hempty
  · have ht : record.time = [] := List.isEmpty_iff.mp hempty
    rw [ht]
    rw [windowTraceFl_of_not_lt fl _ _ fuel (by simp)]
    rfl
  · exact windowLoopFl_eq_trace fl record _ fuel _ _

/-- On a record whose loop counter advances, `findRPeaks` returns within
`lastTime - firstTime` iterations of the window loop. -/
theorem findRPeaksFl_returns (fl : ℚ → ℚ) (record : ECGRecord)
    (hadv : Advances fl (record.time.headD 0) (record.time.getLastD 0)) (fuel : Nat)
    (hfuel : record.time.getLastD 0 - record.time.headD 0 ≤ fuel) :
    windowTraceFl fl (record.time.getLastD 0) fuel (record.time.headD 0)
      = some (loopWindows fl fuel record) ∧
    findRPeaksFl fl fuel record
      = some ((loopWindows fl fuel record).foldl (runWindowFl fl record) []) := by
  obtain ⟨trace, htrace⟩ := windowTraceFl_ends fl _ fuel _ hadv hfuel
  have hlw : loopWindows fl fuel record = trace := by
    unfold loopWindows
    rw [htrace]
    rfl
  rw [hlw, findRPeaksFl_eq_trace, htrace]
  exact ⟨rfl, rfl⟩

/-- What `findRPeaks` returns does not depend on the bound on the iterations. -/
theorem findRPeaksFl_fuel (fl : ℚ → ℚ) (record : ECGRecord) (fuel fuel' : Nat)
    (beats beats' : List Beat) (h : findRPeaksFl fl fuel record = some beats)
    (h' : findRPeaksFl fl fuel' record = some beats') : beats = beats' := by
  rw [findRPeaksFl_eq_trace] at h h'
  cases htr : windowTraceFl fl (record.time.getLastD 0) fuel (record.time.headD 0) with
  | none => rw [htr] at h; cases h
  | some trace =>
    cases htr' : windowTraceFl fl (record.time.getLastD 0) fuel' (record.time.headD 0) with
    | none => rw [htr'] at h'; cases h'
    | some trace' =>
      rw [htr] at h
      rw [htr'] at h'
      have e1 := windowTraceFl_fuel fl _ fuel _ trace fuel' htr
      have e2 := windowTraceFl_fuel fl _ fuel' _ trace' fuel htr'
      rw [Nat.add_comm] at e2
      rw [e1] at e2
      have : trace = trace' := Option.some.inj e2
      subst this
      exact (Option.some.inj h).symm.trans (Option.some.inj h')

/-- Every beat `findRPeaks` returns in double arithmetic is the time of a candidate of a
window the loop runs. -/
theorem findRPeaksFl_mem_candidate (fl : ℚ → ℚ) (fuel : Nat) (record : ECGRecord)
    (beats : List Beat) (h : findRPeaksFl fl fuel record = some beats) (b : Beat)
    (hb : b ∈ beats) :
    ∃ w ∈ loopWindows fl fuel record, ∃ i, IsCandidateFl fl record w i ∧
      b = Beat.mk (record.time.getD i 0) := by
  rw [findRPeaksFl_eq_trace] at h
  cases htr : windowTraceFl fl (record.time.getLastD 0) fuel (record.time.headD 0) with
  | none => rw [htr] at h; cases h
  | some trace =>
    rw [htr] at h
    have hbe : beats = trace.foldl (runWindowFl fl record) [] := (Option.some.inj h).symm
    have hlw : loopWindows fl fuel record = trace := by
      unfold loopWindows
      rw [htr]
      rfl
    rw [hlw]
    rw [hbe] at hb
    rcases foldWindowsFl_mem fl record trace [] b hb with h0 | h1
    · cases h0
    · exact h1

/-- With fewer than three samples nothing is scanned: what `findRPeaks` returns is empty. -/
theorem findRPeaksFl_short (fl : ℚ → ℚ) (fuel : Nat) (record : ECGRecord)
    (hshort : record.time.length < 3) (beats : List Beat)
    (h : findRPeaksFl fl fuel record = some beats) : beats = [] := by
  apply List.eq_nil_iff_forall_not_mem.mpr
  intro b hb
  obtain ⟨_, _, i, ⟨⟨h1, h2⟩, _, _⟩, _⟩ := findRPeaksFl_mem_candidate fl fuel record beats h b hb
  omega

/-- With fewer than three samples and a loop counter that advances, `findRPeaks` returns the
empty beat sequence. -/
theorem findRPeaksFl_short_returns (fl : ℚ → ℚ) (record : ECGRecord)
    (hshort : record.time.length < 3)
    (hadv : Advances fl (record.time.headD 0) (record.time.getLastD 0)) (fuel : Nat)
    (hfuel : record.time.getLastD 0 - record.time.headD 0 ≤ fuel) :
    findRPeaksFl fl fuel record = some [] := by
  obtain ⟨_, hret⟩ := findRPeaksFl_returns fl record hadv fuel hfuel
  rw [hret, findRPeaksFl_short fl fuel record hshort _ hret]

/-- On a record with non-decreasing times whose loop counter advances, every candidate of a
window of the loop is a beat of what `findRPeaks` returns, or a returned beat that is not
after it is closer to it than the gate of the de-duplication. -/
theorem findRPeaksFl_candidates (fl : ℚ → ℚ) (record : ECGRecord)
    (hsorted : record.time.Sorted (· ≤ ·))
    (hadv : Advances fl (record.time.headD 0) (record.time.getLastD 0)) (fuel : Nat)
    (hfuel : record.time.getLastD 0 - record.time.headD 0 ≤ fuel) :
    ∃ beats, findRPeaksFl fl fuel record = some beats ∧
      ∀ i, IsPeakCandidateFl fl fuel record i →
        (Beat.mk (record.time.getD i 0) ∈ beats ∨
        ∃ b ∈ beats, fl (record.time.getD i 0 - b.rPeakTime) < gateFl fl ∧
          b.rPeakTime ≤ record.time.getD i 0) := by
  obtain ⟨htrace, hret⟩ := findRPeaksFl_returns fl record hadv fuel hfuel
  refine ⟨_, hret, ?_⟩
  rintro i ⟨w, hw, hc⟩
  obtain ⟨hch, _, _, _⟩ := windowTraceFl_contiguous fl _ fuel _ _ hadv htrace
  have hch2 : List.Chain' (fun w w' : ℚ × ℚ => w.1 < w'.1 ∧ w.2 ≤ w'.1)
      (loopWindows fl fuel record) :=
    hch.imp (fun {a b} h => ⟨h.1, le_of_eq h.2⟩)
  exact foldWindowsFl_candidate fl record hsorted i w hc _ [] hch2
    (fun w0 _ b hb => by cases hb) hw

/-! ## The de-duplication gate in double arithmetic -/

/-- With a rounding that keeps the order and a positive gate, the beats `findRPeaks` returns
are strictly increasing, and no beat is closer than the gate to a beat before it. -/
theorem findRPeaksFl_pairwise (fl : ℚ → ℚ) (hfl : IsRounding fl) (hgate : 0 < gateFl fl)
    (fuel : Nat) (record : ECGRecord) (beats : List Beat)
    (h : findRPeaksFl fl fuel record = some beats) :
    beats.Pairwise (fun a b : Beat =>
      a.rPeakTime < b.rPeakTime ∧ ¬ fl (b.rPeakTime - a.rPeakTime) < gateFl fl) := by
  have hchain := findRPeaksFl_gapChain fl fuel record beats h
  unfold GapChainFl at hchain
  have hstep : ∀ a b : Beat, ¬ fl (b.rPeakTime - a.rPeakTime) < gateFl fl →
      a.rPeakTime < b.rPeakTime ∧
        ∀ c, b.rPeakTime ≤ c → ¬ fl (c - a.rPeakTime) < gateFl fl := by
    intro a b hab
    constructor
    · by_contra hle
      have h0 : b.rPeakTime - a.rPeakTime ≤ 0 := by linarith [not_lt.mp hle]
      have h1 : fl (b.rPeakTime - a.rPeakTime) ≤ 0 := by
        have := hfl.mono h0
        rw [hfl.zero] at this
        exact this
      exact hab (lt_of_le_of_lt h1 hgate)
    · intro c hc hlt
      have h1 : fl (b.rPeakTime - a.rPeakTime) ≤ fl (c - a.rPeakTime) :=
        hfl.mono (by linarith)
      exact hab (lt_of_le_of_lt h1 hlt)
  haveI : IsTrans Beat (fun a b : Beat => a.rPeakTime < b.rPeakTime ∧
      ∀ c, b.rPeakTime ≤ c → ¬ fl (c - a.rPeakTime) < gateFl fl) :=
    ⟨fun x y z hxy hyz =>
      ⟨lt_trans hxy.1 hyz.1, fun c hc => hxy.2 c (le_trans (le_of_lt hyz.1) hc)⟩⟩
  have hpw : beats.Pairwise (fun a b : Beat => a.rPeakTime < b.rPeakTime ∧
      ∀ c, b.rPeakTime ≤ c → ¬ fl (c - a.rPeakTime) < gateFl fl) :=
    List.chain'_iff_pairwise.mp (hchain.imp (fun {a b} hab => hstep a b hab))
  exact hpw.imp (fun {a b} hab => ⟨hab.1, hab.2 b.rPeakTime (le_refl _)⟩)

/-- Of two returned beats, the earlier one is not closer than the gate to the later one. -/
theorem findRPeaksFl_separated (fl : ℚ → ℚ) (hfl : IsRounding fl) (hgate : 0 < gateFl fl)
    (fuel : Nat) (record : ECGRecord) (beats : List Beat)
    (h : findRPeaksFl fl fuel record = some beats) (a b : Beat) (ha : a ∈ beats)
    (hb : b ∈ beats) (hab : a.rPeakTime < b.rPeakTime) :
    ¬ fl (b.rPeakTime - a.rPeakTime) < gateFl fl := by
  have hpw := findRPeaksFl_pairwise fl hfl hgate fuel record beats h
  have hsym : beats.Pairwise (fun x y : Beat =>
      (x.rPeakTime < y.rPeakTime → ¬ fl (y.rPeakTime - x.rPeakTime) < gateFl fl) ∧
      (y.rPeakTime < x.rPeakTime → ¬ fl (x.rPeakTime - y.rPeakTime) < gateFl fl)) :=
    hpw.imp (fun {x y} hxy => ⟨fun _ => hxy.2, fun hyx => absurd hxy.1 (not_lt.mpr (le_of_lt hyx))⟩)
  have hall : ∀ x ∈ beats, ∀ y ∈ beats,
      (x.rPeakTime < y.rPeakTime → ¬ fl (y.rPeakTime - x.rPeakTime) < gateFl fl) ∧
      (y.rPeakTime < x.rPeakTime → ¬ fl (x.rPeakTime - y.rPeakTime) < gateFl fl) := by
    intro x hx y hy
    refine List.Pairwise.forall_of_forall ?_ ?_ hsym hx hy
    · intro x y hxy
      exact ⟨hxy.2, hxy.1⟩
    · intro x _
      exact ⟨fun hlt => absurd hlt (lt_irrefl _), fun hlt => absurd hlt (lt_irrefl _)⟩
  exact (hall a ha b hb).1 hab

theorem gapChainFl_index (fl : ℚ → ℚ) (beats : List Beat) (h : GapChainFl fl beats) (k : Nat)
    (hk : k + 1 < beats.length) :
    ¬ fl (beatTime beats (k + 1) - beatTime beats k) < gateFl fl := by
  unfold GapChainFl at h
  rw [List.chain'_iff_get] at h
  have h1 := h k (by omega)
  simp only [List.get_eq_getElem] at h1
  unfold beatTime
  rw [List.getD_eq_getElem _ _ (by omega : k < beats.length), List.getD_eq_getElem _ _ hk]
  exact h1

/-! ## The threshold in double arithmetic -/

theorem windowMaxVoltage_nonneg (record : ECGRecord) (start_time end_time : ℚ) :
    0 ≤ windowMaxVoltage record start_time end_time :=
  (findThreshold_fold record start_time end_time (List.range record.voltage.length) 0).1

/-- The running maximum of `findThreshold` ends as the maximum of 0 and the voltages in the
window. -/
theorem windowMaxVoltage_isMax (record : ECGRecord) (start_time end_time : ℚ)
    (hlen : record.time.length = record.voltage.length) :
    IsMaxOf (0 :: windowVoltages record start_time end_time)
      (windowMaxVoltage record start_time end_time) := by
  obtain ⟨f1, f2, f3⟩ :=
    findThreshold_fold record start_time end_time (List.range record.voltage.length) 0
  unfold windowMaxVoltage
  refine ⟨?_, ?_⟩
  · rcases f3 with f3 | ⟨i, hi, hw, f3⟩
    · rw [f3]; exact List.mem_cons_self _ _
    · rw [f3]
      exact List.mem_cons_of_mem _
        ((mem_windowVoltages record _ _ _ hlen).mpr ⟨i, List.mem_range.mp hi, hw, rfl⟩)
  · intro v hv
    rcases List.mem_cons.mp hv with rfl | hv
    · exact f1
    · obtain ⟨i, hi, hw, rfl⟩ := (mem_windowVoltages record _ _ _ hlen).mp hv
      exact f2 i (List.mem_range.mpr hi) hw

theorem windowMaxVoltage_eq_max (record : ECGRecord) (start_time end_time m : ℚ)
    (hlen : record.time.length = record.voltage.length)
    (hm : IsMaxOf (windowVoltages record start_time end_time) m) :
    windowMaxVoltage record start_time end_time = max 0 m := by
  obtain ⟨h1, h2⟩ := windowMaxVoltage_isMax record start_time end_time hlen
  apply le_antisymm
  · rcases List.mem_cons.mp h1 with h0 | hmem
    · rw [h0]; exact le_max_left _ _
    · exact le_trans (hm.2 _ hmem) (le_max_right _ _)
  · exact max_le (h2 0 (List.mem_cons_self _ _)) (h2 m (List.mem_cons_of_mem _ hm.1))

theorem windowMaxVoltage_le_global (record : ECGRecord) (start_time end_time M : ℚ)
    (hM : ∀ v ∈ record.voltage, v ≤ M) :
    windowMaxVoltage record start_time end_time ≤ max 0 M := by
  obtain ⟨_, _, f3⟩ :=
    findThreshold_fold record start_time end_time (List.range record.voltage.length) 0
  unfold windowMaxVoltage
  rcases f3 with f3 | ⟨j, hj, _, f3⟩
  · rw [f3]; exact le_max_left _ _
  · rw [f3, List.getD_eq_getElem _ _ (List.mem_range.mp hj)]
    exact le_trans (hM _ (List.getElem_mem _)) (le_max_right _ _)

theorem isRounding_nonneg (fl : ℚ → ℚ) (hfl : IsRounding fl) (x : ℚ) (hx : 0 ≤ x) :
    0 ≤ fl x := by
  have := hfl.mono hx
  rw [hfl.zero] at this
  exact this

theorem findThresholdFl_nonneg (fl : ℚ → ℚ) (hfl : IsRounding fl) (record : ECGRecord)
    (start_time end_time : ℚ) : 0 ≤ findThresholdFl fl record start_time end_time := by
  unfold findThresholdFl
  exact isRounding_nonneg fl hfl _
    (mul_nonneg (windowMaxVoltage_nonneg record _ _) (isRounding_nonneg fl hfl _ (by norm_num)))

/-- The threshold of every window is at most the rounded product of the maximum of 0 and the
voltages of the record with `0.7`. -/
theorem findThresholdFl_le_global (fl : ℚ → ℚ) (hfl : IsRounding fl) (record : ECGRecord)
    (start_time end_time M : ℚ) (hM : ∀ v ∈ record.voltage, v ≤ M) :
    findThresholdFl fl record start_time end_time ≤ fl (max 0 M * fl (7 / 10)) := by
  unfold findThresholdFl
  exact hfl.mono (mul_le_mul_of_nonneg_right
    (windowMaxVoltage_le_global record _ _ M hM) (isRounding_nonneg fl hfl _ (by norm_num)))

/-- Every beat `findRPeaks` returns in double arithmetic is the time of an interior sample
with a strictly positive voltage. -/
theorem findRPeaksFl_mem_positive (fl : ℚ → ℚ) (hfl : IsRounding fl) (fuel : Nat)
    (record : ECGRecord) (beats : List Beat) (h : findRPeaksFl fl fuel record = some beats)
    (b : Beat) (hb : b ∈ beats) :
    ∃ i, (1 ≤ i ∧ i + 1 < record.time.length) ∧ b = Beat.mk (record.time.getD i 0) ∧
      0 < record.voltage.getD i 0 := by
  obtain ⟨w, _, i, ⟨hint, _, hth, _, _⟩, hbi⟩ :=
    findRPeaksFl_mem_candidate fl fuel record beats h b hb
  exact ⟨i, hint, hbi, lt_of_le_of_lt (findThresholdFl_nonneg fl hfl record _ _) hth⟩

/-! ## Exact arithmetic is double arithmetic without rounding -/

theorem scanStepFl_id (record : ECGRecord) (currentTime intervalEnd threshold : ℚ)
    (beats : List Beat) (i : Nat) :
    scanStepFl id record currentTime intervalEnd threshold beats i =
      scanStep record currentTime intervalEnd threshold beats i := rfl

theorem windowBodyFl_id (record : ECGRecord) (endTime currentTime : ℚ) (beats : List Beat) :
    windowBodyFl id record endTime currentTime beats =
      windowBody record endTime currentTime beats := rfl

/-- With `fl := id` the loop with a bound returns what the loop over the rationals returns. -/
theorem windowLoopFl_id (record : ECGRecord) (endTime : ℚ) (fuel : Nat) :
    ∀ (currentTime : ℚ) (beats out : List Beat),
      windowLoopFl id record endTime fuel currentTime beats = some out →
      out = windowLoop record endTime currentTime beats := by
  induction fuel with
  | zero =>
    intro c beats out h
    unfold windowLoopFl at h
    split_ifs at h with hc
    rw [windowLoop_of_not_lt _ _ _ _ hc]
    exact (Option.some.inj h).symm
  | succ fuel ih =>
    intro c beats out h
    unfold windowLoopFl at h
    split_ifs at h with hc
    · rw [windowLoop_of_lt _ _ _ _ hc]
      exact ih _ _ out h
    · rw [windowLoop_of_not_lt _ _ _ _ hc]
      exact (Option.some.inj h).symm

theorem findRPeaksFl_id (fuel : Nat) (record : ECGRecord) (beats : List Beat)
    (h : findRPeaksFl id fuel record = some beats) : beats = findRPeaks record := by
  unfold findRPeaksFl at h
  unfold findRPeaks
  split_ifs at h ⊢ with hempty
  · exact (Option.some.inj h).symm
  · exact windowLoopFl_id record _ fuel _ _ beats h

/-! ## C2: the classification of a positive duration -/

theorem classifyBeatFl_of_ne_zero (fl : ℚ → ℚ) (z : Bool) (d : ℚ) (hd : d ≠ 0) :
    classifyBeatFl fl z d =
      if fl (60 / d) < 60 then "Bradycardia"
      else if fl (60 / d) > 100 then "Tachycardia" else "Normal" := by
  unfold classifyBeatFl heartRateOfFl
  rw [if_neg hd]
  simp only [HeartRateFl.ltBound, HeartRateFl.gtBound, decide_eq_true_eq]

theorem classifyBeatFl_zero (fl : ℚ → ℚ) :
    classifyBeatFl fl false 0 = "Tachycardia" ∧ classifyBeatFl fl true 0 = "Bradycardia" := by
  unfold classifyBeatFl heartRateOfFl
  exact ⟨rfl, rfl⟩

/-- C2, counterexample. The double nearest to 0.6 is a positive duration `d` whose exact
quotient `60 / d` is above 100, and `classifyBeat` returns Normal for it, not Tachycardia: the
quotient the code compares is the rounded one, which is `100.0`.  Over exact arithmetic the
label would be Tachycardia. -/
theorem classifyBeat_rounded_boundary :
    0 < fl64 (6 / 10) ∧ 60 / fl64 (6 / 10) > 100 ∧ fl64 (60 / fl64 (6 / 10)) = 100 ∧
    classifyBeatFl fl64 false (fl64 (6 / 10)) = "Normal" ∧
    classifyBeatFl fl64 false (fl64 (6 / 10)) ≠ "Tachycardia" ∧
    classifyBeat (fl64 (6 / 10)) = "Tachycardia" := by
  decide!

/-- C2, amended. In double arithmetic, for every duration `d > 0`: `classifyBeat` returns
Bradycardia exactly when the rounded quotient `60.0 / d` is below 60, Tachycardia exactly
when it is above 100, and Normal exactly when it is in `[60, 100]`, both ends included.  For
the exact quotient only one direction holds: Bradycardia is returned only if `60 / d < 60`,
Tachycardia only if `60 / d > 100`, and Normal is returned whenever `60 ≤ 60 / d ≤ 100`.  In
binary64, `classifyBeat` returns Normal at `1.0` and at the double `0.6`, Tachycardia at `0.5`
and Bradycardia at the double `1.2`. -/
theorem classifyBeatFl_spec (fl : ℚ → ℚ) (hfl : IsRounding fl) (h60 : fl 60 = 60)
    (h100 : fl 100 = 100) (z : Bool) (d : ℚ) (hd : 0 < d) :
    ((classifyBeatFl fl z d = "Bradycardia" ↔ fl (60 / d) < 60) ∧
      (classifyBeatFl fl z d = "Tachycardia" ↔ fl (60 / d) > 100) ∧
      (classifyBeatFl fl z d = "Normal" ↔ 60 ≤ fl (60 / d) ∧ fl (60 / d) ≤ 100)) ∧
    ((classifyBeatFl fl z d = "Bradycardia" → 60 / d < 60) ∧
      (classifyBeatFl fl z d = "Tachycardia" → 60 / d > 100) ∧
      (60 ≤ 60 / d ∧ 60 / d ≤ 100 → classifyBeatFl fl z d = "Normal")) ∧
    (classifyBeatFl fl64 z 1 = "Normal" ∧
      classifyBeatFl fl64 z (fl64 (6 / 10)) = "Normal" ∧
      classifyBeatFl fl64 z (1 / 2) = "Tachycardia" ∧
      classifyBeatFl fl64 z (fl64 (12 / 10)) = "Bradycardia") := by
  have hne : d ≠ 0 := ne_of_gt hd
  have hiff : (classifyBeatFl fl z d = "Bradycardia" ↔ fl (60 / d) < 60) ∧
      (classifyBeatFl fl z d = "Tachycardia" ↔ fl (60 / d) > 100) ∧
      (classifyBeatFl fl z d = "Normal" ↔ 60 ≤ fl (60 / d) ∧ fl (60 / d) ≤ 100) := by
    rw [classifyBeatFl_of_ne_zero fl z d hne]
    refine ⟨?_, ?_, ?_⟩
    · constructor
      · intro h
        by_contra hlt
        rw [if_neg hlt] at h
        split_ifs at h <;> exact absurd h (by decide)
      · intro h
        rw [if_pos h]
    · constructor
      · intro h
        split_ifs at h with h1 h2
        · exact absurd h (by decide)
        · exact h2
        · exact absurd h (by decide)
      · intro h
        have h1 : ¬ fl (60 / d) < 60 := by
          intro h1
          linarith
        rw [if_neg h1, if_pos h]
    · constructor
      · intro h
        split_ifs at h with h1 h2
        · exact absurd h (by decide)
        · exact absurd h (by decide)
        · exact ⟨not_lt.mp h1, not_lt.mp h2⟩
      · rintro ⟨h1, h2⟩
        rw [if_neg (not_lt.mpr h1), if_neg (not_lt.mpr h2)]
  refine ⟨hiff, ⟨?_, ?_, ?_⟩, ?_⟩
  · intro h
    have h1 := hiff.1.mp h
    by_contra hge
    have := hfl.mono (not_lt.mp hge)
    rw [h60] at this
    linarith
  · intro h
    have h1 := hiff.2.1.mp h
    by_contra hle
    have := hfl.mono (not_lt.mp hle)
    rw [h100] at this
    linarith
  · rintro ⟨h1, h2⟩
    apply hiff.2.2.mpr
    have a1 := hfl.mono h1
    have a2 := hfl.mono h2
    rw [h60] at a1
    rw [h100] at a2
    exact ⟨a1, a2⟩
  · cases z <;> decide!

/-- C2, amended, in binary64 at the double nearest to 0.6, whose rounded quotient is 100. -/
theorem classifyBeatFl_spec_witness :
    IsRounding fl64 ∧ fl64 60 = 60 ∧ fl64 100 = 100 ∧ 0 < fl64 (6 / 10) ∧
    (classifyBeatFl fl64 false (fl64 (6 / 10)) = "Normal" ↔
      60 ≤ fl64 (60 / fl64 (6 / 10)) ∧ fl64 (60 / fl64 (6 / 10)) ≤ 100) ∧
    (classifyBeatFl fl64 false (fl64 (6 / 10)) = "Tachycardia" → 60 / fl64 (6 / 10) > 100) :=
  ⟨isRounding_fl64, by decide!, by decide!, by decide!,
    (classifyBeatFl_spec fl64 isRounding_fl64 (by decide!) (by decide!) false (fl64 (6 / 10))
      (by decide!)).1.2.2,
    (classifyBeatFl_spec fl64 isRounding_fl64 (by decide!) (by decide!) false (fl64 (6 / 10))
      (by decide!)).2.1.2.1⟩

/-! ## C3: the classification of a duration that is not positive -/

/-- C3, counterexample. At the duration -1, which is not positive, `classifyBeat` does not
fail: it divides and returns the label Bradycardia (the quotient is -60).  At the zeros it
returns a label as well: Tachycardia at `0.0` and Bradycardia at `-0.0`. -/
theorem classifyBeat_negative_returns_label :
    (-1 : ℚ) ≤ 0 ∧ fl64 (60 / (-1)) = -60 ∧
    classifyBeatFl fl64 false (-1) = "Bradycardia" ∧
    classifyBeatFl fl64 false 0 = "Tachycardia" ∧
    classifyBeatFl fl64 true 0 = "Bradycardia" := by
  decide!

/-- C3, amended. For every duration `d ≤ 0`, `classifyBeat` does not fail: it has no guard,
it divides and it returns one of the three rhythm labels; for `d < 0` the label is
Bradycardia, the quotient being negative; for a zero it is Tachycardia at `0.0` (the quotient
is `+∞`) and Bradycardia at `-0.0` (the quotient is `-∞`). -/
theorem classifyBeatFl_nonpositive (fl : ℚ → ℚ) (hfl : IsRounding fl) (z : Bool) (d : ℚ)
    (hd : d ≤ 0) :
    (classifyBeatFl fl z d = "Bradycardia" ∨ classifyBeatFl fl z d = "Tachycardia" ∨
      classifyBeatFl fl z d = "Normal") ∧
    (d < 0 → classifyBeatFl fl z d = "Bradycardia") ∧
    (d = 0 → classifyBeatFl fl z d = if z then "Bradycardia" else "Tachycardia") := by
  have hzero : d = 0 → classifyBeatFl fl z d = if z then "Bradycardia" else "Tachycardia" := by
    intro h0
    rw [h0]
    cases z
    · exact (classifyBeatFl_zero fl).1
    · exact (classifyBeatFl_zero fl).2
  refine ⟨?_, ?_, hzero⟩
  · rcases eq_or_lt_of_le hd with h0 | hneg
    · rw [hzero h0]
      cases z
      · exact Or.inr (Or.inl rfl)
      · exact Or.inl rfl
    · rw [classifyBeatFl_of_ne_zero fl z d (ne_of_lt hneg)]
      split_ifs
      · exact Or.inl rfl
      · exact Or.inr (Or.inl rfl)
      · exact Or.inr (Or.inr rfl)
  · intro hneg
    rw [classifyBeatFl_of_ne_zero fl z d (ne_of_lt hneg)]
    have hq : 60 / d ≤ 0 := le_of_lt (div_neg_of_pos_of_neg (by norm_num) hneg)
    have h1 := hfl.mono hq
    rw [hfl.zero] at h1
    rw [if_pos (by linarith)]

/-- C3, amended, in binary64 at the duration -1/2 and at the two zeros. -/
theorem classifyBeatFl_nonpositive_witness :
    IsRounding fl64 ∧ (-1 / 2 : ℚ) ≤ 0 ∧ (0 : ℚ) ≤ 0 ∧
    classifyBeatFl fl64 false (-1 / 2) = "Bradycardia" ∧
    classifyBeatFl fl64 false 0 = "Tachycardia" ∧
    classifyBeatFl fl64 true 0 = "Bradycardia" :=
  ⟨isRounding_fl64, by norm_num, le_refl 0,
    (classifyBeatFl_nonpositive fl64 isRounding_fl64 false (-1 / 2) (by norm_num)).2.1
      (by norm_num),
    (classifyBeatFl_nonpositive fl64 isRounding_fl64 false 0 (le_refl 0)).2.2 rfl,
    (classifyBeatFl_nonpositive fl64 isRounding_fl64 true 0 (le_refl 0)).2.2 rfl⟩

/-! ## C4: the value of findThreshold -/

/-- C4, counterexample. The window `[0, 1]` of `negativeSignal` contains both samples and the
maximum of its voltages is -1, but `findThreshold` returns 0, not `0.7 * (-1)`.  The window
`[0, 1]` of `ninetySignal` has the maximum 90, and `findThreshold` returns the double
`62.99999999999999`, which is below `0.7 * 90 = 63`. -/
theorem findThresholdFl_not_product :
    (negativeSignal.time.length = negativeSignal.voltage.length ∧
      windowVoltages negativeSignal 0 1 ≠ [] ∧
      IsMaxOf (windowVoltages negativeSignal 0 1) (-1) ∧
      findThresholdFl fl64 negativeSignal 0 1 = 0 ∧
      findThresholdFl fl64 negativeSignal 0 1 ≠ 7 / 10 * (-1)) ∧
    (ninetySignal.time.length = ninetySignal.voltage.length ∧
      windowVoltages ninetySignal 0 1 ≠ [] ∧
      IsMaxOf (windowVoltages ninetySignal 0 1) 90 ∧
      findThresholdFl fl64 ninetySignal 0 1 = 8866461766385663 / 140737488355328 ∧
      findThresholdFl fl64 ninetySignal 0 1 < 7 / 10 * 90) := by
  decide!

/-- C4, amended. For a record with as many times as voltages and a closed window that
contains at least one sample time, `findThreshold` returns the double product of `max 0 m`
and `0.7`, where `m` is the maximum of the voltages of the samples whose time lies in the
window: the exact product of `max 0 m` and the double nearest to 0.7, rounded.  It is the
double product of `m` and `0.7` whenever `m` is not negative. -/
theorem findThresholdFl_eq (fl : ℚ → ℚ) (record : ECGRecord) (start_time end_time : ℚ)
    (hlen : record.time.length = record.voltage.length)
    (hne : windowVoltages record start_time end_time ≠ []) :
    ∃ m, IsMaxOf (windowVoltages record start_time end_time) m ∧
      findThresholdFl fl record start_time end_time = fl (max 0 m * fl (7 / 10)) ∧
      (0 ≤ m → findThresholdFl fl record start_time end_time = fl (m * fl (7 / 10))) := by
  obtain ⟨m, hm⟩ := exists_isMaxOf _ hne
  have key : findThresholdFl fl record start_time end_time = fl (max 0 m * fl (7 / 10)) := by
    unfold findThresholdFl
    simp only []
    rw [windowMaxVoltage_eq_max record start_time end_time m hlen hm]
  refine ⟨m, hm, key, ?_⟩
  intro h0
  rw [key, max_eq_right h0]

/-- C4, amended, in binary64 at the window `[0, 1]` of `mixedSignal`. -/
theorem findThresholdFl_eq_witness :
    mixedSignal.time.length = mixedSignal.voltage.length ∧
    windowVoltages mixedSignal 0 1 ≠ [] ∧
    ∃ m, IsMaxOf (windowVoltages mixedSignal 0 1) m ∧
      findThresholdFl fl64 mixedSignal 0 1 = fl64 (max 0 m * fl64 (7 / 10)) ∧
      (0 ≤ m → findThresholdFl fl64 mixedSignal 0 1 = fl64 (m * fl64 (7 / 10))) :=
  ⟨by decide, by decide!, findThresholdFl_eq fl64 mixedSignal 0 1 (by decide) (by decide!)⟩

/-! ## C5: the gap between consecutive beats -/

theorem gateFl_fl64 : gateFl fl64 = fl64 (3 / 100) ∧ fl64 (3 / 100) < 3 / 100 ∧
    0 < gateFl fl64 ∧ fl64 (3 / 100 - 1 / 100000000000000000) < gateFl fl64 := by
  decide!

/-- C5, counterexample. On `gapSignal`, whose times are doubles, `findRPeaks` returns the
beats 0 and the double nearest to 0.03; they are consecutive and less than `3/100` seconds
apart. -/
theorem findRPeaks_gap_below_exact :
    gapSignal.time.length = gapSignal.voltage.length ∧
    (∀ t ∈ gapSignal.time, fl64 t = t) ∧
    findRPeaksFl fl64 1 gapSignal = some [Beat.mk 0, Beat.mk (fl64 (3 / 100))] ∧
    beatTime [Beat.mk 0, Beat.mk (fl64 (3 / 100))] 1
      - beatTime [Beat.mk 0, Beat.mk (fl64 (3 / 100))] 0 < 3 / 100 := by
  decide!

/-- C5, amended. For every record, any two consecutive beats of what `findRPeaks` returns in
double arithmetic passed the gate: their rounded difference is not below the rounded product
`MIN_RR_INTERVAL * 0.1`, and their exact difference is above every number that rounds below
that product.  In binary64 the product is the double nearest to 0.03, which is below `3/100`,
and `0.03 - 1e-17` rounds below it. -/
theorem findRPeaksFl_min_gap (fl : ℚ → ℚ) (hfl : IsRounding fl) (fuel : Nat)
    (record : ECGRecord) (beats : List Beat) (h : findRPeaksFl fl fuel record = some beats)
    (k : Nat) (hk : k + 1 < beats.length) :
    gateFl fl ≤ fl (beatTime beats (k + 1) - beatTime beats k) ∧
    (∀ y, fl y < gateFl fl → y < beatTime beats (k + 1) - beatTime beats k) ∧
    (gateFl fl64 = fl64 (3 / 100) ∧ fl64 (3 / 100) < 3 / 100 ∧
      fl64 (3 / 100 - 1 / 100000000000000000) < gateFl fl64) := by
  have hgap := gapChainFl_index fl beats (findRPeaksFl_gapChain fl fuel record beats h) k hk
  refine ⟨not_lt.mp hgap, ?_, gateFl_fl64.1, gateFl_fl64.2.1, gateFl_fl64.2.2.2⟩
  intro y hy
  by_contra hle
  exact hgap (lt_of_le_of_lt (hfl.mono (not_lt.mp hle)) hy)

/-- C5, amended, in binary64 at the two beats of `gapSignal`: their distance is above
`0.03 - 1e-17`. -/
theorem findRPeaksFl_min_gap_witness :
    IsRounding fl64 ∧
    findRPeaksFl fl64 1 gapSignal = some [Beat.mk 0, Beat.mk (fl64 (3 / 100))] ∧
    0 + 1 < [Beat.mk 0, Beat.mk (fl64 (3 / 100))].length ∧
    gateFl fl64 ≤ fl64 (beatTime [Beat.mk 0, Beat.mk (fl64 (3 / 100))] (0 + 1)
      - beatTime [Beat.mk 0, Beat.mk (fl64 (3 / 100))] 0) ∧
    3 / 100 - 1 / 100000000000000000 < beatTime [Beat.mk 0, Beat.mk (fl64 (3 / 100))] (0 + 1)
      - beatTime [Beat.mk 0, Beat.mk (fl64 (3 / 100))] 0 :=
  ⟨isRounding_fl64, by decide!, by decide,
    (findRPeaksFl_min_gap fl64 isRounding_fl64 1 gapSignal
      [Beat.mk 0, Beat.mk (fl64 (3 / 100))] (by decide!) 0 (by decide)).1,
    (findRPeaksFl_min_gap fl64 isRounding_fl64 1 gapSignal
      [Beat.mk 0, Beat.mk (fl64 (3 / 100))] (by decide!) 0 (by decide)).2.1 _ (by decide!)⟩

/-! ## C6: two candidates closer than the gate -/

/-- C6, counterexample. The times of `dedupDoubles` are non-decreasing and its samples 3 and
5, at the doubles nearest to 1.02 and 1.04, are peak candidates less than 0.03 s apart, but
`findRPeaks` returns the beats 1 and 1.04: of the two candidates the second is retained and
the first is not, the first being suppressed by the beat at 1.  On `gapSignal` the samples 1
and 3, at 0 and at the double nearest to 0.03, are peak candidates less than `3/100` seconds
apart and both are retained. -/
theorem dedup_second_retained :
    (dedupDoubles.time.Sorted (· ≤ ·) ∧
      IsPeakCandidateFl fl64 1 dedupDoubles 3 ∧ IsPeakCandidateFl fl64 1 dedupDoubles 5 ∧
      dedupDoubles.time.getD 3 0 ≤ dedupDoubles.time.getD 5 0 ∧
      dedupDoubles.time.getD 5 0 - dedupDoubles.time.getD 3 0 < 3 / 100 ∧
      findRPeaksFl fl64 1 dedupDoubles = some [Beat.mk 1, Beat.mk (fl64 (26 / 25))] ∧
      Beat.mk (dedupDoubles.time.getD 3 0) ∉ [Beat.mk 1, Beat.mk (fl64 (26 / 25))] ∧
      Beat.mk (dedupDoubles.time.getD 5 0) ∈ [Beat.mk 1, Beat.mk (fl64 (26 / 25))]) ∧
    (gapSignal.time.Sorted (· ≤ ·) ∧
      IsPeakCandidateFl fl64 1 gapSignal 1 ∧ IsPeakCandidateFl fl64 1 gapSignal 3 ∧
      gapSignal.time.getD 1 0 ≤ gapSignal.time.getD 3 0 ∧
      gapSignal.time.getD 3 0 - gapSignal.time.getD 1 0 < 3 / 100 ∧
      findRPeaksFl fl64 1 gapSignal = some [Beat.mk 0, Beat.mk (fl64 (3 / 100))] ∧
      Beat.mk (gapSignal.time.getD 1 0) ∈ [Beat.mk 0, Beat.mk (fl64 (3 / 100))] ∧
      Beat.mk (gapSignal.time.getD 3 0) ∈ [Beat.mk 0, Beat.mk (fl64 (3 / 100))]) := by
  decide!

/-- C6, amended. In double arithmetic, for a record with non-decreasing times whose loop
counter advances and two peak candidates at the times `t1 < t2` whose rounded difference
`t2 - t1` is below the rounded product `MIN_RR_INTERVAL * 0.1`: `findRPeaks` returns; if `t1`
is a returned beat then `t2` is not; and if `t1` is not a returned beat then a returned beat
`b < t1` is closer to `t1` than the gate (the first candidate is itself suppressed by an
earlier beat, and then the second may be retained). -/
theorem dedupFl_first_retained (fl : ℚ → ℚ) (hfl : IsRounding fl) (hgate : 0 < gateFl fl)
    (record : ECGRecord) (hsorted : record.time.Sorted (· ≤ ·))
    (hadv : Advances fl (record.time.headD 0) (record.time.getLastD 0)) (fuel : Nat)
    (hfuel : record.time.getLastD 0 - record.time.headD 0 ≤ fuel) (i j : Nat)
    (hi : IsPeakCandidateFl fl fuel record i) (_hj : IsPeakCandidateFl fl fuel record j)
    (hlt : record.time.getD i 0 < record.time.getD j 0)
    (hclose : fl (record.time.getD j 0 - record.time.getD i 0) < gateFl fl) :
    ∃ beats, findRPeaksFl fl fuel record = some beats ∧
      (Beat.mk (record.time.getD i 0) ∈ beats → Beat.mk (record.time.getD j 0) ∉ beats) ∧
      (Beat.mk (record.time.getD i 0) ∉ beats →
        ∃ b ∈ beats, b.rPeakTime < record.time.getD i 0 ∧
          fl (record.time.getD i 0 - b.rPeakTime) < gateFl fl) := by
  obtain ⟨beats, hret, hcand⟩ := findRPeaksFl_candidates fl record hsorted hadv fuel hfuel
  refine ⟨beats, hret, ?_, ?_⟩
  · intro h1 h2
    exact findRPeaksFl_separated fl hfl hgate fuel record beats hret _ _ h1 h2 hlt hclose
  · intro h1
    rcases hcand i hi with hmem | ⟨b, hb, hgap, hle⟩
    · exact absurd hmem h1
    · refine ⟨b, hb, lt_of_le_of_ne hle ?_, hgap⟩
      intro heq
      apply h1
      have : b = Beat.mk (record.time.getD i 0) := by
        cases b
        simp only [Beat.mk.injEq]
        exact heq
      rw [← this]
      exact hb

/-- C6, amended, in binary64 at the candidates 1.00 and 1.02 of `dedupDoubles`: the first is
a returned beat, so the second is not. -/
theorem dedupFl_first_retained_witness :
    IsRounding fl64 ∧ 0 < gateFl fl64 ∧ dedupDoubles.time.Sorted (· ≤ ·) ∧
    Advances fl64 (dedupDoubles.time.headD 0) (dedupDoubles.time.getLastD 0) ∧
    dedupDoubles.time.getLastD 0 - dedupDoubles.time.headD 0 ≤ (2 : Nat) ∧
    IsPeakCandidateFl fl64 2 dedupDoubles 1 ∧ IsPeakCandidateFl fl64 2 dedupDoubles 3 ∧
    dedupDoubles.time.getD 1 0 < dedupDoubles.time.getD 3 0 ∧
    fl64 (dedupDoubles.time.getD 3 0 - dedupDoubles.time.getD 1 0) < gateFl fl64 ∧
    ∃ beats, findRPeaksFl fl64 2 dedupDoubles = some beats ∧
      (Beat.mk (dedupDoubles.time.getD 1 0) ∈ beats →
        Beat.mk (dedupDoubles.time.getD 3 0) ∉ beats) ∧
      (Beat.mk (dedupDoubles.time.getD 1 0) ∉ beats →
        ∃ b ∈ beats, b.rPeakTime < dedupDoubles.time.getD 1 0 ∧
          fl64 (dedupDoubles.time.getD 1 0 - b.rPeakTime) < gateFl fl64) :=
  ⟨isRounding_fl64, by decide!, by decide!,
    fl64_advances _ _ (by decide!) (by decide!), by decide!, by decide!, by decide!,
    by decide!, by decide!,
    dedupFl_first_retained fl64 isRounding_fl64 (by decide!) dedupDoubles (by decide!)
      (fl64_advances _ _ (by decide!) (by decide!)) 2 (by decide!) 1 3 (by decide!)
      (by decide!) (by decide!) (by decide!)⟩

/-! ## C10: signals with fewer than three samples -/

/-- C10, the failing input. The two times of `stallSignal` are doubles, and adding `5.0` to
the first one gives the first one again: the counter of the window loop stays below the last
time, and `findRPeaks` does not return, whatever the number of iterations. -/
theorem findRPeaks_stalls :
    stallSignal.time.length = 2 ∧ stallSignal.voltage.length = 2 ∧
    (∀ t ∈ stallSignal.time, fl64 t = t) ∧
    fl64 (stallSignal.time.headD 0 + STEP_SIZE) = stallSignal.time.headD 0 ∧
    stallSignal.time.headD 0 < stallSignal.time.getLastD 0 ∧
    ∀ fuel, findRPeaksFl fl64 fuel stallSignal = none := by
  refine ⟨rfl, rfl, by decide!, by decide!, by decide!, ?_⟩
  intro fuel
  rw [findRPeaksFl_eq_trace, windowTraceFl_stall fl64 _ _ (by decide!) (by decide!) fuel]
  rfl

/-- On a two-sample signal whose times are small `findRPeaks` returns the empty sequence. -/
theorem findRPeaksFl_short_returns_witness :
    twoSampleSignal.time.length < 3 ∧
    findRPeaksFl fl64 7 twoSampleSignal = some [] :=
  ⟨by decide, findRPeaksFl_short_returns fl64 twoSampleSignal (by decide)
    (fl64_advances _ _ (by decide!) (by decide!)) 7 (by decide!)⟩

/-! ## The record of the window tests -/

theorem scanStepLog_fst (fl : ℚ → ℚ) (record : ECGRecord)
    (currentTime intervalEnd threshold : ℚ) (state : List Beat × List ((ℚ × ℚ) × Nat))
    (i : Nat) :
    (scanStepLog fl record currentTime intervalEnd threshold state i).1 =
      scanStepFl fl record currentTime intervalEnd threshold state.1 i := by
  unfold scanStepLog scanStepFl
  simp only []
  split_ifs with h1 h2
  · cases hlast : state.1.getLast? with
    | none => rfl
    | some lastBeat =>
      simp only []
      split_ifs <;> rfl
  · rfl
  · rfl

theorem scanStepLog_snd (fl : ℚ → ℚ) (record : ECGRecord)
    (currentTime intervalEnd threshold : ℚ) (state : List Beat × List ((ℚ × ℚ) × Nat))
    (i : Nat) :
    (scanStepLog fl record currentTime intervalEnd threshold state i).2 =
      state.2 ++ (if currentTime ≤ record.time.getD i 0 ∧ record.time.getD i 0 ≤ intervalEnd
        then [((currentTime, intervalEnd), i)] else []) := by
  unfold scanStepLog
  simp only []
  split_ifs with h1 h2
  · cases hlast : state.1.getLast? with
    | none => rfl
    | some lastBeat =>
      simp only []
      split_ifs <;> rfl
  · rfl
  · simp

theorem scanFoldLog_fst (fl : ℚ → ℚ) (record : ECGRecord)
    (currentTime intervalEnd threshold : ℚ) (l : List Nat)
    (state : List Beat × List ((ℚ × ℚ) × Nat)) :
    (l.foldl (scanStepLog fl record currentTime intervalEnd threshold) state).1 =
      l.foldl (scanStepFl fl record currentTime intervalEnd threshold) state.1 := by
  induction l generalizing state with
  | nil => rfl
  | cons j l ih =>
    rw [List.foldl_cons, List.foldl_cons, ih, scanStepLog_fst]

theorem testsOf_step (T : Nat → Prop) [DecidablePred T] (w : ℚ × ℚ) (i j : Nat)
    (l : List Nat) (hj : j ∉ l) :
    (((if T j then [(w, j)] else []).filter (fun entry => decide (entry.2 = i))).map
        Prod.fst) ++ (if i ∈ l ∧ T i then [w] else []) =
      if i ∈ j :: l ∧ T i then [w] else [] := by
  by_cases hij : j = i
  · subst hij
    by_cases hw : T j
    · simp [hw, hj]
    · simp [hw]
  · have hji : i ≠ j := fun h => hij h.symm
    by_cases hw : T j
    · simp [hw, hij, hji]
    · simp [hw, hji]

/-- The scan of a window records a sample of the scan exactly when its time passes the window
test, and once. -/
theorem scanFoldLog_testsOf (fl : ℚ → ℚ) (record : ECGRecord)
    (currentTime intervalEnd threshold : ℚ) (i : Nat) (l : List Nat) (hl : l.Nodup)
    (state : List Beat × List ((ℚ × ℚ) × Nat)) :
    testsOf (l.foldl (scanStepLog fl record currentTime intervalEnd threshold) state).2 i =
      testsOf state.2 i ++
        (if i ∈ l ∧ (currentTime ≤ record.time.getD i 0 ∧ record.time.getD i 0 ≤ intervalEnd)
          then [(currentTime, intervalEnd)] else []) := by
  induction l generalizing state with
  | nil => simp
  | cons j l ih =>
    rw [List.foldl_cons, ih (List.nodup_cons.mp hl).2, scanStepLog_snd]
    have hj : j ∉ l := (List.nodup_cons.mp hl).1
    unfold testsOf
    rw [List.filter_append, List.map_append, List.append_assoc]
    congr 1
    exact testsOf_step
      (fun k => currentTime ≤ record.time.getD k 0 ∧ record.time.getD k 0 ≤ intervalEnd)
      (currentTime, intervalEnd) i j l hj

theorem runWindowLog_fst (fl : ℚ → ℚ) (record : ECGRecord)
    (state : List Beat × List ((ℚ × ℚ) × Nat)) (w : ℚ × ℚ) :
    (runWindowLog fl record state w).1 = runWindowFl fl record state.1 w :=
  scanFoldLog_fst fl record _ _ _ _ state

theorem runWindowLog_testsOf (fl : ℚ → ℚ) (record : ECGRecord)
    (state : List Beat × List ((ℚ × ℚ) × Nat)) (w : ℚ × ℚ) (i : Nat)
    (hint : 1 ≤ i ∧ i + 1 < record.time.length) :
    testsOf (runWindowLog fl record state w).2 i =
      testsOf state.2 i ++
        (if w.1 ≤ record.time.getD i 0 ∧ record.time.getD i 0 ≤ w.2 then [w] else []) := by
  unfold runWindowLog
  rw [scanFoldLog_testsOf fl record _ _ _ i (interiorIndices record)
    (by unfold interiorIndices; exact List.nodup_range' _ _) state]
  have hmem : i ∈ interiorIndices record := by
    unfold interiorIndices
    rw [List.mem_range'_1]
    omega
  simp only [hmem, true_and]

theorem foldWindowsLog (fl : ℚ → ℚ) (record : ECGRecord) (i : Nat)
    (hint : 1 ≤ i ∧ i + 1 < record.time.length) (trace : List (ℚ × ℚ))
    (state : List Beat × List ((ℚ × ℚ) × Nat)) :
    (trace.foldl (runWindowLog fl record) state).1
      = trace.foldl (runWindowFl fl record) state.1 ∧
    testsOf (trace.foldl (runWindowLog fl record) state).2 i =
      testsOf state.2 i ++ trace.filter
        (fun w => decide (w.1 ≤ record.time.getD i 0 ∧ record.time.getD i 0 ≤ w.2)) := by
  induction trace generalizing state with
  | nil => simp
  | cons w rest ih =>
    rw [List.foldl_cons, List.foldl_cons]
    obtain ⟨h1, h2⟩ := ih (runWindowLog fl record state w)
    rw [h1, h2, runWindowLog_fst, runWindowLog_testsOf fl record state w i hint,
      List.append_assoc]
    refine ⟨rfl, ?_⟩
    congr 1
    by_cases hw : w.1 ≤ record.time.getD i 0 ∧ record.time.getD i 0 ≤ w.2
    · rw [if_pos hw, List.filter_cons_of_pos (by simpa using hw)]
      rfl
    · rw [if_neg hw, List.filter_cons_of_neg (by simpa using hw)]
      rfl

theorem windowLoopLog_eq_trace (fl : ℚ → ℚ) (record : ECGRecord) (endTime : ℚ) (fuel : Nat) :
    ∀ (currentTime : ℚ) (state : List Beat × List ((ℚ × ℚ) × Nat)),
      windowLoopLog fl record endTime fuel currentTime state =
        (windowTraceFl fl endTime fuel currentTime).map
          (fun trace => trace.foldl (runWindowLog fl record) state) := by
  induction fuel with
  | zero =>
    intro c b
    unfold windowLoopLog windowTraceFl
    split_ifs <;> rfl
  | succ fuel ih =>
    intro c b
    unfold windowLoopLog windowTraceFl
    split_ifs with h
    · rw [ih]
      cases windowTraceFl fl endTime fuel (fl (c + STEP_SIZE)) with
      | none => rfl
      | some rest => rfl
    · rfl

theorem findRPeaksLog_eq_trace (fl : ℚ → ℚ) (fuel : Nat) (record : ECGRecord) :
    findRPeaksLog fl fuel record =
      (windowTraceFl fl (record.time.getLastD 0) fuel (record.time.headD 0)).map
        (fun trace => trace.foldl (runWindowLog fl record) ([], [])) := by
  unfold findRPeaksLog
  split_ifs with hempty
  · have ht : record.time = [] := List.isEmpty_iff.mp hempty
    rw [ht]
    rw [windowTraceFl_of_not_lt fl _ _ fuel (by simp)]
    rfl
  · exact windowLoopLog_eq_trace fl record _ fuel _ _

/-- The beats computed along with the record of the window tests are those of
`findRPeaks`. -/
theorem findRPeaksLog_fst (fl : ℚ → ℚ) (fuel : Nat) (record : ECGRecord) :
    (findRPeaksLog fl fuel record).map Prod.fst = findRPeaksFl fl fuel record := by
  rw [findRPeaksLog_eq_trace, findRPeaksFl_eq_trace]
  cases windowTraceFl fl (record.time.getLastD 0) fuel (record.time.headD 0) with
  | none => rfl
  | some trace =>
    simp only [Option.map_some', Option.some.injEq]
    induction trace using List.reverseRecOn with
    | nil => rfl
    | append_singleton rest w ih =>
      rw [List.foldl_append, List.foldl_append, List.foldl_cons, List.foldl_cons,
        List.foldl_nil, List.foldl_nil, runWindowLog_fst, ih]

/-! ## C14: the windows that test a sample -/

/-- C14, counterexample. The times of `boundarySignal` are 0, 5 and 10; the loop runs the
windows `[0, 5]` and `[5, 10]`, and the interior sample, at the time 5, passes the window test
in both.  The times of `offsetSignal` are the doubles nearest to 0.7 and 5.7, and 10; the sum
`0.7 + 5.0` is rounded to the double nearest to 5.7, so the interior sample passes the window
test in both windows as well. -/
theorem boundary_sample_in_two_windows :
    (boundarySignal.time.Sorted (· ≤ ·) ∧
      boundarySignal.time.headD 0 < boundarySignal.time.getLastD 0 ∧
      (1 ≤ 1 ∧ 1 + 1 < boundarySignal.time.length) ∧
      findRPeaksLog fl64 2 boundarySignal
        = some ([Beat.mk 5], [((0, 5), 1), ((5, 10), 1)]) ∧
      testsOf [((0, 5), 1), ((5, 10), 1)] 1 = [(0, 5), (5, 10)]) ∧
    (offsetSignal.time.Sorted (· ≤ ·) ∧
      offsetSignal.time.headD 0 < offsetSignal.time.getLastD 0 ∧
      (1 ≤ 1 ∧ 1 + 1 < offsetSignal.time.length) ∧
      (∀ t ∈ offsetSignal.time, fl64 t = t) ∧
      findRPeaksLog fl64 2 offsetSignal
        = some ([Beat.mk (fl64 (57 / 10))],
            [((fl64 (7 / 10), fl64 (57 / 10)), 1), ((fl64 (57 / 10), 10), 1)]) ∧
      testsOf [((fl64 (7 / 10), fl64 (57 / 10)), 1), ((fl64 (57 / 10), 10), 1)] 1
        = [(fl64 (7 / 10), fl64 (57 / 10)), (fl64 (57 / 10), 10)]) := by
  refine ⟨⟨by decide!, by decide!, by decide, by decide!, by decide!⟩,
    by decide!, by decide!, by decide, by decide!, by decide!, by decide!⟩

/-- C14, amended. In double arithmetic, for a record with non-decreasing times, the first
time below the last, and a loop counter that advances: `findRPeaks` returns after running
the windows `loopWindows`, which are contiguous (the first starts at the first time, each
other one starts where the one before ends, at the rounded sum `currentTime + STEP_SIZE`; a
window ends at `min (currentTime + INTERVAL_SIZE) lastTime`), and every interior sample is
tested in the windows whose window test its time passes: in exactly one window, except when
its time is the start of a window after the first, and then in exactly two. -/
theorem interior_sample_tested (fl : ℚ → ℚ) (record : ECGRecord)
    (hsorted : record.time.Sorted (· ≤ ·))
    (hlt : record.time.headD 0 < record.time.getLastD 0)
    (hadv : Advances fl (record.time.headD 0) (record.time.getLastD 0)) (fuel : Nat)
    (hfuel : record.time.getLastD 0 - record.time.headD 0 ≤ fuel)
    (i : Nat) (hint : 1 ≤ i ∧ i + 1 < record.time.length) :
    ∃ beats tested, findRPeaksLog fl fuel record = some (beats, tested) ∧
      findRPeaksFl fl fuel record = some beats ∧
      (beats, tested) = (loopWindows fl fuel record).foldl (runWindowLog fl record) ([], []) ∧
      testsOf tested i = windowsTesting fl fuel record i ∧
      (∀ w, (loopWindows fl fuel record).head? = some w → w.1 = record.time.headD 0) ∧
      (∀ w ∈ loopWindows fl fuel record,
        w.2 = min (fl (w.1 + INTERVAL_SIZE)) (record.time.getLastD 0)) ∧
      List.Chain' (fun w w' : ℚ × ℚ => w.1 < w'.1 ∧ w.2 = w'.1 ∧ w'.1 = fl (w.1 + STEP_SIZE))
        (loopWindows fl fuel record) ∧
      (testsOf tested i).length =
        if ∃ w ∈ (loopWindows fl fuel record).tail, w.1 = record.time.getD i 0
        then 2 else 1 := by
  obtain ⟨htrace, hret⟩ := findRPeaksFl_returns fl record hadv fuel hfuel
  obtain ⟨hch, hin, hhead, _⟩ := windowTraceFl_contiguous fl _ fuel _ _ hadv htrace
  have hmem := windowTraceFl_mem fl _ fuel _ _ htrace
  obtain ⟨hb1, hb2⟩ := interior_between record hsorted i hint
  obtain ⟨hfst, htests⟩ :=
    foldWindowsLog fl record i hint (loopWindows fl fuel record) ([], [])
  have htests2 : testsOf ((loopWindows fl fuel record).foldl (runWindowLog fl record)
      ([], [])).2 i = windowsTesting fl fuel record i := by
    rw [htests]
    rfl
  refine ⟨((loopWindows fl fuel record).foldl (runWindowLog fl record) ([], [])).1,
    ((loopWindows fl fuel record).foldl (runWindowLog fl record) ([], [])).2,
    ?_, ?_, rfl, htests2, hhead, fun w hw => (hmem w hw).2, ?_, ?_⟩
  · rw [findRPeaksLog_eq_trace, htrace]
    rfl
  · rw [hret, hfst]
  · rw [List.chain'_iff_get] at hch ⊢
    intro k hk
    obtain ⟨h1, h2⟩ := hch k hk
    refine ⟨h1, h2, ?_⟩
    have hw := hmem _ (List.get_mem (loopWindows fl fuel record) k (by omega))
    have hw' := hin _ (List.get_mem (loopWindows fl fuel record) (k + 1) (by omega))
    rw [← h2, hw.2]
    have hlt2 : min (fl (((loopWindows fl fuel record).get ⟨k, by omega⟩).1 + INTERVAL_SIZE))
        (record.time.getLastD 0) < record.time.getLastD 0 := by
      rw [← hw.2, h2]
      exact lt_of_lt_of_le hw'.2.1 hw'.2.2
    rcases min_choice (fl (((loopWindows fl fuel record).get ⟨k, by omega⟩).1 + INTERVAL_SIZE))
        (record.time.getLastD 0) with hm | hm
    · rw [hm]; rfl
    · rw [hm] at hlt2; exact absurd hlt2 (lt_irrefl _)
  · rw [htests2]
    unfold windowsTesting
    exact windowTraceFl_count fl _ fuel _ _ _ hadv htrace hlt hb1 hb2

/-- C14, amended, in binary64 at the scenario signal and its sample 2, which is tested in
one window, and at `boundarySignal` and its sample 1, which is tested in two. -/
theorem interior_sample_tested_witness :
    scenarioSignal.time.Sorted (· ≤ ·) ∧
    scenarioSignal.time.headD 0 < scenarioSignal.time.getLastD 0 ∧
    Advances fl64 (scenarioSignal.time.headD 0) (scenarioSignal.time.getLastD 0) ∧
    scenarioSignal.time.getLastD 0 - scenarioSignal.time.headD 0 ≤ (5 : Nat) ∧
    (1 ≤ 2 ∧ 2 + 1 < scenarioSignal.time.length) ∧
    (∃ beats tested, findRPeaksLog fl64 5 scenarioSignal = some (beats, tested) ∧
      findRPeaksFl fl64 5 scenarioSignal = some beats ∧
      (testsOf tested 2).length = 1) ∧
    (∃ beats tested, findRPeaksLog fl64 10 boundarySignal = some (beats, tested) ∧
      findRPeaksFl fl64 10 boundarySignal = some beats ∧
      (testsOf tested 1).length = 2) := by
  refine ⟨by decide!, by decide!, fl64_advances _ _ (by decide!) (by decide!), by decide!,
    by decide, ?_, ?_⟩
  · obtain ⟨beats, tested, h1, h2, _, _, _, _, _, h3⟩ :=
      interior_sample_tested fl64 scenarioSignal (by decide!) (by decide!)
        (fl64_advances _ _ (by decide!) (by decide!)) 5 (by decide!) 2 (by decide)
    refine ⟨beats, tested, h1, h2, ?_⟩
    rw [h3]
    decide!
  · obtain ⟨beats, tested, h1, h2, _, _, _, _, _, h3⟩ :=
      interior_sample_tested fl64 boundarySignal (by decide!) (by decide!)
        (fl64_advances _ _ (by decide!) (by decide!)) 10 (by decide!) 1 (by decide)
    refine ⟨beats, tested, h1, h2, ?_⟩
    rw [h3]
    decide!

/-! ## C17: the threshold is never negative -/

/-- C17, counterexample. The window `[0, 4]` of `dominantSignal` has the maximum voltage 187,
and `findThreshold` returns the double nearest to 130.9, which is above `0.7 * 187`: the
threshold is the rounded product, not the product. -/
theorem findThresholdFl_above_product :
    dominantSignal.time.length = dominantSignal.voltage.length ∧
    IsMaxOf (0 :: windowVoltages dominantSignal 0 4) 187 ∧
    findThresholdFl fl64 dominantSignal 0 4 = fl64 (1309 / 10) ∧
    findThresholdFl fl64 dominantSignal 0 4 > 7 / 10 * 187 ∧
    findThresholdFl fl64 dominantSignal 0 4 ≠ 7 / 10 * max 0 187 := by
  decide!

/-- C17, amended. In double arithmetic, for a record with as many times as voltages:
`findThreshold` is never negative, being the double product of `0.7` and the maximum of 0 and
the voltages in the window; every beat `findRPeaks` returns is the time of an interior sample
with a strictly positive voltage; and when no voltage is positive, whatever `findRPeaks`
returns is empty, and it does return the empty sequence when the loop counter advances. -/
theorem findThresholdFl_nonneg_beats_positive (fl : ℚ → ℚ) (hfl : IsRounding fl)
    (record : ECGRecord) (hlen : record.time.length = record.voltage.length) :
    (∀ start_time end_time : ℚ,
      0 ≤ findThresholdFl fl record start_time end_time ∧
      ∃ M, IsMaxOf (0 :: windowVoltages record start_time end_time) M ∧
        findThresholdFl fl record start_time end_time = fl (M * fl (7 / 10))) ∧
    (∀ fuel beats, findRPeaksFl fl fuel record = some beats →
      ∀ b ∈ beats, ∃ i, (1 ≤ i ∧ i + 1 < record.time.length) ∧
        b = Beat.mk (record.time.getD i 0) ∧ 0 < record.voltage.getD i 0) ∧
    ((∀ v ∈ record.voltage, v ≤ 0) →
      (∀ fuel beats, findRPeaksFl fl fuel record = some beats → beats = []) ∧
      (Advances fl (record.time.headD 0) (record.time.getLastD 0) →
        ∀ fuel : Nat, record.time.getLastD 0 - record.time.headD 0 ≤ fuel →
          findRPeaksFl fl fuel record = some [])) := by
  have hempty : (∀ v ∈ record.voltage, v ≤ 0) →
      ∀ fuel beats, findRPeaksFl fl fuel record = some beats → beats = [] := by
    intro hall fuel beats hret
    apply List.eq_nil_iff_forall_not_mem.mpr
    intro b hb
    obtain ⟨i, hint, _, hpos⟩ := findRPeaksFl_mem_positive fl hfl fuel record beats hret b hb
    have hi : i < record.voltage.length := by omega
    rw [List.getD_eq_getElem _ _ hi] at hpos
    have := hall _ (List.getElem_mem hi)
    linarith
  refine ⟨fun s e => ⟨findThresholdFl_nonneg fl hfl record s e,
      windowMaxVoltage record s e, windowMaxVoltage_isMax record s e hlen, rfl⟩,
    fun fuel beats hret b hb => findRPeaksFl_mem_positive fl hfl fuel record beats hret b hb,
    fun hall => ⟨hempty hall, ?_⟩⟩
  intro hadv fuel hfuel
  obtain ⟨_, hret⟩ := findRPeaksFl_returns fl record hadv fuel hfuel
  rw [hret, hempty hall fuel _ hret]

/-- C17, amended, in binary64: at the scenario signal every returned beat is on a positive
voltage, and on `flatSignal`, which has no positive voltage, `findRPeaks` returns the empty
sequence. -/
theorem findThresholdFl_nonneg_beats_positive_witness :
    IsRounding fl64 ∧ scenarioSignal.time.length = scenarioSignal.voltage.length ∧
    flatSignal.time.length = flatSignal.voltage.length ∧
    (∀ fuel beats, findRPeaksFl fl64 fuel scenarioSignal = some beats →
      ∀ b ∈ beats, ∃ i, (1 ≤ i ∧ i + 1 < scenarioSignal.time.length) ∧
        b = Beat.mk (scenarioSignal.time.getD i 0) ∧ 0 < scenarioSignal.voltage.getD i 0) ∧
    findRPeaksFl fl64 1 scenarioSignal
      = some [Beat.mk 1, Beat.mk 2, Beat.mk 3, Beat.mk 4] ∧
    findRPeaksFl fl64 2 flatSignal = some [] :=
  ⟨isRounding_fl64, by decide, by decide,
    (findThresholdFl_nonneg_beats_positive fl64 isRounding_fl64 scenarioSignal (by decide)).2.1,
    by decide!,
    ((findThresholdFl_nonneg_beats_positive fl64 isRounding_fl64 flatSignal (by decide)).2.2
      (by decide!)).2 (fl64_advances _ _ (by decide!) (by decide!)) 2 (by decide!)⟩

/-! ## C18: dominant peaks -/

/-- C18, counterexample. In `dominantSignal`, whose times and voltages are doubles, the
sample 3 is an interior strict local maximum with a positive voltage, the double nearest to
130.9, which is above `0.7 * 187`, and 187 is the maximum voltage of the signal.  The code
computes the threshold `187 * 0.7` as that same double, the sample is not above it, and
`findRPeaks` returns the single beat 1: the time 3 is not a beat and no beat is in
`(2.97, 3]`. -/
theorem dominant_peak_missed :
    dominantSignal.time.length = dominantSignal.voltage.length ∧
    dominantSignal.time.Sorted (· ≤ ·) ∧
    dominantSignal.time.headD 0 < dominantSignal.time.getLastD 0 ∧
    (∀ x ∈ dominantSignal.time ++ dominantSignal.voltage, fl64 x = x) ∧
    (1 ≤ 3 ∧ 3 + 1 < dominantSignal.time.length) ∧
    dominantSignal.voltage.getD 3 0 > dominantSignal.voltage.getD (3 - 1) 0 ∧
    dominantSignal.voltage.getD 3 0 > dominantSignal.voltage.getD (3 + 1) 0 ∧
    dominantSignal.voltage.getD 3 0 > 0 ∧
    IsMaxOf dominantSignal.voltage 187 ∧
    dominantSignal.voltage.getD 3 0 > 7 / 10 * 187 ∧
    findRPeaksFl fl64 1 dominantSignal = some [Beat.mk 1] ∧
    Beat.mk (dominantSignal.time.getD 3 0) ∉ [Beat.mk 1] ∧
    ¬ ∃ b ∈ [Beat.mk 1], dominantSignal.time.getD 3 0 - 3 / 100 < b.rPeakTime ∧
      b.rPeakTime ≤ dominantSignal.time.getD 3 0 := by
  decide!

/-- C18, amended. In double arithmetic, for a record with as many times as voltages,
non-decreasing times, the first time below the last and a loop counter that advances: if an
interior sample `i` is a strict local maximum with a positive voltage that is strictly above
the double product of the maximum voltage of the record and `0.7`, then `findRPeaks` returns,
and `time[i]` is a returned beat or a returned beat `b` with `time[i] - 0.03 < b ≤ time[i]`
is closer to it than the gate. -/
theorem dominant_peak_detected_fl (fl : ℚ → ℚ) (hfl : IsRounding fl)
    (hgate : gateFl fl ≤ fl (3 / 100)) (record : ECGRecord)
    (_hlen : record.time.length = record.voltage.length)
    (hsorted : record.time.Sorted (· ≤ ·))
    (hlt : record.time.headD 0 < record.time.getLastD 0)
    (hadv : Advances fl (record.time.headD 0) (record.time.getLastD 0)) (fuel : Nat)
    (hfuel : record.time.getLastD 0 - record.time.headD 0 ≤ fuel)
    (i : Nat) (hint : 1 ≤ i ∧ i + 1 < record.time.length)
    (hprev : record.voltage.getD i 0 > record.voltage.getD (i - 1) 0)
    (hnext : record.voltage.getD i 0 > record.voltage.getD (i + 1) 0)
    (hpos : record.voltage.getD i 0 > 0)
    (M : ℚ) (hM : IsMaxOf record.voltage M)
    (hdom : record.voltage.getD i 0 > fl (M * fl (7 / 10))) :
    ∃ beats, findRPeaksFl fl fuel record = some beats ∧
      (Beat.mk (record.time.getD i 0) ∈ beats ∨
      ∃ b ∈ beats, fl (record.time.getD i 0 - b.rPeakTime) < gateFl fl ∧
        record.time.getD i 0 - 3 / 100 < b.rPeakTime ∧
        b.rPeakTime ≤ record.time.getD i 0) := by
  obtain ⟨htrace, _⟩ := findRPeaksFl_returns fl record hadv fuel hfuel
  obtain ⟨beats, hret, hcand⟩ := findRPeaksFl_candidates fl record hsorted hadv fuel hfuel
  obtain ⟨hb1, hb2⟩ := interior_between record hsorted i hint
  obtain ⟨w, hw, hw1, hw2⟩ := windowTraceFl_cover fl _ fuel _ _ _ htrace hlt hb1 hb2
  have hth : record.voltage.getD i 0 > findThresholdFl fl record w.1 w.2 := by
    have hle := findThresholdFl_le_global fl hfl record w.1 w.2 M hM.2
    have hmax : fl (max 0 M * fl (7 / 10)) < record.voltage.getD i 0 := by
      rcases le_total M 0 with h | h
      · rw [max_eq_left h, zero_mul, hfl.zero]; exact hpos
      · rw [max_eq_right h]; exact hdom
    exact lt_of_le_of_lt hle hmax
  have hc : IsPeakCandidateFl fl fuel record i := ⟨w, hw, hint, ⟨hw1, hw2⟩, hth, hprev, hnext⟩
  refine ⟨beats, hret, ?_⟩
  rcases hcand i hc with hmem | ⟨b, hb, hgap, hle⟩
  · exact Or.inl hmem
  · refine Or.inr ⟨b, hb, hgap, ?_, hle⟩
    by_contra hfar
    have h1 : 3 / 100 ≤ record.time.getD i 0 - b.rPeakTime := by linarith [not_lt.mp hfar]
    have h2 := hfl.mono h1
    linarith

/-- C18, amended, in binary64 at the sample 2 of the scenario signal (time 1, voltage 1,
maximum voltage 1). -/
theorem dominant_peak_detected_fl_witness :
    IsRounding fl64 ∧ gateFl fl64 ≤ fl64 (3 / 100) ∧
    scenarioSignal.time.length = scenarioSignal.voltage.length ∧
    scenarioSignal.time.Sorted (· ≤ ·) ∧
    scenarioSignal.time.headD 0 < scenarioSignal.time.getLastD 0 ∧
    Advances fl64 (scenarioSignal.time.headD 0) (scenarioSignal.time.getLastD 0) ∧
    scenarioSignal.time.getLastD 0 - scenarioSignal.time.headD 0 ≤ (5 : Nat) ∧
    (1 ≤ 2 ∧ 2 + 1 < scenarioSignal.time.length) ∧
    scenarioSignal.voltage.getD 2 0 > scenarioSignal.voltage.getD (2 - 1) 0 ∧
    scenarioSignal.voltage.getD 2 0 > scenarioSignal.voltage.getD (2 + 1) 0 ∧
    scenarioSignal.voltage.getD 2 0 > 0 ∧
    IsMaxOf scenarioSignal.voltage 1 ∧
    scenarioSignal.voltage.getD 2 0 > fl64 (1 * fl64 (7 / 10)) ∧
    ∃ beats, findRPeaksFl fl64 5 scenarioSignal = some beats ∧
      (Beat.mk (scenarioSignal.time.getD 2 0) ∈ beats ∨
      ∃ b ∈ beats, fl64 (scenarioSignal.time.getD 2 0 - b.rPeakTime) < gateFl fl64 ∧
        scenarioSignal.time.getD 2 0 - 3 / 100 < b.rPeakTime ∧
        b.rPeakTime ≤ scenarioSignal.time.getD 2 0) :=
  ⟨isRounding_fl64, by decide!, by decide, by decide!, by decide!,
    fl64_advances _ _ (by decide!) (by decide!), by decide!, by decide, by decide!, by decide!,
    by decide!, by decide!, by decide!,
    dominant_peak_detected_fl fl64 isRounding_fl64 (by decide!) scenarioSignal (by decide)
      (by decide!) (by decide!) (fl64_advances _ _ (by decide!) (by decide!)) 5 (by decide!)
      2 (by decide) (by decide!) (by decide!) (by decide!) 1 (by decide!) (by decide!)⟩

end ECGProcessor
